import Mathlib

/-!
# Hopfield network relaxation engine

A shallow embedding of `network.h`, `network.cpp`, `temperaturemodule.h` and
`temperaturemodule.cpp`.

* `double` values are elements of an arbitrary linearly ordered field `α` with a floor
  function (exact arithmetic; `ℚ` for evaluation, `ℝ` for the mathematical reading).
  `calculatePotential` and `BernoulliTrial`, whose results depend on rounding, are embedded
  a second time under `Double.`, with every operation rounded to binary64.
* `unsigned long`, `unsigned long long`, `unsigned int` and `unsigned short` are natural
  numbers, reduced modulo `2^64`, `2^64`, `2^32` and `2^16` wherever the code increments,
  adds or shifts them.
* `std::vector` is `List`; an access outside the vector, a remainder by zero, a shift by
  the full width and a `double` to integer conversion outside the target range end the
  run with an `Abort`.
* The C library (`exp`, `log1p`, `RAND_MAX`, `rand`, `random_shuffle`) is the parameter
  `Env`.
-/

namespace Hopfield

/-! ## Error codes and abnormal ends -/

/-- Error codes of `network.h`, in declaration order (`NO_ERROR = 0`). -/
inductive errorCode
  | NO_ERROR
  | INCONSISTENCY
  | NON_SYMMETRIC
  | OUT_OF_BOUNDS
  | UNKNOWN_MODE
  | READ_FAILURE
  | FILE_NOT_OPEN
  | RANDOMIZATION
  | UNKNOWN_ERROR
  deriving DecidableEq, Repr

/-- Ways in which a run of the C++ code leaves defined behaviour or never returns. -/
inductive Abort
  /-- `operator[]` outside the bounds of a vector. -/
  | outOfRange
  /-- `%` with a zero right operand. -/
  | remainderByZero
  /-- `<<` by at least the width of the left operand. -/
  | shiftTooWide
  /-- Conversion of a `double` outside the range of `unsigned long`. -/
  | conversionOutOfRange
  /-- `exit(EXIT_FAILURE)` in `raiseError(UNKNOWN_ERROR)`. -/
  | exitFailure
  /-- The loop of `randomNumber` never reaches `bitsLeft == 0`. -/
  | nonTermination
  deriving DecidableEq, Repr

/-- Width bound of `unsigned long` and `unsigned long long`. -/
def ULONG_WIDTH : Nat := 2 ^ 64

/-- The constant `ULONG_MAX` of `limits.h`. -/
def ULONG_MAX : Nat := 2 ^ 64 - 1

/-- Width bound of `unsigned int`. -/
def UINT_WIDTH : Nat := 2 ^ 32

/-- Width bound of `unsigned short`. -/
def USHRT_WIDTH : Nat := 2 ^ 16

/-- The C library as seen by the program. `rand k` is the value returned by the call of
`rand()` that follows `k` earlier calls; `random_shuffle k l` is the content of the vector
`l` after the call of `random_shuffle` that follows `k` earlier calls. -/
structure Env (α : Type) where
  exp : α → α
  log1p : α → α
  RAND_MAX : Nat
  rand : Nat → Nat
  random_shuffle : Nat → List Nat → List Nat

/-! ## Temperature modules (`temperaturemodule.h`, `temperaturemodule.cpp`) -/

/-- The macro `ZERO_THRESHOLD` (`0.5L`). -/
def ZERO_THRESHOLD {α : Type} [LinearOrderedField α] : α := 1 / 2

/-- The macro `COMPUTED_LOGARITHMS_MAX_INDEX`. -/
def COMPUTED_LOGARITHMS_MAX_INDEX : Nat := 2

/-- The dynamic class of a temperature module with the fields its class adds. -/
inductive ModuleKind (α : Type)
  /-- Class `TemperatureModule`. -/
  | base
  /-- Class `TimeBasedTemperatureModule`. -/
  | timeBased
  /-- Class `ExpTemperatureModule`. -/
  | expModule (m_nValue : α) (m_qValue : Nat) (m_nextCoolDown : Nat)
  /-- Class `LogTemperatureModule`. -/
  | logModule (m_initialTemperature : α)
  /-- Class `LogTemperatureModuleOpt`. -/
  | logModuleOpt (m_initialTemperature : α)

/-- A temperature module object. `m_timeElapsed` is the field of
`TimeBasedTemperatureModule`; it is not used by the class `TemperatureModule` itself. -/
structure TemperatureModule (α : Type) where
  m_temperature : α
  m_timeElapsed : Nat
  kind : ModuleKind α

/-- The function-local statics of `LogTemperatureModuleOpt::coolDown`, shared by all
instances. -/
structure LogStatics (α : Type) where
  computedLogarithms : List α
  computedCount : Nat
  k : Nat

section Temperature

variable {α : Type} [LinearOrderedField α]

/-- Constructor `TemperatureModule(temperature)`. -/
def TemperatureModule.mkBase (temperature : α) : TemperatureModule α :=
  { m_temperature := temperature, m_timeElapsed := 0, kind := .base }

/-- Constructor `TimeBasedTemperatureModule(temperature)`. -/
def TemperatureModule.mkTimeBased (temperature : α) : TemperatureModule α :=
  { m_temperature := temperature, m_timeElapsed := 0, kind := .timeBased }

/-- Constructor `ExpTemperatureModule(nValue, qValue, temperature)`. -/
def TemperatureModule.mkExp (nValue : α) (qValue : Nat) (temperature : α) :
    TemperatureModule α :=
  { m_temperature := temperature, m_timeElapsed := 0,
    kind := .expModule nValue qValue qValue }

/-- Constructor `LogTemperatureModule(temperature)`. -/
def TemperatureModule.mkLog (temperature : α) : TemperatureModule α :=
  { m_temperature := temperature, m_timeElapsed := 0, kind := .logModule temperature }

/-- Constructor `LogTemperatureModuleOpt(temperature)`. -/
def TemperatureModule.mkLogOpt (temperature : α) : TemperatureModule α :=
  { m_temperature := temperature, m_timeElapsed := 0, kind := .logModuleOpt temperature }

/-- Method `isHot`: `m_temperature > ZERO_THRESHOLD`. -/
def TemperatureModule.isHot (tm : TemperatureModule α) : Bool :=
  decide (tm.m_temperature > ZERO_THRESHOLD)

/-- Method `getTemperature`. -/
def TemperatureModule.getTemperature (tm : TemperatureModule α) : α :=
  tm.m_temperature

/-- Virtual method `setTemperature`, by dynamic class. -/
def TemperatureModule.setTemperature (tm : TemperatureModule α) (temperature : α) :
    TemperatureModule α :=
  match tm.kind with
  | .base => { tm with m_temperature := temperature }
  | .timeBased => { tm with m_temperature := temperature, m_timeElapsed := 0 }
  | .expModule n q _ =>
      { m_temperature := temperature, m_timeElapsed := 0, kind := .expModule n q q }
  | .logModule _ =>
      { m_temperature := temperature, m_timeElapsed := 0, kind := .logModule temperature }
  | .logModuleOpt _ =>
      { m_temperature := temperature, m_timeElapsed := 0,
        kind := .logModuleOpt temperature }

/-- Function `initializeComputedLogarithms(size)`: `log1p(0), ..., log1p(size)`. -/
def initializeComputedLogarithms (env : Env α) (size : Nat) : List α :=
  (List.range (size + 1)).map fun i => env.log1p (i : α)

/-- The statics of `LogTemperatureModuleOpt::coolDown` as their initialisers leave
them. -/
def LogStatics.initial (env : Env α) : LogStatics α :=
  { computedLogarithms := initializeComputedLogarithms env COMPUTED_LOGARITHMS_MAX_INDEX,
    computedCount := COMPUTED_LOGARITHMS_MAX_INDEX,
    k := COMPUTED_LOGARITHMS_MAX_INDEX / 2 }

/-- Read `v[i]` of a vector. -/
def readAt {β : Type} (v : List β) (i : Nat) : Except Abort β :=
  match v[i]? with
  | some x => .ok x
  | none => .error .outOfRange

/-- Method `ExpTemperatureModule::coolDown`. -/
def expCoolDown (tm : TemperatureModule α) (n : α) (q nextCoolDown : Nat) :
    TemperatureModule α :=
  let t := (tm.m_timeElapsed + 1) % ULONG_WIDTH
  if t = nextCoolDown then
    { m_temperature := tm.m_temperature * n, m_timeElapsed := t,
      kind := .expModule n q ((nextCoolDown + q) % UINT_WIDTH) }
  else
    { tm with m_timeElapsed := t }

/-- Method `LogTemperatureModule::coolDown`. -/
def logCoolDown (env : Env α) (tm : TemperatureModule α) (initialTemperature : α) :
    TemperatureModule α :=
  let t := (tm.m_timeElapsed + 1) % ULONG_WIDTH
  { tm with m_temperature := initialTemperature / env.log1p (t : α), m_timeElapsed := t }

/-- The first half of `LogTemperatureModuleOpt::coolDown`, after `m_timeElapsed++` gave
the tick `t`: the table is extended whenever `t` exceeds `computedCount`, which the code
never raises. -/
def extendComputedLogarithms (env : Env α) (st : LogStatics α) (t : Nat) :
    Except Abort (LogStatics α) :=
  if t > st.computedCount then
    if t % 2 = 1 then
      pure { st with computedLogarithms := st.computedLogarithms ++ [env.log1p (t : α)] }
    else do
      let k := st.k + 1
      let a ← readAt st.computedLogarithms k
      let b ← readAt st.computedLogarithms 2
      pure { st with computedLogarithms := st.computedLogarithms ++ [a + b], k := k }
  else
    pure st

/-- Method `LogTemperatureModuleOpt::coolDown`. -/
def logOptCoolDown (env : Env α) (tm : TemperatureModule α) (initialTemperature : α)
    (st : LogStatics α) : Except Abort (TemperatureModule α × LogStatics α) := do
  let t := (tm.m_timeElapsed + 1) % ULONG_WIDTH
  let st1 ← extendComputedLogarithms env st t
  let l ← readAt st1.computedLogarithms t
  pure ({ tm with m_temperature := initialTemperature / l, m_timeElapsed := t }, st1)

/-- Virtual method `coolDown`, by dynamic class. -/
def TemperatureModule.coolDown (env : Env α) (tm : TemperatureModule α)
    (st : LogStatics α) : Except Abort (TemperatureModule α × LogStatics α) :=
  match tm.kind with
  | .base => pure (tm, st)
  | .timeBased => pure (tm, st)
  | .expModule n q nextCoolDown => pure (expCoolDown tm n q nextCoolDown, st)
  | .logModule initialTemperature => pure (logCoolDown env tm initialTemperature, st)
  | .logModuleOpt initialTemperature => logOptCoolDown env tm initialTemperature st

end Temperature

/-! ## The network (`network.h`, `network.cpp`) -/

/-- Class `HopfieldNetwork`. The pointer `m_temperatureModule` is `none` when it is
`NULL`; otherwise the object it points to is kept here. -/
structure HopfieldNetwork (α : Type) where
  m_neuronWeights : List (List α)
  m_neuronValues : List Bool
  m_neuronCount : Nat
  m_temperatureModule : Option (TemperatureModule α)

/-- Everything a call can change: the network, the statics of
`LogTemperatureModuleOpt::coolDown`, the static `bitCount` of `randomNumber` (`none`
until its initialiser has run), the number of calls of `rand` and of `random_shuffle`
made so far, and the error codes passed to `raiseError`, oldest first. -/
structure Machine (α : Type) where
  net : HopfieldNetwork α
  statics : LogStatics α
  bitCount : Option Nat
  randCalls : Nat
  shuffleCalls : Nat
  raised : List errorCode

section Network

variable {α : Type} [LinearOrderedField α]

/-- Function `raiseError`: print the message of `error`, and exit on `UNKNOWN_ERROR`. -/
def raiseError (raised : List errorCode) (error : errorCode) :
    Except Abort (List errorCode) :=
  if error = .UNKNOWN_ERROR then .error .exitFailure else .ok (raised ++ [error])

/-- Read `neuronWeights[i][j]`. -/
def readWeight (neuronWeights : List (List α)) (i j : Nat) : Except Abort α := do
  let row ← readAt neuronWeights i
  readAt row j

/-- The loop `for (unsigned long i; i<neuronCount; i++)` of `isInconsistent` from the
value `i` on, `fuel` bounding the iterations left; `true` when a row has a size other
than `neuronCount`. -/
def rowSizeLoop (neuronWeights : List (List α)) (neuronCount : Nat) :
    Nat → Nat → Except Abort Bool
  | 0, _ => pure false
  | fuel + 1, i =>
      if i < neuronCount then do
        let row ← readAt neuronWeights i
        if neuronCount ≠ row.length then pure true
        else rowSizeLoop neuronWeights neuronCount fuel (i + 1)
      else pure false

/-- The inner loop of the symmetry check of `isInconsistent` over the remaining values
of `j`; `true` when `neuronWeights[i][j] != neuronWeights[j][i]` for one of them. -/
def symmetryInner (neuronWeights : List (List α)) (i : Nat) : List Nat → Except Abort Bool
  | [] => pure false
  | j :: js => do
      let a ← readWeight neuronWeights i j
      let b ← readWeight neuronWeights j i
      if a ≠ b then pure true else symmetryInner neuronWeights i js

/-- The outer loop of the symmetry check of `isInconsistent` over the remaining values
of `i`. -/
def symmetryOuter (neuronWeights : List (List α)) (neuronCount : Nat) :
    List Nat → Except Abort Bool
  | [] => pure false
  | i :: is => do
      if (← symmetryInner neuronWeights i (List.range' i (neuronCount - i))) then pure true
      else symmetryOuter neuronWeights neuronCount is

/-- Static method `HopfieldNetwork::isInconsistent`. The loop variable of the row-size
loop is declared without an initialiser; `i0` is the value it holds when the loop is
entered. -/
def isInconsistent (i0 : Nat) (neuronWeights : List (List α)) (neuronValues : List Bool)
    (neuronCount : Nat) : Except Abort errorCode :=
  if neuronCount ≠ neuronValues.length then pure .INCONSISTENCY
  else if neuronCount ≠ neuronWeights.length then pure .INCONSISTENCY
  else do
    let badRow ← rowSizeLoop neuronWeights neuronCount (neuronCount - i0) i0
    if badRow then pure .INCONSISTENCY
    else do
      let asymmetric ← symmetryOuter neuronWeights neuronCount (List.range neuronCount)
      if asymmetric then pure .NON_SYMMETRIC else pure .NO_ERROR

/-- Method `HopfieldNetwork::updateNetwork`; `i0` as in `isInconsistent`. -/
def updateNetwork (i0 : Nat) (m : Machine α) (neuronWeights : List (List α))
    (inNeuronValues : List Bool) (inNeuronCount : Nat) : Except Abort (Bool × Machine α) := do
  let neuronCount := if inNeuronCount ≠ 0 then inNeuronCount else neuronWeights.length
  let neuronValues :=
    if inNeuronValues.isEmpty then List.replicate neuronWeights.length true
    else inNeuronValues
  let error ← isInconsistent i0 neuronWeights neuronValues neuronCount
  if error ≠ .NO_ERROR then
    let raised ← raiseError m.raised error
    pure (false, { m with raised := raised })
  else
    pure (true, { m with net := { m.net with
      m_neuronWeights := neuronWeights
      m_neuronValues := neuronValues
      m_neuronCount := neuronCount } })

/-- The members of a `HopfieldNetwork` after the initialiser list of its constructor. -/
def HopfieldNetwork.empty : HopfieldNetwork α :=
  { m_neuronWeights := [], m_neuronValues := [], m_neuronCount := 0,
    m_temperatureModule := none }

/-- Constructor `HopfieldNetwork(neuronWeights, neuronValues, neuronCount)`, replacing
the network of `m`. The seeding of the generator is part of `Env.rand`. -/
def HopfieldNetwork.construct (i0 : Nat) (m : Machine α) (neuronWeights : List (List α))
    (neuronValues : List Bool) (neuronCount : Nat) : Except Abort (Machine α) := do
  let r ← updateNetwork i0 { m with net := HopfieldNetwork.empty } neuronWeights
    neuronValues neuronCount
  pure r.2

/-- Method `uploadTemperatureModule`. -/
def uploadTemperatureModule (m : Machine α) (module : Option (TemperatureModule α)) :
    Machine α :=
  { m with net := { m.net with m_temperatureModule := module } }

/-- The loop of `calculatePotential` over the remaining values of `i`. -/
def calculatePotentialLoop (net : HopfieldNetwork α) (neuron : Nat) :
    List Nat → α → Except Abort α
  | [], potential => pure potential
  | i :: is, potential => do
      let w ← readWeight net.m_neuronWeights neuron i
      if i = neuron then
        calculatePotentialLoop net neuron is (potential + w)
      else do
        let v ← readAt net.m_neuronValues i
        calculatePotentialLoop net neuron is (potential + (if v then 1 else 0) * w)

/-- Method `HopfieldNetwork::calculatePotential`, every addition exact;
`Double.calculatePotential` rounds them. -/
def calculatePotential (net : HopfieldNetwork α) (neuron : Nat) : Except Abort α :=
  calculatePotentialLoop net neuron (List.range net.m_neuronCount) 0

end Network

/-! ## Random numbers and the update of one neuron -/

section Update

variable {α : Type} [LinearOrderedField α] [FloorRing α]

/-- The loop `while (bitPos)` of `randBits`: bit position, result, the flag `done`, and
the error codes raised. `bitPos` is doubled modulo `2^64`, so 65 rounds of `fuel` reach
`bitPos == 0`. -/
def randBitsLoop (tempMaxRand : Nat) : Nat → Nat → Nat → Bool → Nat × List errorCode
  | 0, _, result, _ => (result, [])
  | fuel + 1, bitPos, result, done =>
      if bitPos ≠ 0 then
        if tempMaxRand &&& bitPos ≠ 0 then
          if done then (0, [.RANDOMIZATION])
          else randBitsLoop tempMaxRand fuel ((bitPos <<< 1) % ULONG_WIDTH)
            ((result + 1) % USHRT_WIDTH) done
        else randBitsLoop tempMaxRand fuel ((bitPos <<< 1) % ULONG_WIDTH) result done
      else (result, [])

/-- Function `randBits`, as a function of the constant `RAND_MAX`: the result and the
error codes raised. -/
def randBits (randMax : Nat) : Nat × List errorCode :=
  randBitsLoop (randMax % ULONG_WIDTH) 65 1 0 false

/-- The loop of `randomNumber<unsigned long>`: `bitsLeft` (an `unsigned short`), the
`result` and the number of calls of `rand` so far. `bitsLeft` moves by a constant modulo
`2^16`, so a run that has not ended within `2^16` rounds never ends. -/
def randomNumberLoop (env : Env α) (bitCount : Nat) :
    Nat → Nat → Nat → Nat → Except Abort (Nat × Nat)
  | 0, _, _, _ => .error .nonTermination
  | fuel + 1, bitsLeft, result, randCalls =>
      if bitsLeft > 0 then
        if 64 ≤ bitCount then .error .shiftTooWide
        else
          let shifted := (result <<< bitCount) % ULONG_WIDTH
          let bitsLeft1 := (bitsLeft + USHRT_WIDTH - bitCount % USHRT_WIDTH) % USHRT_WIDTH
          let temp := env.rand randCalls % ULONG_WIDTH
          randomNumberLoop env bitCount fuel bitsLeft1 (shifted ||| temp) (randCalls + 1)
      else .ok (result, randCalls)

/-- Function `randomNumber<unsigned long>`. The static `bitCount` is initialised by
`randBits` on the first call. -/
def randomNumber (env : Env α) (m : Machine α) : Except Abort (Nat × Machine α) := do
  let m1 : Machine α :=
    match m.bitCount with
    | some _ => m
    | none =>
        { m with bitCount := some (randBits env.RAND_MAX).1,
                 raised := m.raised ++ (randBits env.RAND_MAX).2 }
  let r ← randomNumberLoop env (m1.bitCount.getD 0) (USHRT_WIDTH + 1) 64 0 m1.randCalls
  pure (r.1, { m1 with randCalls := r.2 })

/-- Conversion of a `double` to `unsigned long`: truncation towards zero, defined when
the truncated value is in range. -/
def toULong (x : α) : Except Abort Nat :=
  if x ≤ -1 ∨ (ULONG_WIDTH : α) ≤ x then .error .conversionOutOfRange
  else .ok (Int.toNat ⌊x⌋)

/-- Function `BernoulliTrial`. `ULONG_MAX` enters the arithmetic as the exact number
`2^64 - 1` and the quotient or product is exact; `Double.BernoulliTrial` converts and
rounds them. -/
def BernoulliTrial (env : Env α) (m : Machine α) (input : α) :
    Except Abort (Bool × Machine α) := do
  let r ← randomNumber env m
  if input = 1 then pure (true, r.2)
  else do
    let threshold ←
      if input > 1 then toULong ((ULONG_MAX : α) / input)
      else toULong ((ULONG_MAX : α) * input)
    pure (decide (threshold ≥ r.1), r.2)

/-- Assignment `v[i] = x` to an element of a vector. -/
def writeAt {β : Type} (v : List β) (i : Nat) (x : β) : Except Abort (List β) :=
  if i < v.length then .ok (v.set i x) else .error .outOfRange

/-- The assignment `m_neuronValues[neuron] = value`. -/
def setNeuronValue (m : Machine α) (neuron : Nat) (value : Bool) :
    Except Abort (Machine α) := do
  let values ← writeAt m.net.m_neuronValues neuron value
  pure { m with net := { m.net with m_neuronValues := values } }

/-- Method `HopfieldNetwork::processNeuron`. -/
def processNeuron (env : Env α) (m : Machine α) (neuron : Nat) :
    Except Abort (errorCode × Machine α) := do
  if neuron < m.net.m_neuronCount then
    let potential ← calculatePotential m.net neuron
    if potential ≠ 0 then
      match m.net.m_temperatureModule with
      | some tm =>
          if tm.isHot then
            let oneInX := 1 + env.exp ((-2) * potential / tm.getTemperature)
            let r ← BernoulliTrial env m oneInX
            let m1 ← setNeuronValue r.2 neuron r.1
            let c ← tm.coolDown env m1.statics
            pure (.NO_ERROR,
              { m1 with net := { m1.net with m_temperatureModule := some c.1 },
                        statics := c.2 })
          else do
            let m1 ← setNeuronValue m neuron (decide (potential ≥ 0))
            pure (.NO_ERROR, m1)
      | none => do
          let m1 ← setNeuronValue m neuron (decide (potential ≥ 0))
          pure (.NO_ERROR, m1)
    else pure (.NO_ERROR, m)
  else pure (.OUT_OF_BOUNDS, m)

/-! ## The three traversals -/

/-- One pass through the body of a `while` loop: go on, or `return b`. -/
inductive LoopStep (σ : Type)
  | next (s : σ)
  | ret (b : Bool) (s : σ)

/-- The end of a call: a returned value with the final state, an abnormal end, or no
end within the rounds allowed. -/
inductive Run (σ : Type)
  | returned (b : Bool) (s : σ)
  | aborted (a : Abort)
  | outOfFuel

/-- Run `while (cond) body; return false;` for at most `fuel` tests of the condition. -/
def whileLoop {σ : Type} (cond : σ → Bool) (body : σ → Except Abort (LoopStep σ)) :
    Nat → σ → Run σ
  | 0, _ => .outOfFuel
  | fuel + 1, s =>
      if cond s then
        match body s with
        | .error a => .aborted a
        | .ok (.next s1) => whileLoop cond body fuel s1
        | .ok (.ret b s1) => .returned b s1
      else .returned false s

/-- What the three traversals have in common: the machine, the cell `*maxSteps`
(`none` for a `NULL` pointer), the local `currentSteps`, the number of calls of
`processNeuron` made so far, and the record of these calls, newest first: the neuron
visited and the outcome reported by `Frame.visit`. The last two are kept by the model,
not by the code. -/
structure Frame (α : Type) where
  m : Machine α
  maxSteps : Option Nat
  currentSteps : Nat
  updates : Nat
  trace : List (Nat × Option Bool)

/-- The loop condition `maxSteps==NULL || *maxSteps==0 || currentSteps<*maxSteps`. -/
def Frame.budgetOpen (f : Frame α) : Bool :=
  match f.maxSteps with
  | none => true
  | some ms => decide (ms = 0) || decide (f.currentSteps < ms)

/-- The statement `if (maxSteps!=NULL && *maxSteps==0) *maxSteps=currentSteps;`. -/
def Frame.writeBack (f : Frame α) : Frame α :=
  match f.maxSteps with
  | some 0 => { f with maxSteps := some f.currentSteps }
  | _ => f

/-- The statements shared by the three loop bodies: read `priorValue`, call
`processNeuron`, raise its error if any; the result says whether the call succeeded with
a changed value (`some true`), succeeded without (`some false`) or failed (`none`). -/
def Frame.visit (env : Env α) (f : Frame α) (neuron : Nat) :
    Except Abort (Option Bool × Frame α) := do
  let priorValue ← readAt f.m.net.m_neuronValues neuron
  let r ← processNeuron env f.m neuron
  if r.1 ≠ .NO_ERROR then
    let raised ← raiseError r.2.raised r.1
    pure (none, { f with
      m := { r.2 with raised := raised }
      updates := f.updates + 1
      trace := (neuron, none) :: f.trace })
  else
    let newValue ← readAt r.2.net.m_neuronValues neuron
    pure (some (decide (priorValue ≠ newValue)), { f with
      m := r.2
      updates := f.updates + 1
      trace := (neuron, some (decide (priorValue ≠ newValue))) :: f.trace })

/-- Locals of `computeSequentially`. -/
structure SeqState (α : Type) where
  frame : Frame α
  currentNeuron : Nat
  lastChangedNeuron : Nat

/-- Body of the loop of `computeSequentially`. -/
def seqBody (env : Env α) (s : SeqState α) : Except Abort (LoopStep (SeqState α)) := do
  let f0 : Frame α := { s.frame with currentSteps := (s.frame.currentSteps + 1) % ULONG_WIDTH }
  let r ← f0.visit env s.currentNeuron
  let advance (s1 : SeqState α) : Except Abort (LoopStep (SeqState α)) :=
    if s1.frame.m.net.m_neuronCount = 0 then .error .remainderByZero
    else .ok (.next { s1 with currentNeuron :=
      ((s1.currentNeuron + 1) % ULONG_WIDTH) % s1.frame.m.net.m_neuronCount })
  match r.1 with
  | none => advance { s with frame := r.2 }
  | some true => advance { s with frame := r.2, lastChangedNeuron := s.currentNeuron }
  | some false =>
      if s.currentNeuron = s.lastChangedNeuron then
        pure (.ret true { s with frame := r.2.writeBack })
      else advance { s with frame := r.2 }

/-- Method `HopfieldNetwork::computeSequentially`, for at most `fuel` tests of the loop
condition. -/
def computeSequentially (env : Env α) (m : Machine α) (maxSteps : Option Nat)
    (fuel : Nat) : Run (SeqState α) :=
  whileLoop (fun s => s.frame.budgetOpen) (seqBody env) fuel
    { frame := { m := m, maxSteps := maxSteps, currentSteps := 0, updates := 0, trace := [] },
      currentNeuron := 0, lastChangedNeuron := 0 }

/-- Locals of `computeRandomly`. -/
structure RandState (α : Type) where
  frame : Frame α
  CHECK_THRESHOLD : Nat
  unchangedCount : Nat
  neuronsToCheck : List Bool
  nextCheck : Nat
  checkSteps : Nat

/-- The count `for (i...) if (neuronsToCheck[i]) nextCheck++` of `computeRandomly`. -/
def countToCheck (neuronsToCheck : List Bool) : List Nat → Nat → Except Abort Nat
  | [], nextCheck => pure nextCheck
  | i :: is, nextCheck => do
      let c ← readAt neuronsToCheck i
      countToCheck neuronsToCheck is (if c then (nextCheck + 1) % ULONG_WIDTH else nextCheck)

/-- Body of the loop of `computeRandomly`. -/
def randBody (env : Env α) (s : RandState α) : Except Abort (LoopStep (RandState α)) := do
  let f0 : Frame α := { s.frame with currentSteps := (s.frame.currentSteps + 1) % ULONG_WIDTH }
  let neuronCount := f0.m.net.m_neuronCount
  if neuronCount = 0 then .error .remainderByZero
  else do
    let randomNeuron := (env.rand f0.m.randCalls % ULONG_WIDTH) % neuronCount
    let f1 : Frame α := { f0 with m := { f0.m with randCalls := f0.m.randCalls + 1 } }
    let r ← f1.visit env randomNeuron
    let neuronCount1 := r.2.m.net.m_neuronCount
    match r.1 with
    | none => pure (.next { s with frame := r.2 })
    | some true =>
        if s.unchangedCount > s.CHECK_THRESHOLD then
          pure (.next { s with
            frame := r.2
            unchangedCount := 0
            neuronsToCheck := List.replicate neuronCount1 false
            nextCheck := (2 * neuronCount1) % ULONG_WIDTH
            checkSteps := 0 })
        else pure (.next { s with frame := r.2, unchangedCount := 0 })
    | some false =>
        let unchangedCount := (s.unchangedCount + 1) % ULONG_WIDTH
        if unchangedCount > s.CHECK_THRESHOLD then do
          let neuronsToCheck ← writeAt s.neuronsToCheck randomNeuron false
          let checkSteps := (s.checkSteps + 1) % ULONG_WIDTH
          if checkSteps = s.nextCheck then do
            let remaining ← countToCheck neuronsToCheck (List.range neuronCount1) 0
            if remaining ≠ 0 then
              pure (.next { s with
                frame := r.2
                unchangedCount := unchangedCount
                neuronsToCheck := neuronsToCheck
                nextCheck := neuronCount1
                checkSteps := 0 })
            else
              pure (.ret true { s with
                frame := r.2.writeBack
                unchangedCount := unchangedCount
                neuronsToCheck := neuronsToCheck
                nextCheck := 0
                checkSteps := 0 })
          else
            pure (.next { s with
              frame := r.2
              unchangedCount := unchangedCount
              neuronsToCheck := neuronsToCheck
              checkSteps := checkSteps })
        else pure (.next { s with frame := r.2, unchangedCount := unchangedCount })

/-- Method `HopfieldNetwork::computeRandomly`, for at most `fuel` tests of the loop
condition. -/
def computeRandomly (env : Env α) (m : Machine α) (maxSteps : Option Nat)
    (fuel : Nat) : Run (RandState α) :=
  whileLoop (fun s => s.frame.budgetOpen) (randBody env) fuel
    { frame := { m := m, maxSteps := maxSteps, currentSteps := 0, updates := 0, trace := [] },
      CHECK_THRESHOLD := (2 * m.net.m_neuronCount) % ULONG_WIDTH,
      unchangedCount := 0,
      neuronsToCheck := List.replicate m.net.m_neuronCount true,
      nextCheck := (2 * m.net.m_neuronCount) % ULONG_WIDTH,
      checkSteps := 0 }

/-- Function `createRandomPermutation`: the identity permutation, shuffled. -/
def createRandomPermutation (env : Env α) (m : Machine α) (elementsCount : Nat) :
    List Nat × Machine α :=
  (env.random_shuffle m.shuffleCalls (List.range elementsCount),
   { m with shuffleCalls := m.shuffleCalls + 1 })

/-- Locals of `computeRandomSeq`. -/
structure PermState (α : Type) where
  frame : Frame α
  changed : Bool
  elementIndex : Nat
  permutation : List Nat

/-- The second half of the loop body of `computeRandomSeq`, from
`element=permutation[elementIndex]` to `elementIndex++`. -/
def permVisit (env : Env α) (s : PermState α) : Except Abort (LoopStep (PermState α)) := do
  let element ← readAt s.permutation s.elementIndex
  let r ← s.frame.visit env element
  pure (.next { s with
    frame := r.2
    changed := (if r.1 = some true then true else s.changed)
    elementIndex := (s.elementIndex + 1) % ULONG_WIDTH })

/-- Body of the loop of `computeRandomSeq`. -/
def permBody (env : Env α) (s : PermState α) : Except Abort (LoopStep (PermState α)) :=
  let f0 : Frame α := { s.frame with currentSteps := (s.frame.currentSteps + 1) % ULONG_WIDTH }
  if s.elementIndex = f0.m.net.m_neuronCount then
    if !s.changed then
      pure (.ret true { s with frame := f0.writeBack })
    else
      let p := createRandomPermutation env f0.m f0.m.net.m_neuronCount
      permVisit env { frame := { f0 with m := p.2 }, changed := false, elementIndex := 0,
                      permutation := p.1 }
  else permVisit env { s with frame := f0 }

/-- Method `HopfieldNetwork::computeRandomSeq`, for at most `fuel` tests of the loop
condition. -/
def computeRandomSeq (env : Env α) (m : Machine α) (maxSteps : Option Nat)
    (fuel : Nat) : Run (PermState α) :=
  let p := createRandomPermutation env m m.net.m_neuronCount
  whileLoop (fun s => s.frame.budgetOpen) (permBody env) fuel
    { frame := { m := p.2, maxSteps := maxSteps, currentSteps := 0, updates := 0, trace := [] },
      changed := false, elementIndex := 0, permutation := p.1 }

end Update

/-! ## The energy (`printEnergy`, `printEnergy2`) -/

section Energy

variable {α : Type} [LinearOrderedField α]

/-- The inner loop of `printEnergy` over the remaining values of `j`. -/
def printEnergyInner (net : HopfieldNetwork α) (i : Nat) : List Nat → α → Except Abort α
  | [], E => pure E
  | j :: js, E =>
      if i ≠ j then do
        let w ← readWeight net.m_neuronWeights i j
        let vi ← readAt net.m_neuronValues i
        let vj ← readAt net.m_neuronValues j
        printEnergyInner net i js
          (E - 1 / 2 * w * (if vi then 1 else 0) * (if vj then 1 else 0))
      else printEnergyInner net i js E

/-- The outer loop of `printEnergy` over the remaining values of `i`. -/
def printEnergyOuter (net : HopfieldNetwork α) : List Nat → α → Except Abort α
  | [], E => pure E
  | i :: is, E => do
      let E1 ← printEnergyInner net i (List.range net.m_neuronCount) E
      let w ← readWeight net.m_neuronWeights i i
      let vi ← readAt net.m_neuronValues i
      printEnergyOuter net is (E1 - w * (if vi then 1 else 0))

/-- Method `HopfieldNetwork::printEnergy`: the value of `E` that it writes to `out`. -/
def printEnergy (net : HopfieldNetwork α) : Except Abort α :=
  printEnergyOuter net (List.range net.m_neuronCount) 0

/-- The inner loop of `printEnergy2` over the remaining values of `j`. -/
def printEnergy2Inner (net : HopfieldNetwork α) (i : Nat) : List Nat → α → Except Abort α
  | [], result => pure result
  | j :: js, result => do
      let w ← readWeight net.m_neuronWeights i j
      let vi ← readAt net.m_neuronValues i
      let vj ← readAt net.m_neuronValues j
      printEnergy2Inner net i js (result - w * (if vi then 1 else 0) * (if vj then 1 else 0))

/-- The outer loop of `printEnergy2` over the remaining values of `i`; the inner loop
runs over `j = i, ..., m_neuronCount - 1`. -/
def printEnergy2Outer (net : HopfieldNetwork α) : List Nat → α → Except Abort α
  | [], result => pure result
  | i :: is, result => do
      let r ← printEnergy2Inner net i (List.range' i (net.m_neuronCount - i)) result
      printEnergy2Outer net is r

/-- Method `HopfieldNetwork::printEnergy2`: the value of `result` that it writes to
`out`. -/
def printEnergy2 (net : HopfieldNetwork α) : Except Abort α :=
  printEnergy2Outer net (List.range net.m_neuronCount) 0

end Energy

/-! ## The rook problem (`problems.cpp`) -/

section Problems

variable {α : Type} [LinearOrderedField α]

/-- The matrix `neuronWeights` of `createRookProblem` after its two nested loops: the
entry `[i][j]` is set to 1 when `i == j`, to -2 when `i` and `j` are different squares of
one column (`i%boardSize == j%boardSize`) or one row (`i/boardSize == j/boardSize`), and
keeps the 0 it was created with otherwise. -/
def rookWeights (boardSize neuronCount : Nat) : List (List α) :=
  (List.range neuronCount).map fun i => (List.range neuronCount).map fun j =>
    if i = j then 1
    else if i % boardSize = j % boardSize ∨ i / boardSize = j / boardSize then -2
    else 0

/-- Function `problems::createRookProblem(boardSize)`, the network being built in the
machine `m`; `i0` as in `isInconsistent`. `neuronCount` is an `unsigned int`. -/
def createRookProblem (i0 : Nat) (m : Machine α) (boardSize : Nat) :
    Except Abort (Machine α) :=
  let neuronCount := (boardSize * boardSize) % UINT_WIDTH
  HopfieldNetwork.construct i0 m (rookWeights boardSize neuronCount)
    (List.replicate neuronCount false) neuronCount

end Problems

/-! ## Vocabulary of the properties -/

section Vocabulary

variable {α : Type} [LinearOrderedField α]

/-- The entry `w[i][j]` of a matrix, with `0` outside it. -/
def matrixEntry (w : List (List α)) (i j : Nat) : α :=
  ((w[i]?).getD [])[j]?.getD 0

/-- Accessor for `weights[i][j]`, with `0` outside the matrix. -/
def HopfieldNetwork.weight (net : HopfieldNetwork α) (i j : Nat) : α :=
  matrixEntry net.m_neuronWeights i j

/-- Accessor for `state[i]`, with `false` outside the vector. -/
def HopfieldNetwork.value (net : HopfieldNetwork α) (i : Nat) : Bool :=
  (net.m_neuronValues[i]?).getD false

/-- The invariant of the data model: `len(state) == count`, `weights` is
count×count, and `weights[i][j] == weights[j][i]`. -/
structure HopfieldNetwork.Valid (net : HopfieldNetwork α) : Prop where
  values_length : net.m_neuronValues.length = net.m_neuronCount
  weights_length : net.m_neuronWeights.length = net.m_neuronCount
  row_length : ∀ row ∈ net.m_neuronWeights, row.length = net.m_neuronCount
  symmetric : ∀ i j, i < net.m_neuronCount → j < net.m_neuronCount →
    net.weight i j = net.weight j i

/-- The potential as the specification words it: the sum over `j ≠ i` of
`weights[i][j] * state[j]` with the state read as 0 or 1, plus `weights[i][i]`. -/
def HopfieldNetwork.specPotential (net : HopfieldNetwork α) (i : Nat) : α :=
  net.weight i i +
    ∑ j in (Finset.range net.m_neuronCount).filter (fun j => j ≠ i),
      net.weight i j * (if net.value j then 1 else 0)

/-- The network `net` with `state[i]` replaced by `b`. -/
def HopfieldNetwork.withValue (net : HopfieldNetwork α) (i : Nat) (b : Bool) :
    HopfieldNetwork α :=
  { net with m_neuronValues := net.m_neuronValues.set i b }

/-- The value that the static `bitCount` of `randomNumber` has, or will be given by its
initialiser. -/
def Machine.effectiveBitCount (env : Env α) (m : Machine α) : Nat :=
  match m.bitCount with
  | some b => b
  | none => (randBits env.RAND_MAX).1

/-- The table of `LogTemperatureModuleOpt::coolDown` is long enough for the next call on
the module `tm`: it holds the entries up to `computedCount`, up to index 2, up to the
next `k`, and up to the next tick of `tm`. Nothing is asked for the other classes. -/
def LogStatics.Covers (st : LogStatics α) (tm : TemperatureModule α) : Prop :=
  match tm.kind with
  | .logModuleOpt _ =>
      st.computedCount < st.computedLogarithms.length ∧
      2 < st.computedLogarithms.length ∧
      st.k + 1 < st.computedLogarithms.length ∧
      tm.m_timeElapsed + 1 ≤ st.computedLogarithms.length
  | _ => True

/-- A machine on which the traversals run without abnormal end: the network satisfies
the data-model invariant, the generator width computed by `randBits` lies between 1 and
63, and the logarithm table covers the attached module. -/
structure Machine.Ready (env : Env α) (m : Machine α) : Prop where
  valid : m.net.Valid
  bits_pos : 1 ≤ m.effectiveBitCount env
  bits_lt : m.effectiveBitCount env < 64
  covers : ∀ tm, m.net.m_temperatureModule = some tm → m.statics.Covers tm

/-- What holds of the frame of a traversal with the non-zero budget `M` at every test of
its loop condition: the machine is ready, the budget cell still holds `M`, as many steps
were counted as updates were made, these are at most `M`, and the network is not empty. -/
def Frame.InBudget (env : Env α) (M : Nat) (f : Frame α) : Prop :=
  f.m.Ready env ∧ f.maxSteps = some M ∧ f.currentSteps = f.updates ∧ f.updates ≤ M ∧
    0 < f.m.net.m_neuronCount

/-- What C10 says of a traversal that returned `b` with the budget `M`: at most `M` calls
of `processNeuron` were made, the budget cell still holds `M`, and if `b` is false exactly
`M` calls were made. -/
def Frame.Done (M : Nat) (b : Bool) (f : Frame α) : Prop :=
  f.updates ≤ M ∧ f.maxSteps = some M ∧ (b = false → f.updates = M)

/-- A C library for the examples: `exp` is constantly 1, `log1p` the identity, a 16 bit
generator counting upwards, and a shuffle that reverses. -/
def exampleEnv : Env ℚ :=
  { exp := fun _ => 1, log1p := fun x => x, RAND_MAX := 65535,
    rand := fun k => k % 65536, random_shuffle := fun _ l => l.reverse }

/-- A machine around the given weights, state and schedule, nothing having run yet. -/
def exampleMachine (w : List (List ℚ)) (v : List Bool)
    (tm : Option (TemperatureModule ℚ)) : Machine ℚ :=
  { net := { m_neuronWeights := w, m_neuronValues := v, m_neuronCount := v.length,
             m_temperatureModule := tm },
    statics := LogStatics.initial exampleEnv, bitCount := none, randCalls := 0,
    shuffleCalls := 0, raised := [] }

end Vocabulary

/-! ## Vocabulary of the properties of schedules, trials and traversals -/

section Vocabulary2

variable {α : Type} [LinearOrderedField α] [FloorRing α]

/-- The module and the statics after `t` calls of `coolDown` in a row. -/
def TemperatureModule.coolDownTimes (env : Env α) (tm : TemperatureModule α)
    (st : LogStatics α) : Nat → Except Abort (TemperatureModule α × LogStatics α)
  | 0 => pure (tm, st)
  | t + 1 => do
      let r ← TemperatureModule.coolDownTimes env tm st t
      r.1.coolDown env r.2

/-- The part of `BernoulliTrial` that follows the draw: the result for the argument
`input` when `randomNumber` has returned `random`, in exact arithmetic. -/
def trialOutcome (input : α) (random : Nat) : Except Abort Bool :=
  if input = 1 then pure true
  else do
    let threshold ←
      if input > 1 then toULong ((ULONG_MAX : α) / input)
      else toULong ((ULONG_MAX : α) * input)
    pure (decide (threshold ≥ random))

/-- Whether the trial on `input` succeeds for the generator output `random`. -/
def trialSucceeds (input : α) (random : Nat) : Bool :=
  match trialOutcome input random with
  | .ok true => true
  | _ => false

/-- The example library with another generator. -/
def exampleEnvWith (rand : Nat → Nat) : Env ℚ :=
  { exampleEnv with rand := rand }

/-- What holds of `computeRandomSeq` at every test of its loop condition, on a network of
`n` neurons without schedule: the network is valid, the order is a permutation, and while
no change has been seen in the epoch the visits of the epoch are the last ones made, each
without change, and the neurons visited are stable. -/
def PermState.Epoch (env : Env α) (n : Nat) (s : PermState α) : Prop :=
  s.frame.m.net.Valid ∧ s.frame.m.net.m_temperatureModule = none ∧
  s.frame.m.net.m_neuronCount = n ∧ s.elementIndex ≤ n ∧
  s.permutation.Perm (List.range n) ∧
  (s.changed = false →
    s.frame.trace.take s.elementIndex =
      ((s.permutation.take s.elementIndex).map fun e => (e, some false)).reverse ∧
    ∀ e ∈ s.permutation.take s.elementIndex,
      processNeuron env s.frame.m e = .ok (.NO_ERROR, s.frame.m))

end Vocabulary2

/-! ## Vocabulary of the properties of the energy -/

section Vocabulary3

variable {α : Type} [LinearOrderedField α]

/-- The state of neuron `i` read as 0 or 1. -/
def HopfieldNetwork.bit (net : HopfieldNetwork α) (i : Nat) : α :=
  if net.value i then 1 else 0

/-- The energy as the specification of `printEnergy` words it:
`-1/2 * sum over i != j of w[i][j]*s[i]*s[j] - sum over i of w[i][i]*s[i]`. -/
def HopfieldNetwork.specEnergy (net : HopfieldNetwork α) : α :=
  -(1 / 2) * (∑ i in Finset.range net.m_neuronCount,
      ∑ j in (Finset.range net.m_neuronCount).filter (fun j => j ≠ i),
        net.weight i j * net.bit i * net.bit j) -
    ∑ i in Finset.range net.m_neuronCount, net.weight i i * net.bit i

/-- The energy as the specification of `printEnergy2` words it: minus the sum over the pairs
`i <= j` of `w[i][j]*s[i]*s[j]`. -/
def HopfieldNetwork.specEnergy2 (net : HopfieldNetwork α) : α :=
  -(∑ i in Finset.range net.m_neuronCount,
      ∑ j in (Finset.range net.m_neuronCount).filter (fun j => i ≤ j),
        net.weight i j * net.bit i * net.bit j)

/-- The energy of the network `net` with its state replaced by `v`. -/
def HopfieldNetwork.energyOf (net : HopfieldNetwork α) (v : List Bool) : α :=
  ({ net with m_neuronValues := v } : HopfieldNetwork α).specEnergy

/-- The number of states of `net` whose energy is below that of the present state. -/
def HopfieldNetwork.energyRank (net : HopfieldNetwork α) : Nat :=
  ((Finset.univ : Finset (Fin net.m_neuronCount → Bool)).filter
    fun f => net.energyOf (List.ofFn f) < net.specEnergy).card

/-- The number of neurons that `computeSequentially` has still to visit before it is
back at `lastChangedNeuron`. -/
def SeqState.distance (s : SeqState α) : Nat :=
  if s.currentNeuron ≤ s.lastChangedNeuron then s.lastChangedNeuron - s.currentNeuron
  else s.lastChangedNeuron + s.frame.m.net.m_neuronCount - s.currentNeuron

/-- What holds of `computeSequentially` at every test of its loop condition, on a valid
network of `n` neurons without schedule and with an absent or zero budget; `B` bounds the
number of visits made plus the measure of what is left to do. -/
def SeqState.Descending (n B : Nat) (s : SeqState α) : Prop :=
  s.frame.m.net.Valid ∧ s.frame.m.net.m_temperatureModule = none ∧
  s.frame.m.net.m_neuronCount = n ∧ s.currentNeuron < n ∧ s.lastChangedNeuron < n ∧
  (s.frame.maxSteps = none ∨ s.frame.maxSteps = some 0) ∧
  s.frame.updates + (s.frame.m.net.energyRank * n + s.distance) ≤ B

/-- The network with the weights of the rook problem for board size `b`, `n` neurons, the
state `v` and no schedule. -/
def rookNetwork (b n : Nat) (v : List Bool) : HopfieldNetwork α :=
  { m_neuronWeights := rookWeights b n, m_neuronValues := v, m_neuronCount := n,
    m_temperatureModule := none }

end Vocabulary3

/-! ## Vocabulary of the properties of the random traversal -/

section Vocabulary4

variable {α : Type} [LinearOrderedField α] [FloorRing α]

/-- The state with which the condition of a `while` loop is tested for the `k+1`-st time,
if the loop gets that far. -/
def whileLoopState {σ : Type} (cond : σ → Bool) (body : σ → Except Abort (LoopStep σ)) :
    Nat → σ → Option σ
  | 0, s => some s
  | k + 1, s =>
      if cond s then
        match body s with
        | .ok (.next s1) => whileLoopState cond body k s1
        | _ => none
      else none

/-- What holds of `computeRandomly` at every test of its loop condition on a network of
`n` neurons, as long as the counters have not wrapped: the threshold is `2n`, the last
`unchangedCount` visits were without change, and the countdown is in one of three
phases: not started (`checkSteps = 0`, `nextCheck = 2n`) while the streak is at most
`2n`; the first countdown of `2n`, begun when the streak passed `2n`; or a later
countdown of `n`, with a streak of at least `4n`. -/
def RandState.Countdown (n : Nat) (s : RandState α) : Prop :=
  s.frame.m.net.m_neuronCount = n ∧ s.CHECK_THRESHOLD = 2 * n ∧
  s.unchangedCount ≤ s.frame.updates ∧ s.frame.trace.length = s.frame.updates ∧
  (∀ x ∈ s.frame.trace.take s.unchangedCount, x.2 = some false) ∧
  ((s.unchangedCount ≤ 2 * n ∧ s.checkSteps = 0 ∧ s.nextCheck = 2 * n) ∨
   (2 * n < s.unchangedCount ∧ s.nextCheck = 2 * n ∧
     s.checkSteps + 2 * n = s.unchangedCount ∧ s.checkSteps < 2 * n) ∨
   (2 * n < s.unchangedCount ∧ 4 * n ≤ s.unchangedCount ∧ s.nextCheck = n ∧
     s.checkSteps < n))

/-- The state with which `computeRandomly` tests its loop condition for the `k+1`-st
time, if it gets that far: the loop of `computeRandomly`, observed instead of run to its
end. -/
def computeRandomlyAt (env : Env α) (m : Machine α) (maxSteps : Option Nat) (k : Nat) :
    Option (RandState α) :=
  whileLoopState (fun s => s.frame.budgetOpen) (randBody env) k
    { frame := { m := m, maxSteps := maxSteps, currentSteps := 0, updates := 0, trace := [] },
      CHECK_THRESHOLD := (2 * m.net.m_neuronCount) % ULONG_WIDTH,
      unchangedCount := 0,
      neuronsToCheck := List.replicate m.net.m_neuronCount true,
      nextCheck := (2 * m.net.m_neuronCount) % ULONG_WIDTH,
      checkSteps := 0 }

end Vocabulary4

/-! ## Arithmetic in `double`

The definitions above compute with the numbers of an ordered field. This section gives the
two functions whose results depend on the rounding of `double` a second time, with every
operation rounded as IEEE 754 binary64 does in its default mode. A finite `double` is a
number of the field; `none` stands for a result that is not finite (an infinity or a NaN),
and zero has no sign. -/

section DoubleArithmetic

variable {α : Type} [LinearOrderedField α] [FloorRing α]

/-- The integer nearest to `y`, the even one of the two when `y` lies half way. -/
def roundHalfEven (y : α) : ℤ :=
  if y - (⌊y⌋ : α) < 1 / 2 then ⌊y⌋
  else if 1 / 2 < y - (⌊y⌋ : α) then ⌊y⌋ + 1
  else if ⌊y⌋ % 2 = 0 then ⌊y⌋ else ⌊y⌋ + 1

/-- The spacing of the `double` numbers around `x`: `2^(e-52)` for `2^e ≤ |x| < 2^(e+1)`,
and `2^-1074` below `2^-1022`. -/
def Double.quantum (x : α) : α :=
  (2 : α) ^ (max (Int.log 2 |x|) (-1022) - 52)

/-- The number `x` rounded to 53 significant bits, to nearest and to even on a tie, with
no bound on the exponent from above. -/
def Double.roundFinite (x : α) : α :=
  (roundHalfEven (x / Double.quantum x) : α) * Double.quantum x

/-- The `double` that an operation with the exact result `x` delivers: `x` rounded to
nearest, or an infinity when that reaches `2^1024`. -/
def Double.round (x : α) : Option α :=
  if |Double.roundFinite x| < 2 ^ 1024 then some (Double.roundFinite x) else none

/-- The statement `potential += w` on a `double`. -/
def Double.add (potential : Option α) (w : α) : Option α :=
  potential.bind fun p => Double.round (p + w)

/-- The loop of `calculatePotential` over the remaining values of `i`, in `double`. The
product of `m_neuronValues[i]`, converted to 0 or 1, and a weight is exact. -/
def Double.calculatePotentialLoop (net : HopfieldNetwork α) (neuron : Nat) :
    List Nat → Option α → Except Abort (Option α)
  | [], potential => pure potential
  | i :: is, potential => do
      let w ← readWeight net.m_neuronWeights neuron i
      if i = neuron then
        Double.calculatePotentialLoop net neuron is (Double.add potential w)
      else do
        let v ← readAt net.m_neuronValues i
        Double.calculatePotentialLoop net neuron is
          (Double.add potential ((if v then 1 else 0) * w))

/-- Method `HopfieldNetwork::calculatePotential`, in `double`. -/
def Double.calculatePotential (net : HopfieldNetwork α) (neuron : Nat) :
    Except Abort (Option α) :=
  Double.calculatePotentialLoop net neuron (List.range net.m_neuronCount) (some 0)

/-- Conversion of a `double` to `unsigned long`; it is undefined for a value that is not
finite. -/
def Double.toULong (x : Option α) : Except Abort Nat :=
  match x with
  | some y => Hopfield.toULong y
  | none => .error .conversionOutOfRange

/-- The part of `BernoulliTrial` that follows the draw, in `double`: `ULONG_MAX` is
converted to `double`, the quotient or product is rounded, and the result is converted to
`unsigned long`. -/
def Double.trialOutcome (input : α) (random : Nat) : Except Abort Bool :=
  if input = 1 then pure true
  else do
    let threshold ←
      if input > 1 then
        Double.toULong ((Double.round (ULONG_MAX : α)).bind fun M => Double.round (M / input))
      else
        Double.toULong ((Double.round (ULONG_MAX : α)).bind fun M => Double.round (M * input))
    pure (decide (threshold ≥ random))

/-- Function `BernoulliTrial`, in `double`. -/
def Double.BernoulliTrial (env : Env α) (m : Machine α) (input : α) :
    Except Abort (Bool × Machine α) := do
  let r ← randomNumber env m
  if input = 1 then pure (true, r.2)
  else do
    let threshold ←
      if input > 1 then
        Double.toULong ((Double.round (ULONG_MAX : α)).bind fun M => Double.round (M / input))
      else
        Double.toULong ((Double.round (ULONG_MAX : α)).bind fun M => Double.round (M * input))
    pure (decide (threshold ≥ r.1), r.2)

/-- Whether the trial in `double` on `input` succeeds for the generator output
`random`. -/
def Double.trialSucceeds (input : α) (random : Nat) : Bool :=
  match Double.trialOutcome input random with
  | .ok true => true
  | _ => false

/-- The summand that `calculatePotential(i)` adds for the index `j`. -/
def HopfieldNetwork.potentialTerm (net : HopfieldNetwork α) (i j : Nat) : α :=
  if j = i then net.weight i i else net.weight i j * (if net.value j then 1 else 0)

/-- The sum of a list of numbers accumulated from 0 in `double`, in the order of the
list. -/
def Double.sum (terms : List α) : Option α :=
  terms.foldl Double.add (some 0)

end DoubleArithmetic

/-! ## Reading vectors and matrices -/

section Basics

variable {α : Type} [LinearOrderedField α]

/-- A read inside the vector returns the element. -/
theorem readAt_of_lt {β : Type} (v : List β) (i : Nat) (d : β) (h : i < v.length) :
    readAt v i = .ok ((v[i]?).getD d) := by
  simp [readAt, List.getElem?_eq_getElem h]

/-- A read outside the vector ends the run. -/
theorem readAt_of_le {β : Type} (v : List β) (i : Nat) (h : v.length ≤ i) :
    readAt v i = .error .outOfRange := by
  simp [readAt, List.getElem?_eq_none h]

omit [LinearOrderedField α] in
theorem row_length_of_lt (w : List (List α)) (n i : Nat) (hw : w.length = n)
    (hr : ∀ row ∈ w, row.length = n) (hi : i < n) : ((w[i]?).getD []).length = n := by
  have hi' : i < w.length := hw ▸ hi
  apply hr
  simp [List.getElem?_eq_getElem hi']

theorem readWeight_of_lt (w : List (List α)) (n i j : Nat) (hw : w.length = n)
    (hr : ∀ row ∈ w, row.length = n) (hi : i < n) (hj : j < n) :
    readWeight w i j = .ok (matrixEntry w i j) := by
  have hi' : i < w.length := hw ▸ hi
  have hrow := row_length_of_lt w n i hw hr hi
  unfold readWeight
  rw [readAt_of_lt w i [] hi']
  show readAt ((w[i]?).getD []) j = _
  exact readAt_of_lt _ j 0 (hrow ▸ hj)

theorem HopfieldNetwork.Valid.readWeight {net : HopfieldNetwork α} (hv : net.Valid)
    {i j : Nat} (hi : i < net.m_neuronCount) (hj : j < net.m_neuronCount) :
    Hopfield.readWeight net.m_neuronWeights i j = .ok (net.weight i j) :=
  readWeight_of_lt _ _ i j hv.weights_length hv.row_length hi hj

theorem HopfieldNetwork.Valid.readValue {net : HopfieldNetwork α} (hv : net.Valid)
    {i : Nat} (hi : i < net.m_neuronCount) :
    readAt net.m_neuronValues i = .ok (net.value i) :=
  readAt_of_lt _ i false (hv.values_length ▸ hi)

/-- The loop of `calculatePotential` adds one summand for each index it runs over. -/
theorem calculatePotentialLoop_eq (net : HopfieldNetwork α) (hv : net.Valid) (i : Nat)
    (hi : i < net.m_neuronCount) (l : List Nat) (hl : ∀ j ∈ l, j < net.m_neuronCount)
    (acc : α) :
    calculatePotentialLoop net i l acc =
      .ok (acc + (l.map fun j =>
        if j = i then net.weight i j else net.weight i j * (if net.value j then 1 else 0)).sum) := by
  induction l generalizing acc with
  | nil => simp [calculatePotentialLoop, pure, Except.pure]
  | cons j js ih =>
      have hj : j < net.m_neuronCount := hl j (List.mem_cons_self _ _)
      have hjs : ∀ x ∈ js, x < net.m_neuronCount := fun x hx => hl x (List.mem_cons_of_mem _ hx)
      unfold calculatePotentialLoop
      rw [hv.readWeight hi hj]
      by_cases hji : j = i
      · simp only [hji, if_true, bind, Except.bind]
        rw [ih hjs]
        simp [add_assoc]
      · simp only [hji, if_false, bind, Except.bind]
        rw [hv.readValue hj]
        simp only [ih hjs]
        congr 1
        simp only [List.map_cons, List.sum_cons, hji, if_false]
        cases net.value j <;> simp [add_assoc]

/-- The sum of a list over `range n` as a finite sum. -/
theorem list_range_map_sum (f : Nat → α) (n : Nat) :
    ((List.range n).map f).sum = ∑ j in Finset.range n, f j := by
  induction n with
  | zero => simp
  | succ n ih => simp [List.range_succ, Finset.sum_range_succ, ih]

/-- On a valid network `calculatePotential` returns the potential of the specification. -/
theorem calculatePotential_ok (net : HopfieldNetwork α) (hv : net.Valid) (i : Nat)
    (hi : i < net.m_neuronCount) :
    calculatePotential net i = .ok (net.specPotential i) := by
  unfold calculatePotential
  rw [calculatePotentialLoop_eq net hv i hi _ (fun j hj => List.mem_range.mp hj)]
  rw [list_range_map_sum, zero_add]
  congr 1
  unfold HopfieldNetwork.specPotential
  rw [Finset.filter_ne', ← Finset.add_sum_erase (Finset.range net.m_neuronCount) _
    (Finset.mem_range.mpr hi)]
  simp only [if_true]
  congr 1
  apply Finset.sum_congr rfl
  intro j hj
  have : j ≠ i := Finset.ne_of_mem_erase hj
  simp [this]

end Basics

section Vectors

variable {α : Type}

theorem setNeuronValue_ok (m : Machine α) (i : Nat) (b : Bool)
    (hi : i < m.net.m_neuronValues.length) :
    setNeuronValue m i b = .ok { m with net := m.net.withValue i b } := by
  simp [setNeuronValue, writeAt, hi, HopfieldNetwork.withValue, bind, Except.bind, pure,
    Except.pure]

theorem withValue_value_self (net : HopfieldNetwork α) (i : Nat) (b : Bool)
    (hi : i < net.m_neuronValues.length) : (net.withValue i b).value i = b := by
  simp [HopfieldNetwork.withValue, HopfieldNetwork.value, hi]

theorem withValue_value_other (net : HopfieldNetwork α) (i j : Nat) (b : Bool)
    (hij : i ≠ j) : (net.withValue i b).value j = net.value j := by
  simp [HopfieldNetwork.withValue, HopfieldNetwork.value, List.getElem?_set_ne hij]

end Vectors

/-! ## The potential and the update of one neuron -/

section Potential

variable {α : Type} [LinearOrderedField α]

/-- In exact arithmetic, for a valid network and `i < count`, `calculatePotential(i)`
returns `weights[i][i]` plus the sum over all `j ≠ i` of
`weights[i][j] * (1 if state[j] else 0)`; the diagonal entry is added whatever `state[i]`
is. -/
theorem calculatePotential_spec (net : HopfieldNetwork α) (hv : net.Valid) (i : Nat)
    (hi : i < net.m_neuronCount) :
    calculatePotential net i = .ok (net.weight i i +
      ∑ j in (Finset.range net.m_neuronCount).filter (fun j => j ≠ i),
        net.weight i j * (if net.value j then 1 else 0)) :=
  calculatePotential_ok net hv i hi

end Potential

section Single
variable {α : Type} [LinearOrderedField α] [FloorRing α]

/-- Without a hot schedule `processNeuron` is the deterministic rule. -/
theorem processNeuron_cold (env : Env α) (m : Machine α) (hv : m.net.Valid) (i : Nat)
    (hi : i < m.net.m_neuronCount)
    (hcold : ∀ tm, m.net.m_temperatureModule = some tm → tm.isHot = false) :
    processNeuron env m i = .ok (.NO_ERROR,
      if m.net.specPotential i = 0 then m
      else { m with net := m.net.withValue i (decide (m.net.specPotential i ≥ 0)) }) := by
  have hi' : i < m.net.m_neuronValues.length := hv.values_length ▸ hi
  unfold processNeuron
  simp only [hi, if_true, calculatePotential_ok m.net hv i hi, bind, Except.bind]
  by_cases hp : m.net.specPotential i = 0
  · simp [hp, pure, Except.pure]
  · simp only [hp, ne_eq, not_false_eq_true, if_true, if_false]
    cases htm : m.net.m_temperatureModule with
    | none => simp [setNeuronValue_ok m i _ hi', bind, Except.bind, pure, Except.pure]
    | some tm =>
        simp [hcold tm htm, setNeuronValue_ok m i _ hi', bind, Except.bind, pure, Except.pure]

end Single

section Single
variable {α : Type} [LinearOrderedField α] [FloorRing α]

/-- C2, amended. For a valid network without schedule and `i < count`, `processNeuron(i)`
returns `NO_ERROR`, and afterwards `state[i]` is `p >= 0` when the potential `p` of `i`
before the call is not zero, and the value it had before the call when `p` is zero. -/
theorem processNeuron_no_schedule_value (env : Env α) (m : Machine α) (hv : m.net.Valid)
    (i : Nat) (hi : i < m.net.m_neuronCount) (hnone : m.net.m_temperatureModule = none) :
    ∃ p m1, calculatePotential m.net i = .ok p ∧
      processNeuron env m i = .ok (.NO_ERROR, m1) ∧
      m1.net.value i = (if p = 0 then m.net.value i else decide (p ≥ 0)) := by
  refine ⟨m.net.specPotential i, _, calculatePotential_ok m.net hv i hi,
    processNeuron_cold env m hv i hi (by simp [hnone]), ?_⟩
  by_cases hp : m.net.specPotential i = 0
  · simp [hp]
  · simp only [hp, if_false]
    exact withValue_value_self _ _ _ (hv.values_length ▸ hi)

/-- C3. Whatever schedule is attached, if `i < count` and `potential(i) == 0` then
`processNeuron(i)` returns `NO_ERROR` and changes nothing, the state vector included. -/
theorem processNeuron_zero_potential (env : Env α) (m : Machine α) (i : Nat)
    (hi : i < m.net.m_neuronCount) (hp : calculatePotential m.net i = .ok 0) :
    processNeuron env m i = .ok (.NO_ERROR, m) := by
  simp [processNeuron, hi, hp, bind, Except.bind, pure, Except.pure]

/-- C8. For `i >= count`, `processNeuron(i)` returns `OUT_OF_BOUNDS` and changes nothing:
weights, state, count and the attached schedule are as before. -/
theorem processNeuron_out_of_bounds (env : Env α) (m : Machine α) (i : Nat)
    (hi : m.net.m_neuronCount ≤ i) :
    processNeuron env m i = .ok (.OUT_OF_BOUNDS, m) := by
  simp [processNeuron, Nat.not_lt.mpr hi, pure, Except.pure]

end Single

/-- Every one-neuron example network satisfies the invariant. -/
theorem exampleMachine_valid_one (w : ℚ) (b : Bool) (tm : Option (TemperatureModule ℚ)) :
    (exampleMachine [[w]] [b] tm).net.Valid := by
  refine ⟨rfl, rfl, ?_, ?_⟩
  · intro row hrow
    simp [exampleMachine] at hrow
    subst hrow
    rfl
  · intro i j hi hj
    have hi0 : i = 0 := by simpa [exampleMachine] using hi
    have hj0 : j = 0 := by simpa [exampleMachine] using hj
    subst hi0 hj0
    rfl

/-- Every two-neuron example network with a symmetric matrix satisfies the invariant. -/
theorem exampleMachine_valid_two (a b c : ℚ) (x y : Bool)
    (tm : Option (TemperatureModule ℚ)) :
    (exampleMachine [[a, b], [b, c]] [x, y] tm).net.Valid := by
  refine ⟨rfl, rfl, ?_, ?_⟩
  · intro row hrow
    simp [exampleMachine] at hrow
    rcases hrow with rfl | rfl <;> rfl
  · intro i j hi hj
    have hi2 : i < 2 := hi
    have hj2 : j < 2 := hj
    interval_cases i <;> interval_cases j <;>
      simp [exampleMachine, HopfieldNetwork.weight, matrixEntry]

/-- The theorem `calculatePotential_spec` on the network with weights `[[1,2],[2,3]]` and
state `[true,false]`, for neuron 1. -/
theorem calculatePotential_spec_witness :
    calculatePotential (exampleMachine [[1, 2], [2, 3]] [true, false] none).net 1 =
      .ok ((exampleMachine [[1, 2], [2, 3]] [true, false] none).net.weight 1 1 +
        ∑ j in (Finset.range
            (exampleMachine [[1, 2], [2, 3]] [true, false] none).net.m_neuronCount).filter
            (fun j => j ≠ 1),
          (exampleMachine [[1, 2], [2, 3]] [true, false] none).net.weight 1 j *
            (if (exampleMachine [[1, 2], [2, 3]] [true, false] none).net.value j
              then 1 else 0)) :=
  calculatePotential_spec _ (exampleMachine_valid_two 1 2 3 true false none) 1 (by decide)

/-- C2, as stated, fails on the one-neuron network with weight 0 and state `false`: the
potential is 0, so `p >= 0` holds, but `processNeuron(0)` leaves `state[0]` false. -/
theorem processNeuron_tie_counterexample :
    (exampleMachine [[0]] [false] none).net.Valid ∧
    ∃ p m1, calculatePotential (exampleMachine [[0]] [false] none).net 0 = .ok p ∧
      processNeuron exampleEnv (exampleMachine [[0]] [false] none) 0 = .ok (.NO_ERROR, m1) ∧
      m1.net.value 0 ≠ decide (p ≥ 0) := by
  refine ⟨exampleMachine_valid_one 0 false none, 0, exampleMachine [[0]] [false] none, ?_, ?_, ?_⟩
  · simp [calculatePotential, calculatePotentialLoop, exampleMachine, readWeight, readAt,
      List.range, List.range.loop, bind, Except.bind, pure, Except.pure]
  · simp [processNeuron, calculatePotential, calculatePotentialLoop, exampleMachine, readWeight, readAt,
      List.range, List.range.loop, bind, Except.bind, pure, Except.pure]
  · simp [exampleMachine, HopfieldNetwork.value]

/-- The theorem `processNeuron_no_schedule_value` on the one-neuron network with weight 3
and state `false`. -/
theorem processNeuron_no_schedule_value_witness :
    ∃ p m1, calculatePotential (exampleMachine [[3]] [false] none).net 0 = .ok p ∧
      processNeuron exampleEnv (exampleMachine [[3]] [false] none) 0 = .ok (.NO_ERROR, m1) ∧
      m1.net.value 0 =
        (if p = 0 then (exampleMachine [[3]] [false] none).net.value 0 else decide (p ≥ 0)) :=
  processNeuron_no_schedule_value exampleEnv _ (exampleMachine_valid_one 3 false none) 0
    (by decide) rfl

/-- The theorem `processNeuron_zero_potential` on the one-neuron network with weight 0 and
a hot logarithmic schedule attached. -/
theorem processNeuron_zero_potential_witness :
    processNeuron exampleEnv
        (exampleMachine [[0]] [false] (some (TemperatureModule.mkLog 30))) 0 =
      .ok (.NO_ERROR, exampleMachine [[0]] [false] (some (TemperatureModule.mkLog 30))) :=
  processNeuron_zero_potential exampleEnv _ 0 (by decide)
    (by simp [calculatePotential, calculatePotentialLoop, exampleMachine, readWeight, readAt,
      List.range, List.range.loop, bind, Except.bind, pure, Except.pure])

/-- The theorem `processNeuron_out_of_bounds` for the index 1 of a one-neuron network. -/
theorem processNeuron_out_of_bounds_witness :
    processNeuron exampleEnv
        (exampleMachine [[0]] [false] (some (TemperatureModule.mkLog 30))) 1 =
      .ok (.OUT_OF_BOUNDS, exampleMachine [[0]] [false] (some (TemperatureModule.mkLog 30))) :=
  processNeuron_out_of_bounds exampleEnv _ 1 (by decide)

/-! ## Validated replacement of the network -/

section Consistency
variable {α : Type} [LinearOrderedField α]

omit [LinearOrderedField α] in
theorem rowSizeLoop_ok (w : List (List α)) (n : Nat) (hw : w.length = n)
    (hr : ∀ row ∈ w, row.length = n) (fuel i : Nat) :
    rowSizeLoop w n fuel i = .ok false := by
  induction fuel generalizing i with
  | zero => rfl
  | succ fuel ih =>
      unfold rowSizeLoop
      by_cases hi : i < n
      · have hi' : i < w.length := hw ▸ hi
        have hrow := row_length_of_lt w n i hw hr hi
        simp [hi, readAt_of_lt w i [] hi', hrow, ih, bind, Except.bind]
      · simp [hi, pure, Except.pure]

/-- The inner loop of the symmetry check finds a mismatch exactly when there is one. -/
theorem symmetryInner_eq (w : List (List α)) (n : Nat) (hw : w.length = n)
    (hr : ∀ row ∈ w, row.length = n) (i : Nat) (hi : i < n) (js : List Nat)
    (hjs : ∀ j ∈ js, j < n) :
    symmetryInner w i js =
      .ok (js.any fun j => decide (matrixEntry w i j ≠ matrixEntry w j i)) := by
  induction js with
  | nil => rfl
  | cons j js ih =>
      have hj : j < n := hjs j (List.mem_cons_self _ _)
      have hjs' : ∀ x ∈ js, x < n := fun x hx => hjs x (List.mem_cons_of_mem _ hx)
      unfold symmetryInner
      rw [readWeight_of_lt w n i j hw hr hi hj, readWeight_of_lt w n j i hw hr hj hi]
      by_cases h : matrixEntry w i j = matrixEntry w j i
      · simp [h, ih hjs', bind, Except.bind]
      · simp [h, bind, Except.bind, pure, Except.pure]

theorem symmetryOuter_eq (w : List (List α)) (n : Nat) (hw : w.length = n)
    (hr : ∀ row ∈ w, row.length = n) (is : List Nat) (his : ∀ i ∈ is, i < n) :
    symmetryOuter w n is =
      .ok (is.any fun i => (List.range' i (n - i)).any fun j =>
        decide (matrixEntry w i j ≠ matrixEntry w j i)) := by
  induction is with
  | nil => rfl
  | cons i is ih =>
      have hi : i < n := his i (List.mem_cons_self _ _)
      have his' : ∀ x ∈ is, x < n := fun x hx => his x (List.mem_cons_of_mem _ hx)
      have hjs : ∀ j ∈ List.range' i (n - i), j < n := by
        intro j hj
        rw [List.mem_range'_1] at hj
        omega
      unfold symmetryOuter
      rw [symmetryInner_eq w n hw hr i hi _ hjs]
      simp only [bind, Except.bind, List.any_cons]
      cases hb : (List.range' i (n - i)).any fun j =>
          decide (matrixEntry w i j ≠ matrixEntry w j i)
      · simpa using ih his'
      · simp [pure, Except.pure]

/-- With consistent sizes the check is decided by the symmetry test alone. -/
theorem isInconsistent_of_sizes (i0 : Nat) (w : List (List α)) (v : List Bool) (n : Nat)
    (hv : v.length = n) (hw : w.length = n) (hr : ∀ row ∈ w, row.length = n) :
    isInconsistent i0 w v n =
      .ok (if ((List.range n).any fun i => (List.range' i (n - i)).any fun j =>
          decide (matrixEntry w i j ≠ matrixEntry w j i)) then .NON_SYMMETRIC
        else .NO_ERROR) := by
  unfold isInconsistent
  simp only [hv, hw, ne_eq, not_true_eq_false, if_false, rowSizeLoop_ok w n hw hr,
    symmetryOuter_eq w n hw hr _ (fun i hi => List.mem_range.mp hi), bind, Except.bind]
  cases (List.range n).any fun i => (List.range' i (n - i)).any fun j =>
      decide (matrixEntry w i j ≠ matrixEntry w j i) <;>
    simp [pure, Except.pure]

/-- A matrix of the right shape with a mismatching pair is reported `NON_SYMMETRIC`. -/
theorem isInconsistent_non_symmetric (i0 : Nat) (w : List (List α)) (v : List Bool)
    (n : Nat) (hv : v.length = n) (hw : w.length = n) (hr : ∀ row ∈ w, row.length = n)
    (hns : ∃ i j, i < n ∧ j < n ∧ matrixEntry w i j ≠ matrixEntry w j i) :
    isInconsistent i0 w v n = .ok .NON_SYMMETRIC := by
  rw [isInconsistent_of_sizes i0 w v n hv hw hr]
  have hany : ((List.range n).any fun i => (List.range' i (n - i)).any fun j =>
      decide (matrixEntry w i j ≠ matrixEntry w j i)) = true := by
    obtain ⟨i, j, hi, hj, hne⟩ := hns
    rw [List.any_eq_true]
    rcases Nat.le_total i j with hij | hji
    · refine ⟨i, List.mem_range.mpr hi, ?_⟩
      rw [List.any_eq_true]
      refine ⟨j, ?_, by simpa using hne⟩
      rw [List.mem_range'_1]
      omega
    · refine ⟨j, List.mem_range.mpr hj, ?_⟩
      rw [List.any_eq_true]
      refine ⟨i, ?_, by simpa using fun h => hne h.symm⟩
      rw [List.mem_range'_1]
      omega
  rw [hany]
  rfl

/-- A symmetric matrix of the right shape passes the check. -/
theorem isInconsistent_symmetric (i0 : Nat) (w : List (List α)) (v : List Bool)
    (n : Nat) (hv : v.length = n) (hw : w.length = n) (hr : ∀ row ∈ w, row.length = n)
    (hsym : ∀ i j, i < n → j < n → matrixEntry w i j = matrixEntry w j i) :
    isInconsistent i0 w v n = .ok .NO_ERROR := by
  rw [isInconsistent_of_sizes i0 w v n hv hw hr]
  have hany : ((List.range n).any fun i => (List.range' i (n - i)).any fun j =>
      decide (matrixEntry w i j ≠ matrixEntry w j i)) = false := by
    rw [List.any_eq_false]
    intro i hi
    rw [Bool.not_eq_true, List.any_eq_false]
    intro j hj
    rw [List.mem_range'_1] at hj
    have := hsym i j (List.mem_range.mp hi) (by omega)
    simp [this]
  rw [hany]
  rfl

/-- A size mismatch in the state or in the number of rows is reported `INCONSISTENCY`. -/
theorem isInconsistent_size_mismatch (i0 : Nat) (w : List (List α)) (v : List Bool)
    (n : Nat) (h : v.length ≠ n ∨ w.length ≠ n) :
    isInconsistent i0 w v n = .ok .INCONSISTENCY := by
  unfold isInconsistent
  by_cases hv : n = v.length
  · have hw : n ≠ w.length := by
      rcases h with h | h
      · exact absurd hv.symm h
      · exact fun e => h e.symm
    rw [if_neg (not_not.mpr hv), if_pos hw]
    rfl
  · rw [if_pos hv]
    rfl


/-- The outcome of `updateNetwork` from the outcome of the check. -/
theorem updateNetwork_of_check (i0 : Nat) (m : Machine α) (w : List (List α))
    (v : List Bool) (n : Nat) (e : errorCode)
    (he : isInconsistent i0 w (if v.isEmpty then List.replicate w.length true else v)
      (if n ≠ 0 then n else w.length) = .ok e) :
    updateNetwork i0 m w v n =
      if e = .NO_ERROR then
        .ok (true, { m with net := { m.net with
          m_neuronWeights := w
          m_neuronValues := if v.isEmpty then List.replicate w.length true else v
          m_neuronCount := if n ≠ 0 then n else w.length } })
      else if e = .UNKNOWN_ERROR then .error .exitFailure
      else .ok (false, { m with raised := m.raised ++ [e] }) := by
  unfold updateNetwork
  simp only [he, bind, Except.bind]
  by_cases h1 : e = .NO_ERROR
  · simp [h1, pure, Except.pure]
  · by_cases h2 : e = .UNKNOWN_ERROR
    · simp [h2, raiseError]
    · simp [h1, h2, raiseError, pure, Except.pure]

end Consistency

section Replacement
variable {α : Type} [LinearOrderedField α]

/-- C5. If the sizes are consistent (`count` rows of `count` entries, `count` state values)
but `weights[i][j] != weights[j][i]` for some `i`, `j`, then the check detects
`NON_SYMMETRIC`, `updateNetwork` returns false, and the network is what it was before the
call; only the error is raised. -/
theorem updateNetwork_rejects_non_symmetric (i0 : Nat) (m : Machine α)
    (w : List (List α)) (v : List Bool) (n : Nat) (hv : v.length = n) (hw : w.length = n)
    (hr : ∀ row ∈ w, row.length = n)
    (hns : ∃ i j, i < n ∧ j < n ∧ matrixEntry w i j ≠ matrixEntry w j i) :
    isInconsistent i0 w v n = .ok .NON_SYMMETRIC ∧
      updateNetwork i0 m w v n =
        .ok (false, { m with raised := m.raised ++ [.NON_SYMMETRIC] }) := by
  have hn : n ≠ 0 := by
    obtain ⟨i, _, hi, _⟩ := hns
    omega
  have hne : v.isEmpty = false := by
    cases v with
    | nil => exact absurd hv.symm hn
    | cons _ _ => rfl
  have hcheck := isInconsistent_non_symmetric i0 w v n hv hw hr hns
  refine ⟨hcheck, ?_⟩
  rw [updateNetwork_of_check i0 m w v n .NON_SYMMETRIC (by simpa [hn, hne] using hcheck)]
  simp

/-- C7. For a symmetric `n`×`n` matrix, `updateNetwork` with the state and the count left at
their defaults returns true and installs the matrix, the count `n` and `n` values that
are all true; with a non-empty state of length `n` and the count `n` it returns true and
installs exactly the given weights, state and count. -/
theorem updateNetwork_accepts_symmetric (i0 : Nat) (m : Machine α) (w : List (List α))
    (n : Nat) (hw : w.length = n) (hr : ∀ row ∈ w, row.length = n)
    (hsym : ∀ i j, i < n → j < n → matrixEntry w i j = matrixEntry w j i) :
    updateNetwork i0 m w [] 0 =
        .ok (true, { m with net := { m.net with
          m_neuronWeights := w
          m_neuronValues := List.replicate n true
          m_neuronCount := n } }) ∧
      ∀ v : List Bool, v ≠ [] → v.length = n →
        updateNetwork i0 m w v n =
          .ok (true, { m with net := { m.net with
            m_neuronWeights := w
            m_neuronValues := v
            m_neuronCount := n } }) := by
  constructor
  · have hc := isInconsistent_symmetric i0 w (List.replicate n true) n (by simp) hw hr hsym
    rw [updateNetwork_of_check i0 m w [] 0 .NO_ERROR (by simpa [hw] using hc)]
    simp [hw]
  · intro v hne hv
    have hn : n ≠ 0 := by
      cases v with
      | nil => exact absurd rfl hne
      | cons _ _ => simp at hv; omega
    have he : v.isEmpty = false := by
      cases v with
      | nil => exact absurd rfl hne
      | cons _ _ => rfl
    have hc := isInconsistent_symmetric i0 w v n hv hw hr hsym
    rw [updateNetwork_of_check i0 m w v n .NO_ERROR (by simpa [hn, he] using hc)]
    simp [hn, he]

/-- C6, amended. With the defaults applied (a zero count replaced by the number of rows of
`weights`, an empty state by as many `true` values), if the state has a length other than
the count, or `weights` a number of rows other than the count, then `updateNetwork`
returns false, raises `INCONSISTENCY`, and the network is what it was before the call. -/
theorem updateNetwork_rejects_size_mismatch (i0 : Nat) (m : Machine α)
    (w : List (List α)) (v : List Bool) (n : Nat)
    (h : (if v.isEmpty then List.replicate w.length true else v).length ≠
          (if n ≠ 0 then n else w.length) ∨
        w.length ≠ (if n ≠ 0 then n else w.length)) :
    updateNetwork i0 m w v n =
      .ok (false, { m with raised := m.raised ++ [.INCONSISTENCY] }) := by
  rw [updateNetwork_of_check i0 m w v n .INCONSISTENCY
    (isInconsistent_size_mismatch i0 w _ _ h)]
  simp

end Replacement

/-- The theorem `updateNetwork_rejects_non_symmetric` for the matrix `[[0,1],[2,0]]`, with
the loop variable of the row-size loop starting at 5. -/
theorem updateNetwork_rejects_non_symmetric_witness :
    isInconsistent 5 [[(0 : ℚ), 1], [2, 0]] [true, false] 2 = .ok .NON_SYMMETRIC ∧
      updateNetwork 5 (exampleMachine [[7]] [true] none) [[0, 1], [2, 0]] [true, false] 2 =
        .ok (false, { exampleMachine [[7]] [true] none with
          raised := (exampleMachine [[7]] [true] none).raised ++ [.NON_SYMMETRIC] }) :=
  updateNetwork_rejects_non_symmetric 5 _ _ _ 2 rfl rfl
    (by intro row hrow; simp at hrow; rcases hrow with rfl | rfl <;> rfl)
    ⟨0, 1, by decide, by decide, by simp [matrixEntry]⟩

/-- The theorem `updateNetwork_accepts_symmetric` for the matrix `[[0,1],[1,0]]`, with the
loop variable of the row-size loop starting at 5. -/
theorem updateNetwork_accepts_symmetric_witness :
    updateNetwork 5 (exampleMachine [[7]] [true] none) [[0, 1], [1, 0]] [] 0 =
        .ok (true, { exampleMachine [[7]] [true] none with
          net := { (exampleMachine [[7]] [true] none).net with
            m_neuronWeights := [[0, 1], [1, 0]]
            m_neuronValues := List.replicate 2 true
            m_neuronCount := 2 } }) ∧
      ∀ v : List Bool, v ≠ [] → v.length = 2 →
        updateNetwork 5 (exampleMachine [[7]] [true] none) [[0, 1], [1, 0]] v 2 =
          .ok (true, { exampleMachine [[7]] [true] none with
            net := { (exampleMachine [[7]] [true] none).net with
              m_neuronWeights := [[0, 1], [1, 0]]
              m_neuronValues := v
              m_neuronCount := 2 } }) :=
  updateNetwork_accepts_symmetric 5 _ _ 2 rfl
    (by intro row hrow; simp at hrow; rcases hrow with rfl | rfl <;> rfl)
    (by
      intro i j hi hj
      interval_cases i <;> interval_cases j <;> simp [matrixEntry])

/-- C6, as stated, fails when the state is left at its default: the empty state has not
`count = 1` entries, yet the call returns true and installs the all-true state. -/
theorem updateNetwork_default_state_counterexample :
    ([] : List Bool).length ≠ 1 ∧
      updateNetwork 0 (exampleMachine [] [] none) [[0]] [] 1 =
        .ok (true, exampleMachine [[0]] [true] none) := by
  refine ⟨by decide, ?_⟩
  simp [updateNetwork, isInconsistent, rowSizeLoop, symmetryOuter, symmetryInner, readWeight,
    readAt, exampleMachine, List.range, List.range.loop, List.range', bind, Except.bind,
    pure, Except.pure]

/-- The theorem `updateNetwork_rejects_size_mismatch` for a 2×2 matrix, a state of one
value and the count 2. -/
theorem updateNetwork_rejects_size_mismatch_witness :
    updateNetwork 0 (exampleMachine [[7]] [true] none) [[0, 1], [1, 0]] [true] 2 =
      .ok (false, { exampleMachine [[7]] [true] none with
        raised := (exampleMachine [[7]] [true] none).raised ++ [.INCONSISTENCY] }) :=
  updateNetwork_rejects_size_mismatch 0 _ _ _ 2 (by simp)

/-- The slip in the row-size loop of `isInconsistent`: when its loop variable starts at
`count` or above, a matrix whose rows are too long passes the check and is installed. -/
theorem updateNetwork_ragged_accepted :
    updateNetwork 2 (exampleMachine [] [] none) [[0, 0, 5], [0, 0, 7]] [true, true] 2 =
      .ok (true, exampleMachine [[0, 0, 5], [0, 0, 7]] [true, true] none) := by
  simp [updateNetwork, isInconsistent, rowSizeLoop, symmetryOuter, symmetryInner, readWeight,
    readAt, exampleMachine, List.range, List.range.loop, List.range', bind, Except.bind,
    pure, Except.pure]

/-! ## The stochastic update -/

section RandomTermination

set_option exponentiation.threshold 20000 in
set_option maxRecDepth 100000 in
/-- For every width `b` from 1 to 63 the counter `bitsLeft`, starting at 64 and lowered by
`b` modulo `2^16`, reaches 0 within `2^16` rounds. -/
theorem bitsLeft_reaches_zero : ∀ b < 64, 1 ≤ b →
    (64 + ((64 / Nat.gcd b 64 * (b / Nat.gcd b 64) ^ 16383) % 65536) * (65536 - b)) % 65536
      = 0 := by
  decide

variable {α : Type}

/-- Once `bitsLeft` is `j` rounds away from 0, the loop of `randomNumber` ends within `j`
rounds and returns. -/
theorem randomNumberLoop_ok (env : Env α) (b : Nat) (hb1 : 1 ≤ b) (hb : b < 64) (j : Nat) :
    ∀ fuel bitsLeft result calls, j < fuel → bitsLeft < 65536 →
      (bitsLeft + j * (65536 - b)) % 65536 = 0 →
      ∃ r, randomNumberLoop env b fuel bitsLeft result calls = .ok r := by
  induction j with
  | zero =>
      intro fuel bitsLeft result calls hf hlt h0
      obtain ⟨f, rfl⟩ : ∃ f, fuel = f + 1 := ⟨fuel - 1, by omega⟩
      have : bitsLeft = 0 := by omega
      subst this
      exact ⟨(result, calls), by simp [randomNumberLoop]⟩
  | succ j ih =>
      intro fuel bitsLeft result calls hf hlt h0
      obtain ⟨f, rfl⟩ : ∃ f, fuel = f + 1 := ⟨fuel - 1, by omega⟩
      by_cases hz : bitsLeft = 0
      · subst hz
        exact ⟨(result, calls), by simp [randomNumberLoop]⟩
      · have hpos : bitsLeft > 0 := Nat.pos_of_ne_zero hz
        have hnb : ¬ 64 ≤ b := by omega
        have hbm : b % USHRT_WIDTH = b := Nat.mod_eq_of_lt (by simp [USHRT_WIDTH]; omega)
        unfold randomNumberLoop
        simp only [hpos, if_true, hnb, if_false, hbm]
        apply ih
        · omega
        · exact Nat.mod_lt _ (by simp [USHRT_WIDTH])
        · simp only [USHRT_WIDTH]
          have e : (bitsLeft + 2 ^ 16 - b) % 2 ^ 16 + j * (65536 - b)
              = (bitsLeft + (j + 1) * (65536 - b)) - 65536 * ((bitsLeft + 2 ^ 16 - b) / 2 ^ 16) := by
            have := Nat.mod_add_div (bitsLeft + 2 ^ 16 - b) (2 ^ 16)
            have h2 : (j + 1) * (65536 - b) = j * (65536 - b) + (65536 - b) := by ring
            norm_num at this ⊢
            omega
          omega

end RandomTermination

section RandomOk

variable {α : Type} [LinearOrderedField α] [FloorRing α]

omit [LinearOrderedField α] [FloorRing α] in
/-- With a generator width between 1 and 63, `randomNumber` returns. -/
theorem randomNumber_ok (env : Env α) (m : Machine α) (h1 : 1 ≤ m.effectiveBitCount env)
    (h2 : m.effectiveBitCount env < 64) :
    ∃ r calls raised, randomNumber env m =
      .ok (r, { m with bitCount := some (m.effectiveBitCount env), randCalls := calls,
                       raised := raised }) := by
  have hloop : ∀ calls, ∃ r, randomNumberLoop env (m.effectiveBitCount env)
      (USHRT_WIDTH + 1) 64 0 calls = .ok r := by
    intro calls
    obtain ⟨j, hj, hzero⟩ : ∃ j < 65536,
        (64 + j * (65536 - m.effectiveBitCount env)) % 65536 = 0 :=
      ⟨_, Nat.mod_lt _ (by norm_num), bitsLeft_reaches_zero _ h2 h1⟩
    exact randomNumberLoop_ok env _ h1 h2 j _ _ _ _ (by simp only [USHRT_WIDTH]; omega)
      (by norm_num) hzero
  unfold randomNumber
  cases hbc : m.bitCount with
  | some b =>
      have hb : m.effectiveBitCount env = b := by simp [Machine.effectiveBitCount, hbc]
      obtain ⟨r, hr⟩ := hloop m.randCalls
      rw [hb] at hr
      refine ⟨r.1, r.2, m.raised, ?_⟩
      simp [hbc, hr, hb, bind, Except.bind, pure, Except.pure]
  | none =>
      have hb : m.effectiveBitCount env = (randBits env.RAND_MAX).1 := by
        simp [Machine.effectiveBitCount, hbc]
      obtain ⟨r, hr⟩ := hloop m.randCalls
      rw [hb] at hr
      refine ⟨r.1, r.2, m.raised ++ (randBits env.RAND_MAX).2, ?_⟩
      simp [hr, hb, bind, Except.bind, pure, Except.pure]

theorem toULong_ok (x : α) (h0 : 0 ≤ x) (h1 : x < (ULONG_WIDTH : α)) :
    toULong x = .ok (Int.toNat ⌊x⌋) := by
  unfold toULong
  rw [if_neg]
  intro h
  rcases h with h | h
  · linarith
  · exact absurd h1 (not_lt.mpr h)

/-- With a generator width between 1 and 63, a trial on an argument of at least 1 returns. -/
theorem BernoulliTrial_ok (env : Env α) (m : Machine α) (h1 : 1 ≤ m.effectiveBitCount env)
    (h2 : m.effectiveBitCount env < 64) (input : α) (hx : 1 ≤ input) :
    ∃ b calls raised, BernoulliTrial env m input =
      .ok (b, { m with bitCount := some (m.effectiveBitCount env), randCalls := calls,
                       raised := raised }) := by
  obtain ⟨r, calls, raised, hr⟩ := randomNumber_ok env m h1 h2
  unfold BernoulliTrial
  simp only [hr, bind, Except.bind]
  by_cases hone : input = 1
  · exact ⟨true, calls, raised, by simp [hone, pure, Except.pure]⟩
  · have hgt : input > 1 := lt_of_le_of_ne hx (Ne.symm hone)
    have hpos : (0 : α) < input := by linarith
    have hq0 : (0 : α) ≤ (ULONG_MAX : α) / input :=
      div_nonneg (Nat.cast_nonneg _) hpos.le
    have hq1 : (ULONG_MAX : α) / input < (ULONG_WIDTH : α) := by
      rw [div_lt_iff₀ hpos]
      have hc : (ULONG_MAX : α) < (ULONG_WIDTH : α) := by
        exact_mod_cast (show ULONG_MAX < ULONG_WIDTH by decide)
      have hw : (0 : α) ≤ (ULONG_WIDTH : α) := Nat.cast_nonneg _
      nlinarith
    refine ⟨decide (Int.toNat ⌊(ULONG_MAX : α) / input⌋ ≥ r), calls, raised, ?_⟩
    simp [hone, hgt, toULong_ok _ hq0 hq1, pure, Except.pure]

end RandomOk

section CoolDown

variable {α : Type} [LinearOrderedField α]

theorem extendComputedLogarithms_ok (env : Env α) (st : LogStatics α) (t : Nat)
    (h2 : 2 < st.computedLogarithms.length)
    (h3 : st.k + 1 < st.computedLogarithms.length) :
    ∃ st1, extendComputedLogarithms env st t = .ok st1 ∧
      st1.computedCount = st.computedCount ∧
      st.computedLogarithms.length ≤ st1.computedLogarithms.length ∧
      (st.computedCount < t → st1.computedLogarithms.length = st.computedLogarithms.length + 1) ∧
      st1.k + 1 < st1.computedLogarithms.length := by
  unfold extendComputedLogarithms
  by_cases hgt : t > st.computedCount
  · by_cases hodd : t % 2 = 1
    · refine ⟨{ st with computedLogarithms := st.computedLogarithms ++ [env.log1p (t : α)] },
        by simp [hgt, hodd, pure, Except.pure], rfl, by simp, by simp, ?_⟩
      simp only [List.length_append, List.length_singleton]
      omega
    · refine ⟨{ st with
          computedLogarithms := st.computedLogarithms ++
            [(st.computedLogarithms[st.k + 1]?).getD 0 + (st.computedLogarithms[2]?).getD 0]
          k := st.k + 1 }, ?_, rfl, by simp, by simp, ?_⟩
      · simp only [hgt, if_true, hodd, if_false, bind, Except.bind, pure, Except.pure,
          readAt_of_lt _ _ (0 : α) h3, readAt_of_lt _ _ (0 : α) h2]
      · simp only [List.length_append, List.length_singleton]
        omega
  · exact ⟨st, by simp [hgt, pure, Except.pure], rfl, le_refl _, fun h => absurd h hgt, h3⟩

theorem logOptCoolDown_ok (env : Env α) (tm : TemperatureModule α) (T : α)
    (st : LogStatics α) (hk : tm.kind = .logModuleOpt T)
    (h1 : st.computedCount < st.computedLogarithms.length)
    (h2 : 2 < st.computedLogarithms.length)
    (h3 : st.k + 1 < st.computedLogarithms.length)
    (h4 : tm.m_timeElapsed + 1 ≤ st.computedLogarithms.length) :
    ∃ tm1 st1, logOptCoolDown env tm T st = .ok (tm1, st1) ∧ st1.Covers tm1 := by
  have ht : (tm.m_timeElapsed + 1) % ULONG_WIDTH ≤ tm.m_timeElapsed + 1 := Nat.mod_le _ _
  obtain ⟨st1, hst1, hc, hle, hgrow, hk1⟩ :=
    extendComputedLogarithms_ok env st ((tm.m_timeElapsed + 1) % ULONG_WIDTH) h2 h3
  have hlen : (tm.m_timeElapsed + 1) % ULONG_WIDTH < st1.computedLogarithms.length := by
    by_cases hgt : st.computedCount < (tm.m_timeElapsed + 1) % ULONG_WIDTH
    · have := hgrow hgt
      omega
    · omega
  refine ⟨{ tm with
      m_temperature := T / (st1.computedLogarithms[(tm.m_timeElapsed + 1) % ULONG_WIDTH]?).getD 0
      m_timeElapsed := (tm.m_timeElapsed + 1) % ULONG_WIDTH }, st1, ?_, ?_⟩
  · unfold logOptCoolDown
    simp only [hst1, bind, Except.bind, pure, Except.pure, readAt_of_lt _ _ (0 : α) hlen]
  · simp only [LogStatics.Covers, hk]
    omega

/-- A covered module cools down without abnormal end and stays covered. -/
theorem coolDown_ok (env : Env α) (tm : TemperatureModule α) (st : LogStatics α)
    (hc : st.Covers tm) :
    ∃ tm1 st1, tm.coolDown env st = .ok (tm1, st1) ∧ st1.Covers tm1 := by
  unfold TemperatureModule.coolDown
  cases hk : tm.kind with
  | base => exact ⟨tm, st, rfl, hc⟩
  | timeBased => exact ⟨tm, st, rfl, hc⟩
  | expModule n q c =>
      refine ⟨expCoolDown tm n q c, st, rfl, ?_⟩
      by_cases h : (tm.m_timeElapsed + 1) % ULONG_WIDTH = c <;>
        simp [expCoolDown, h, LogStatics.Covers, hk]
  | logModule T =>
      refine ⟨logCoolDown env tm T, st, rfl, ?_⟩
      simp [LogStatics.Covers, logCoolDown, hk]
  | logModuleOpt T =>
      simp only [LogStatics.Covers, hk] at hc
      exact logOptCoolDown_ok env tm T st hk hc.1 hc.2.1 hc.2.2.1 hc.2.2.2

end CoolDown

section Hot

variable {α : Type} [LinearOrderedField α] [FloorRing α]

/-- With potential 0 nothing changes. -/
theorem processNeuron_of_zero_potential (env : Env α) (m : Machine α) (i : Nat)
    (hi : i < m.net.m_neuronCount) (hp : calculatePotential m.net i = .ok 0) :
    processNeuron env m i = .ok (.NO_ERROR, m) := by
  simp [processNeuron, hi, hp, bind, Except.bind, pure, Except.pure]

omit [FloorRing α] in
theorem HopfieldNetwork.Valid.of_same_shape {net net1 : HopfieldNetwork α} (hv : net.Valid)
    (hw : net1.m_neuronWeights = net.m_neuronWeights)
    (hc : net1.m_neuronCount = net.m_neuronCount)
    (hl : net1.m_neuronValues.length = net.m_neuronValues.length) : net1.Valid := by
  refine ⟨by rw [hl, hc]; exact hv.values_length, by rw [hw, hc]; exact hv.weights_length,
    by rw [hw, hc]; exact hv.row_length, ?_⟩
  intro i j hi hj
  have := hv.symmetric i j (hc ▸ hi) (hc ▸ hj)
  simpa [HopfieldNetwork.weight, hw] using this

/-- The stochastic branch of `processNeuron`. -/
theorem processNeuron_hot (env : Env α) (m : Machine α) (hr : m.Ready env)
    (hexp : ∀ x, 0 ≤ env.exp x) (tm : TemperatureModule α)
    (htm : m.net.m_temperatureModule = some tm) (hhot : tm.m_temperature > ZERO_THRESHOLD)
    (i : Nat) (hi : i < m.net.m_neuronCount) (hp : m.net.specPotential i ≠ 0) :
    ∃ b calls raised tm1 st1,
      BernoulliTrial env m
          (1 + env.exp ((-2) * m.net.specPotential i / tm.m_temperature)) =
        .ok (b, { m with bitCount := some (m.effectiveBitCount env), randCalls := calls,
                         raised := raised }) ∧
      tm.coolDown env m.statics = .ok (tm1, st1) ∧ st1.Covers tm1 ∧
      processNeuron env m i = .ok (.NO_ERROR,
        { net := { m.net with m_neuronValues := m.net.m_neuronValues.set i b,
                              m_temperatureModule := some tm1 },
          statics := st1, bitCount := some (m.effectiveBitCount env), randCalls := calls,
          shuffleCalls := m.shuffleCalls, raised := raised }) := by
  have hx : (1 : α) ≤ 1 + env.exp ((-2) * m.net.specPotential i / tm.m_temperature) :=
    le_add_of_nonneg_right (hexp _)
  obtain ⟨b, calls, raised, hb⟩ := BernoulliTrial_ok env m hr.bits_pos hr.bits_lt _ hx
  obtain ⟨tm1, st1, hcd, hcov⟩ := coolDown_ok env tm m.statics (hr.covers tm htm)
  refine ⟨b, calls, raised, tm1, st1, hb, hcd, hcov, ?_⟩
  have hi' : i < m.net.m_neuronValues.length := hr.valid.values_length ▸ hi
  have hisHot : tm.isHot = true := by simpa [TemperatureModule.isHot] using hhot
  unfold processNeuron
  simp only [hi, if_true, calculatePotential_ok m.net hr.valid i hi, bind, Except.bind, hp,
    ne_eq, not_false_eq_true, htm, hisHot, TemperatureModule.getTemperature, hb]
  rw [setNeuronValue_ok { m with
    bitCount := some (m.effectiveBitCount env)
    randCalls := calls
    raised := raised } i b hi']
  simp only [hcd, pure, Except.pure, HopfieldNetwork.withValue]

/-- On a ready machine `processNeuron` succeeds for every neuron of the network, and
leaves a ready machine with the same weights and count. -/
theorem processNeuron_ready (env : Env α) (m : Machine α) (hr : m.Ready env)
    (hexp : ∀ x, 0 ≤ env.exp x) (i : Nat) (hi : i < m.net.m_neuronCount) :
    ∃ m1, processNeuron env m i = .ok (.NO_ERROR, m1) ∧ m1.Ready env ∧
      m1.net.m_neuronCount = m.net.m_neuronCount ∧
      m1.net.m_neuronWeights = m.net.m_neuronWeights := by
  have hi' : i < m.net.m_neuronValues.length := hr.valid.values_length ▸ hi
  by_cases hhot : ∃ tm, m.net.m_temperatureModule = some tm ∧ tm.isHot = true
  · obtain ⟨tm, htm, hisHot⟩ := hhot
    by_cases hp : m.net.specPotential i = 0
    · refine ⟨m, ?_, hr, rfl, rfl⟩
      exact processNeuron_of_zero_potential env m i hi
        (by rw [calculatePotential_ok m.net hr.valid i hi, hp])
    · have hT : tm.m_temperature > ZERO_THRESHOLD := by
        simpa [TemperatureModule.isHot] using hisHot
      obtain ⟨b, calls, raised, tm1, st1, -, -, hcov, hpn⟩ :=
        processNeuron_hot env m hr hexp tm htm hT i hi hp
      refine ⟨_, hpn, ⟨?_, ?_, ?_, ?_⟩, rfl, rfl⟩
      · exact hr.valid.of_same_shape rfl rfl (by simp)
      · simpa [Machine.effectiveBitCount] using hr.bits_pos
      · simpa [Machine.effectiveBitCount] using hr.bits_lt
      · intro tm2 h2
        simp only [Option.some.injEq] at h2
        exact h2 ▸ hcov
  · have hcold : ∀ tm, m.net.m_temperatureModule = some tm → tm.isHot = false := by
      intro tm htm
      by_contra h
      exact hhot ⟨tm, htm, by simpa using h⟩
    rw [processNeuron_cold env m hr.valid i hi hcold]
    by_cases hp : m.net.specPotential i = 0
    · exact ⟨m, by simp [hp], hr, rfl, rfl⟩
    · refine ⟨{ m with net := m.net.withValue i (decide (m.net.specPotential i ≥ 0)) },
        by simp only [hp, if_false], ⟨?_, hr.bits_pos, hr.bits_lt, hr.covers⟩, rfl, rfl⟩
      exact hr.valid.of_same_shape rfl rfl (by simp [HopfieldNetwork.withValue])

end Hot

section Stochastic

variable {α : Type} [LinearOrderedField α] [FloorRing α]

/-- C9. On a ready machine (valid network, generator width between 1 and 63, logarithm
table covering the module) with a library `exp` that is never negative: if the attached
schedule has temperature `T > 0.5`, `i < count` and the potential `p` of `i` is not zero,
then the argument `1 + exp(-2p/T)` is at least 1, the Bernoulli trial on it returns some
`b`, the module cools down once, and `processNeuron(i)` returns `NO_ERROR` with `state[i]`
set to `b`, every other neuron, the weights and the count unchanged, and the attached
module replaced by the result of that one `coolDown` on the module read before the
call. -/
theorem processNeuron_stochastic (env : Env α) (m : Machine α) (hr : m.Ready env)
    (hexp : ∀ x, 0 ≤ env.exp x) (tm : TemperatureModule α)
    (htm : m.net.m_temperatureModule = some tm) (hhot : tm.m_temperature > 1 / 2)
    (i : Nat) (hi : i < m.net.m_neuronCount) (p : α)
    (hp : calculatePotential m.net i = .ok p) (hp0 : p ≠ 0) :
    1 ≤ 1 + env.exp ((-2) * p / tm.m_temperature) ∧
    ∃ b m1 tm1 st1 m2,
      BernoulliTrial env m (1 + env.exp ((-2) * p / tm.m_temperature)) = .ok (b, m1) ∧
      tm.coolDown env m.statics = .ok (tm1, st1) ∧
      processNeuron env m i = .ok (.NO_ERROR, m2) ∧
      m2.net.m_neuronValues = m.net.m_neuronValues.set i b ∧
      m2.net.m_temperatureModule = some tm1 ∧
      m2.statics = st1 ∧
      m2.net.m_neuronWeights = m.net.m_neuronWeights ∧
      m2.net.m_neuronCount = m.net.m_neuronCount := by
  have hpe : p = m.net.specPotential i := by
    have := calculatePotential_ok m.net hr.valid i hi
    rw [hp] at this
    exact Except.ok.inj this
  subst hpe
  refine ⟨le_add_of_nonneg_right (hexp _), ?_⟩
  obtain ⟨b, calls, raised, tm1, st1, hb, hcd, -, hpn⟩ :=
    processNeuron_hot env m hr hexp tm htm (by simpa [ZERO_THRESHOLD] using hhot) i hi hp0
  exact ⟨b, _, tm1, st1, _, hb, hcd, hpn, rfl, rfl, rfl, rfl, rfl⟩

end Stochastic

/-- The table of logarithms starts with three entries. -/
theorem initial_computedLogarithms_length {α : Type} [LinearOrderedField α] (env : Env α) :
    (LogStatics.initial env).computedLogarithms.length = 3 :=
  rfl

/-- The example generator has 16 bits. -/
theorem randBits_exampleEnv : randBits exampleEnv.RAND_MAX = (16, []) := by
  decide

/-- The one-neuron example machine with a cached logarithmic schedule is ready. -/
theorem exampleMachine_ready_one (w : ℚ) (b : Bool) (T : ℚ) :
    (exampleMachine [[w]] [b] (some (TemperatureModule.mkLogOpt T))).Ready exampleEnv := by
  refine ⟨exampleMachine_valid_one w b _, ?_, ?_, ?_⟩
  · simp [Machine.effectiveBitCount, exampleMachine, randBits_exampleEnv]
  · simp [Machine.effectiveBitCount, exampleMachine, randBits_exampleEnv]
  · intro tm htm
    simp only [exampleMachine, Option.some.injEq] at htm
    subst htm
    have hlen := initial_computedLogarithms_length exampleEnv
    simp only [LogStatics.Covers, TemperatureModule.mkLogOpt]
    refine ⟨?_, ?_, ?_, ?_⟩ <;>
      (show _ < (LogStatics.initial exampleEnv).computedLogarithms.length
       rw [hlen]
       simp [exampleMachine, LogStatics.initial, COMPUTED_LOGARITHMS_MAX_INDEX])

/-- The theorem `processNeuron_stochastic` on the one-neuron network with weight 3 and the
cached logarithmic schedule at temperature 30. -/
theorem processNeuron_stochastic_witness :
    (1 : ℚ) ≤ 1 + exampleEnv.exp ((-2) * 3 / (TemperatureModule.mkLogOpt (30 : ℚ)).m_temperature) ∧
    ∃ b m1 tm1 st1 m2,
      BernoulliTrial exampleEnv
          (exampleMachine [[3]] [false] (some (TemperatureModule.mkLogOpt 30)))
          (1 + exampleEnv.exp ((-2) * 3 / (TemperatureModule.mkLogOpt (30 : ℚ)).m_temperature)) =
        .ok (b, m1) ∧
      (TemperatureModule.mkLogOpt (30 : ℚ)).coolDown exampleEnv
          (exampleMachine [[3]] [false] (some (TemperatureModule.mkLogOpt 30))).statics =
        .ok (tm1, st1) ∧
      processNeuron exampleEnv
          (exampleMachine [[3]] [false] (some (TemperatureModule.mkLogOpt 30))) 0 =
        .ok (.NO_ERROR, m2) ∧
      m2.net.m_neuronValues =
        (exampleMachine [[3]] [false]
          (some (TemperatureModule.mkLogOpt 30))).net.m_neuronValues.set 0 b ∧
      m2.net.m_temperatureModule = some tm1 ∧
      m2.statics = st1 ∧
      m2.net.m_neuronWeights =
        (exampleMachine [[3]] [false]
          (some (TemperatureModule.mkLogOpt 30))).net.m_neuronWeights ∧
      m2.net.m_neuronCount =
        (exampleMachine [[3]] [false]
          (some (TemperatureModule.mkLogOpt 30))).net.m_neuronCount :=
  processNeuron_stochastic exampleEnv _ (exampleMachine_ready_one 3 false 30)
    (fun _ => by simp [exampleEnv]) (TemperatureModule.mkLogOpt 30) rfl
    (by norm_num [TemperatureModule.mkLogOpt]) 0 (by decide) 3
    (by simp [calculatePotential, calculatePotentialLoop, exampleMachine, readWeight, readAt,
      List.range, List.range.loop, bind, Except.bind, pure, Except.pure])
    (by norm_num)

/-! ## Sequential traversal: the first test of equilibrium -/

/-- C1, failing input. On the valid two-neuron network with weights `[[0,0],[0,-1]]`, state
`[true,true]` and no schedule, `computeSequentially` returns true after one call of
`processNeuron` (neuron 0 is unchanged and `lastChangedNeuron` starts at 0), with the state
as it was; but `processNeuron(1)` applied to that final state turns `state[1]` to false,
so the state reported as equilibrium is not a fixed point. -/
theorem computeSequentially_early_equilibrium :
    (exampleMachine [[0, 0], [0, -1]] [true, true] none).net.Valid ∧
    (∀ fuel, computeSequentially exampleEnv
        (exampleMachine [[0, 0], [0, -1]] [true, true] none) (some 0) (fuel + 1) =
      .returned true
        { frame := { m := exampleMachine [[0, 0], [0, -1]] [true, true] none,
                     maxSteps := some 1, currentSteps := 1, updates := 1,
                     trace := [(0, some false)] },
          currentNeuron := 0, lastChangedNeuron := 0 }) ∧
    processNeuron exampleEnv (exampleMachine [[0, 0], [0, -1]] [true, true] none) 1 =
      .ok (.NO_ERROR, exampleMachine [[0, 0], [0, -1]] [true, false] none) ∧
    exampleMachine [[0, 0], [0, -1]] [true, false] none ≠
      exampleMachine [[0, 0], [0, -1]] [true, true] none := by
  refine ⟨exampleMachine_valid_two 0 0 (-1) true true none, ?_, ?_, ?_⟩
  · intro fuel
    simp [computeSequentially, whileLoop, Frame.budgetOpen, seqBody, Frame.visit,
      Frame.writeBack, processNeuron, calculatePotential, calculatePotentialLoop,
      exampleMachine, readWeight, readAt, List.range, List.range.loop, bind, Except.bind,
      pure, Except.pure, ULONG_WIDTH]
  · simp [processNeuron, calculatePotential, calculatePotentialLoop, exampleMachine,
      setNeuronValue, writeAt, readWeight, readAt, List.range, List.range.loop, bind,
      Except.bind, pure, Except.pure]
  · simp [exampleMachine]

/-! ## The step budget of the traversals -/

section Budget

/-- A loop whose body either returns or goes on with one more step, and whose condition is
`steps < M`, returns within `M + 1` tests of its condition. -/
theorem whileLoop_bounded {σ : Type} (cond : σ → Bool)
    (body : σ → Except Abort (LoopStep σ)) (steps : σ → Nat) (Inv : σ → Prop)
    (Post : Bool → σ → Prop) (M : Nat)
    (hopen : ∀ s, Inv s → (cond s = true ↔ steps s < M))
    (hexit : ∀ s, Inv s → ¬ steps s < M → Post false s)
    (hbody : ∀ s, Inv s → steps s < M →
      (∃ s1, body s = .ok (.next s1) ∧ Inv s1 ∧ steps s1 = steps s + 1) ∨
      (∃ b s1, body s = .ok (.ret b s1) ∧ Post b s1)) :
    ∀ fuel s, Inv s → M - steps s < fuel →
      ∃ b s1, whileLoop cond body fuel s = .returned b s1 ∧ Post b s1 := by
  intro fuel
  induction fuel with
  | zero => intro s _ h; omega
  | succ fuel ih =>
      intro s hinv hfuel
      unfold whileLoop
      by_cases hlt : steps s < M
      · rw [if_pos ((hopen s hinv).mpr hlt)]
        rcases hbody s hinv hlt with ⟨s1, hb, hinv1, hsteps⟩ | ⟨b, s1, hb, hpost⟩
        · rw [hb]
          exact ih s1 hinv1 (by omega)
        · rw [hb]
          exact ⟨b, s1, rfl, hpost⟩
      · have hc : ¬ (cond s = true) := fun h => hlt ((hopen s hinv).mp h)
        rw [if_neg hc]
        exact ⟨false, s, rfl, hexit s hinv hlt⟩

variable {α : Type} [LinearOrderedField α] [FloorRing α]

omit [FloorRing α] in
theorem Machine.Ready.of_same {env : Env α} {m m1 : Machine α} (hr : m.Ready env)
    (hnet : m1.net = m.net) (hst : m1.statics = m.statics)
    (hbits : m1.bitCount = m.bitCount) : m1.Ready env := by
  refine ⟨hnet ▸ hr.valid, ?_, ?_, ?_⟩
  · simpa [Machine.effectiveBitCount, hbits] using hr.bits_pos
  · simpa [Machine.effectiveBitCount, hbits] using hr.bits_lt
  · intro tm htm
    rw [hst]
    exact hr.covers tm (hnet ▸ htm)

omit [LinearOrderedField α] [FloorRing α] in
theorem budgetOpen_iff (f : Frame α) (M : Nat) (hM0 : M ≠ 0) (hms : f.maxSteps = some M) :
    f.budgetOpen = true ↔ f.currentSteps < M := by
  simp [Frame.budgetOpen, hms, hM0]

omit [LinearOrderedField α] [FloorRing α] in
theorem writeBack_of_ne_zero (f : Frame α) (M : Nat) (hM0 : M ≠ 0)
    (hms : f.maxSteps = some M) : f.writeBack = f := by
  unfold Frame.writeBack
  rw [hms]
  cases M with
  | zero => exact absurd rfl hM0
  | succ k => rfl

/-- On a ready machine a visit of a neuron of the network succeeds, counts one update, and
leaves a ready machine of the same size. -/
theorem Frame.visit_ready (env : Env α) (f : Frame α) (hr : f.m.Ready env)
    (hexp : ∀ x, 0 ≤ env.exp x) (neuron : Nat) (hn : neuron < f.m.net.m_neuronCount) :
    ∃ c m1, f.visit env neuron = .ok (some c, { f with
        m := m1
        updates := f.updates + 1
        trace := (neuron, some c) :: f.trace }) ∧
      m1.Ready env ∧ m1.net.m_neuronCount = f.m.net.m_neuronCount := by
  obtain ⟨m1, hpn, hr1, hcount, -⟩ := processNeuron_ready env f.m hr hexp neuron hn
  have hread := hr.valid.readValue hn
  have hread1 := hr1.valid.readValue (hcount ▸ hn)
  refine ⟨decide (f.m.net.value neuron ≠ m1.net.value neuron), m1, ?_, hr1, hcount⟩
  unfold Frame.visit
  simp [hread, hpn, hread1, bind, Except.bind, pure, Except.pure]

end Budget

section BudgetSeq

variable {α : Type} [LinearOrderedField α] [FloorRing α]

omit [FloorRing α] in
theorem Frame.InBudget.done_of_not_lt {env : Env α} {M : Nat} {f : Frame α}
    (h : f.InBudget env M) (hge : ¬ f.currentSteps < M) : f.Done M false := by
  obtain ⟨-, hms, hcs, hup, -⟩ := h
  exact ⟨hup, hms, fun _ => by omega⟩

/-- One round of `computeSequentially` within the budget. -/
theorem seqBody_inBudget (env : Env α) (hexp : ∀ x, 0 ≤ env.exp x) (M : Nat)
    (hM0 : M ≠ 0) (hM : M < ULONG_WIDTH) (s : SeqState α)
    (hinv : s.frame.InBudget env M ∧ s.currentNeuron < s.frame.m.net.m_neuronCount)
    (hlt : s.frame.currentSteps < M) :
    (∃ s1, seqBody env s = .ok (.next s1) ∧
        (s1.frame.InBudget env M ∧ s1.currentNeuron < s1.frame.m.net.m_neuronCount) ∧
        s1.frame.currentSteps = s.frame.currentSteps + 1) ∨
      (∃ b s1, seqBody env s = .ok (.ret b s1) ∧ s1.frame.Done M b) := by
  obtain ⟨⟨hr, hms, hcs, hup, hpos⟩, hcur⟩ := hinv
  have hstep : (s.frame.currentSteps + 1) % ULONG_WIDTH = s.frame.currentSteps + 1 :=
    Nat.mod_eq_of_lt (by omega)
  obtain ⟨c, m1, hvisit, hr1, hcount⟩ := Frame.visit_ready env
    { s.frame with currentSteps := (s.frame.currentSteps + 1) % ULONG_WIDTH } hr hexp
    s.currentNeuron hcur
  have hcount1 : m1.net.m_neuronCount = s.frame.m.net.m_neuronCount := hcount
  have hn0 : m1.net.m_neuronCount ≠ 0 := by rw [hcount1]; exact Nat.pos_iff_ne_zero.mp hpos
  have hmod : ∀ x, x % m1.net.m_neuronCount < m1.net.m_neuronCount :=
    fun x => Nat.mod_lt _ (Nat.pos_of_ne_zero hn0)
  have hin : ∀ tr, Frame.InBudget env M
      { m := m1, maxSteps := s.frame.maxSteps,
        currentSteps := (s.frame.currentSteps + 1) % ULONG_WIDTH,
        updates := s.frame.updates + 1, trace := tr } := by
    intro tr
    refine ⟨hr1, hms, ?_, ?_, ?_⟩
    · show (s.frame.currentSteps + 1) % ULONG_WIDTH = s.frame.updates + 1
      rw [hstep, hcs]
    · show s.frame.updates + 1 ≤ M
      omega
    · show 0 < m1.net.m_neuronCount
      exact Nat.pos_of_ne_zero hn0
  unfold seqBody
  simp only [hvisit, bind, Except.bind]
  cases c with
  | true =>
      simp only [hn0, if_false]
      exact Or.inl ⟨_, rfl, ⟨hin _, hmod _⟩, hstep⟩
  | false =>
      by_cases heq : s.currentNeuron = s.lastChangedNeuron
      · simp only [heq, if_true, pure, Except.pure]
        rw [writeBack_of_ne_zero
          { m := m1, maxSteps := s.frame.maxSteps,
            currentSteps := (s.frame.currentSteps + 1) % ULONG_WIDTH,
            updates := s.frame.updates + 1, trace := _ } M hM0 hms]
        exact Or.inr ⟨true, _, rfl, (hin _).2.2.2.1, hms, fun h => absurd h (by decide)⟩
      · simp only [heq, if_false, hn0]
        exact Or.inl ⟨_, rfl, ⟨hin _, hmod _⟩, hstep⟩

/-- The budget property for `computeSequentially`. -/
theorem computeSequentially_budget (env : Env α) (hexp : ∀ x, 0 ≤ env.exp x)
    (m : Machine α) (hr : m.Ready env) (hn : 0 < m.net.m_neuronCount) (M : Nat)
    (hM0 : M ≠ 0) (hM : M < ULONG_WIDTH) (fuel : Nat) (hfuel : M < fuel) :
    ∃ b s, computeSequentially env m (some M) fuel = .returned b s ∧ s.frame.Done M b := by
  unfold computeSequentially
  refine whileLoop_bounded (fun s => s.frame.budgetOpen) (seqBody env)
    (fun s => s.frame.currentSteps)
    (fun s => s.frame.InBudget env M ∧ s.currentNeuron < s.frame.m.net.m_neuronCount)
    (fun b s => s.frame.Done M b) M
    (fun s hinv => budgetOpen_iff s.frame M hM0 hinv.1.2.1)
    (fun s hinv hge => hinv.1.done_of_not_lt hge)
    (seqBody_inBudget env hexp M hM0 hM) fuel _ ?_ ?_
  · exact ⟨⟨hr, rfl, rfl, Nat.zero_le _, hn⟩, hn⟩
  · show M - 0 < fuel
    omega

end BudgetSeq

section BudgetRand

variable {α : Type} [LinearOrderedField α] [FloorRing α]

theorem countToCheck_ok (v : List Bool) (l : List Nat) (hl : ∀ i ∈ l, i < v.length)
    (acc : Nat) : ∃ r, countToCheck v l acc = .ok r := by
  induction l generalizing acc with
  | nil => exact ⟨acc, rfl⟩
  | cons i is ih =>
      have hi : i < v.length := hl i (List.mem_cons_self _ _)
      unfold countToCheck
      simp only [readAt_of_lt v i false hi, bind, Except.bind]
      exact ih (fun x hx => hl x (List.mem_cons_of_mem _ hx)) _

/-- One round of `computeRandomly` within the budget. -/
theorem randBody_inBudget (env : Env α) (hexp : ∀ x, 0 ≤ env.exp x) (M : Nat)
    (hM0 : M ≠ 0) (hM : M < ULONG_WIDTH) (s : RandState α)
    (hinv : s.frame.InBudget env M ∧
      s.neuronsToCheck.length = s.frame.m.net.m_neuronCount)
    (hlt : s.frame.currentSteps < M) :
    (∃ s1, randBody env s = .ok (.next s1) ∧
        (s1.frame.InBudget env M ∧
          s1.neuronsToCheck.length = s1.frame.m.net.m_neuronCount) ∧
        s1.frame.currentSteps = s.frame.currentSteps + 1) ∨
      (∃ b s1, randBody env s = .ok (.ret b s1) ∧ s1.frame.Done M b) := by
  obtain ⟨⟨hr, hms, hcs, hup, hpos⟩, hlen⟩ := hinv
  have hstep : (s.frame.currentSteps + 1) % ULONG_WIDTH = s.frame.currentSteps + 1 :=
    Nat.mod_eq_of_lt (by omega)
  have hn0 : s.frame.m.net.m_neuronCount ≠ 0 := Nat.pos_iff_ne_zero.mp hpos
  have hrn : (env.rand s.frame.m.randCalls % ULONG_WIDTH) % s.frame.m.net.m_neuronCount <
      s.frame.m.net.m_neuronCount := Nat.mod_lt _ hpos
  obtain ⟨c, m1, hvisit, hr1, hcount⟩ := Frame.visit_ready env
    { m := { s.frame.m with randCalls := s.frame.m.randCalls + 1 },
      maxSteps := s.frame.maxSteps,
      currentSteps := (s.frame.currentSteps + 1) % ULONG_WIDTH,
      updates := s.frame.updates, trace := s.frame.trace }
    (hr.of_same rfl rfl rfl) hexp _ hrn
  have hcount1 : m1.net.m_neuronCount = s.frame.m.net.m_neuronCount := hcount
  have hin : ∀ tr, Frame.InBudget env M
      { m := m1, maxSteps := s.frame.maxSteps,
        currentSteps := (s.frame.currentSteps + 1) % ULONG_WIDTH,
        updates := s.frame.updates + 1, trace := tr } := by
    intro tr
    refine ⟨hr1, hms, ?_, ?_, ?_⟩
    · show (s.frame.currentSteps + 1) % ULONG_WIDTH = s.frame.updates + 1
      rw [hstep, hcs]
    · show s.frame.updates + 1 ≤ M
      omega
    · show 0 < m1.net.m_neuronCount
      rw [hcount1]
      exact hpos
  have hlen1 : s.neuronsToCheck.length = m1.net.m_neuronCount := by rw [hcount1, hlen]
  unfold randBody
  simp only [hn0, if_false, hvisit, bind, Except.bind]
  cases c with
  | true =>
      by_cases hth : s.unchangedCount > s.CHECK_THRESHOLD
      · simp only [hth, if_true, pure, Except.pure]
        exact Or.inl ⟨_, rfl, ⟨hin _, List.length_replicate _ _⟩, hstep⟩
      · simp only [hth, if_false, pure, Except.pure]
        exact Or.inl ⟨_, rfl, ⟨hin _, hlen1⟩, hstep⟩
  | false =>
      by_cases hth : (s.unchangedCount + 1) % ULONG_WIDTH > s.CHECK_THRESHOLD
      · have hw : writeAt s.neuronsToCheck
            ((env.rand s.frame.m.randCalls % ULONG_WIDTH) % s.frame.m.net.m_neuronCount)
            false = .ok (s.neuronsToCheck.set
              ((env.rand s.frame.m.randCalls % ULONG_WIDTH) % s.frame.m.net.m_neuronCount)
              false) := by
          simp [writeAt, hlen, hrn]
        have hlen2 : (s.neuronsToCheck.set
            ((env.rand s.frame.m.randCalls % ULONG_WIDTH) % s.frame.m.net.m_neuronCount)
            false).length = m1.net.m_neuronCount := by
          rw [List.length_set, hlen1]
        simp only [hth, if_true, hw]
        by_cases hcheck : (s.checkSteps + 1) % ULONG_WIDTH = s.nextCheck
        · obtain ⟨r, hcnt⟩ := countToCheck_ok (s.neuronsToCheck.set
            ((env.rand s.frame.m.randCalls % ULONG_WIDTH) % s.frame.m.net.m_neuronCount)
            false) (List.range m1.net.m_neuronCount)
            (fun i hi => by rw [hlen2]; exact List.mem_range.mp hi) 0
          simp only [hcheck, if_true, hcnt]
          by_cases hrem : r = 0
          · simp only [hrem, ne_eq, not_true_eq_false, if_false, pure, Except.pure]
            rw [writeBack_of_ne_zero
              { m := m1, maxSteps := s.frame.maxSteps,
                currentSteps := (s.frame.currentSteps + 1) % ULONG_WIDTH,
                updates := s.frame.updates + 1, trace := _ } M hM0 hms]
            exact Or.inr ⟨true, _, rfl, (hin _).2.2.2.1, hms, fun h => absurd h (by decide)⟩
          · simp only [hrem, ne_eq, not_false_eq_true, if_true, pure, Except.pure]
            exact Or.inl ⟨_, rfl, ⟨hin _, hlen2⟩, hstep⟩
        · simp only [hcheck, if_false, pure, Except.pure]
          exact Or.inl ⟨_, rfl, ⟨hin _, hlen2⟩, hstep⟩
      · simp only [hth, if_false, pure, Except.pure]
        exact Or.inl ⟨_, rfl, ⟨hin _, hlen1⟩, hstep⟩

/-- The budget property for `computeRandomly`. -/
theorem computeRandomly_budget (env : Env α) (hexp : ∀ x, 0 ≤ env.exp x)
    (m : Machine α) (hr : m.Ready env) (hn : 0 < m.net.m_neuronCount) (M : Nat)
    (hM0 : M ≠ 0) (hM : M < ULONG_WIDTH) (fuel : Nat) (hfuel : M < fuel) :
    ∃ b s, computeRandomly env m (some M) fuel = .returned b s ∧ s.frame.Done M b := by
  unfold computeRandomly
  refine whileLoop_bounded (fun s => s.frame.budgetOpen) (randBody env)
    (fun s => s.frame.currentSteps)
    (fun s => s.frame.InBudget env M ∧
      s.neuronsToCheck.length = s.frame.m.net.m_neuronCount)
    (fun b s => s.frame.Done M b) M
    (fun s hinv => budgetOpen_iff s.frame M hM0 hinv.1.2.1)
    (fun s hinv hge => hinv.1.done_of_not_lt hge)
    (randBody_inBudget env hexp M hM0 hM) fuel _ ?_ ?_
  · exact ⟨⟨hr, rfl, rfl, Nat.zero_le _, hn⟩, List.length_replicate _ _⟩
  · show M - 0 < fuel
    omega

end BudgetRand

section BudgetPerm

variable {α : Type} [LinearOrderedField α] [FloorRing α]

/-- The visit at the end of a round of `computeRandomSeq`, within the budget. -/
theorem permVisit_inBudget (env : Env α) (hexp : ∀ x, 0 ≤ env.exp x) (M : Nat)
    (s : PermState α) (hr : s.frame.m.Ready env) (hms : s.frame.maxSteps = some M)
    (hcs : s.frame.currentSteps = s.frame.updates + 1) (hup : s.frame.updates + 1 ≤ M)
    (hpos : 0 < s.frame.m.net.m_neuronCount)
    (hei : s.elementIndex < s.frame.m.net.m_neuronCount)
    (hlen : s.permutation.length = s.frame.m.net.m_neuronCount)
    (hmem : ∀ e ∈ s.permutation, e < s.frame.m.net.m_neuronCount) :
    ∃ s1, permVisit env s = .ok (.next s1) ∧
      (s1.frame.InBudget env M ∧ s1.elementIndex ≤ s1.frame.m.net.m_neuronCount ∧
        s1.permutation.length = s1.frame.m.net.m_neuronCount ∧
        ∀ e ∈ s1.permutation, e < s1.frame.m.net.m_neuronCount) ∧
      s1.frame.currentSteps = s.frame.currentSteps := by
  have hei' : s.elementIndex < s.permutation.length := hlen ▸ hei
  have hread := readAt_of_lt s.permutation s.elementIndex 0 hei'
  have hel : (s.permutation[s.elementIndex]?).getD 0 < s.frame.m.net.m_neuronCount := by
    apply hmem
    rw [List.getElem?_eq_getElem hei']
    exact List.getElem_mem _
  obtain ⟨c, m1, hvisit, hr1, hcount⟩ := Frame.visit_ready env s.frame hr hexp _ hel
  have hle : (s.elementIndex + 1) % ULONG_WIDTH ≤ m1.net.m_neuronCount := by
    have := Nat.mod_le (s.elementIndex + 1) ULONG_WIDTH
    omega
  unfold permVisit
  simp only [hread, hvisit, bind, Except.bind, pure, Except.pure]
  refine ⟨_, rfl, ⟨⟨hr1, hms, ?_, hup, ?_⟩, hle, ?_, ?_⟩, rfl⟩
  · exact hcs
  · show 0 < m1.net.m_neuronCount
    omega
  · show s.permutation.length = m1.net.m_neuronCount
    omega
  · intro e he
    show e < m1.net.m_neuronCount
    have := hmem e he
    omega

/-- One round of `computeRandomSeq` within the budget. -/
theorem permBody_inBudget (env : Env α) (hexp : ∀ x, 0 ≤ env.exp x)
    (hshuffle : ∀ k l, (env.random_shuffle k l).Perm l) (M : Nat)
    (hM0 : M ≠ 0) (hM : M < ULONG_WIDTH) (s : PermState α)
    (hinv : s.frame.InBudget env M ∧ s.elementIndex ≤ s.frame.m.net.m_neuronCount ∧
      s.permutation.length = s.frame.m.net.m_neuronCount ∧
      ∀ e ∈ s.permutation, e < s.frame.m.net.m_neuronCount)
    (hlt : s.frame.currentSteps < M) :
    (∃ s1, permBody env s = .ok (.next s1) ∧
        (s1.frame.InBudget env M ∧ s1.elementIndex ≤ s1.frame.m.net.m_neuronCount ∧
          s1.permutation.length = s1.frame.m.net.m_neuronCount ∧
          ∀ e ∈ s1.permutation, e < s1.frame.m.net.m_neuronCount) ∧
        s1.frame.currentSteps = s.frame.currentSteps + 1) ∨
      (∃ b s1, permBody env s = .ok (.ret b s1) ∧ s1.frame.Done M b) := by
  obtain ⟨⟨hr, hms, hcs, hup, hpos⟩, hei, hlen, hmem⟩ := hinv
  have hstep : (s.frame.currentSteps + 1) % ULONG_WIDTH = s.frame.currentSteps + 1 :=
    Nat.mod_eq_of_lt (by omega)
  unfold permBody
  by_cases hend : s.elementIndex = s.frame.m.net.m_neuronCount
  · cases hch : s.changed with
    | false =>
        simp only [hend, if_true, Bool.not_false, pure, Except.pure]
        rw [writeBack_of_ne_zero
          { m := s.frame.m, maxSteps := s.frame.maxSteps,
            currentSteps := (s.frame.currentSteps + 1) % ULONG_WIDTH,
            updates := s.frame.updates, trace := s.frame.trace } M hM0 hms]
        exact Or.inr ⟨true, _, rfl, hup, hms, fun h => absurd h (by decide)⟩
    | true =>
        simp only [hend, if_true, Bool.not_true, Bool.false_eq_true, if_false]
        have hperm := hshuffle s.frame.m.shuffleCalls (List.range s.frame.m.net.m_neuronCount)
        obtain ⟨s1, hs1, hinv1, hsteps⟩ := permVisit_inBudget env hexp M
          { frame := { m := { s.frame.m with shuffleCalls := s.frame.m.shuffleCalls + 1 },
                       maxSteps := s.frame.maxSteps,
                       currentSteps := (s.frame.currentSteps + 1) % ULONG_WIDTH,
                       updates := s.frame.updates, trace := s.frame.trace },
            changed := false, elementIndex := 0,
            permutation := env.random_shuffle s.frame.m.shuffleCalls
              (List.range s.frame.m.net.m_neuronCount) }
          (hr.of_same rfl rfl rfl) hms (by show _ % _ = _; rw [hstep, hcs])
          (by show s.frame.updates + 1 ≤ M; omega)
          hpos hpos (by rw [hperm.length_eq, List.length_range])
          (fun e he => List.mem_range.mp (hperm.mem_iff.mp he))
        exact Or.inl ⟨s1, hs1, hinv1, by rw [hsteps]; exact hstep⟩
  · simp only [hend, if_false]
    obtain ⟨s1, hs1, hinv1, hsteps⟩ := permVisit_inBudget env hexp M
      { s with frame := { s.frame with
          currentSteps := (s.frame.currentSteps + 1) % ULONG_WIDTH } }
      hr hms (by show _ % _ = _; rw [hstep, hcs]) (by show s.frame.updates + 1 ≤ M; omega)
      hpos
      (lt_of_le_of_ne hei hend) hlen hmem
    exact Or.inl ⟨s1, hs1, hinv1, by rw [hsteps]; exact hstep⟩

/-- The budget property for `computeRandomSeq`. -/
theorem computeRandomSeq_budget (env : Env α) (hexp : ∀ x, 0 ≤ env.exp x)
    (hshuffle : ∀ k l, (env.random_shuffle k l).Perm l)
    (m : Machine α) (hr : m.Ready env) (hn : 0 < m.net.m_neuronCount) (M : Nat)
    (hM0 : M ≠ 0) (hM : M < ULONG_WIDTH) (fuel : Nat) (hfuel : M < fuel) :
    ∃ b s, computeRandomSeq env m (some M) fuel = .returned b s ∧ s.frame.Done M b := by
  have hperm := hshuffle m.shuffleCalls (List.range m.net.m_neuronCount)
  unfold computeRandomSeq
  refine whileLoop_bounded (fun s => s.frame.budgetOpen) (permBody env)
    (fun s => s.frame.currentSteps)
    (fun s => s.frame.InBudget env M ∧ s.elementIndex ≤ s.frame.m.net.m_neuronCount ∧
      s.permutation.length = s.frame.m.net.m_neuronCount ∧
      ∀ e ∈ s.permutation, e < s.frame.m.net.m_neuronCount)
    (fun b s => s.frame.Done M b) M
    (fun s hinv => budgetOpen_iff s.frame M hM0 hinv.1.2.1)
    (fun s hinv hge => hinv.1.done_of_not_lt hge)
    (permBody_inBudget env hexp hshuffle M hM0 hM) fuel _ ?_ ?_
  · refine ⟨⟨hr.of_same rfl rfl rfl, rfl, rfl, Nat.zero_le _, hn⟩, Nat.zero_le _, ?_, ?_⟩
    · show (env.random_shuffle m.shuffleCalls (List.range m.net.m_neuronCount)).length = _
      rw [hperm.length_eq, List.length_range]
      rfl
    · intro e he
      exact List.mem_range.mp (hperm.mem_iff.mp he)
  · show M - 0 < fuel
    omega

end BudgetPerm

section BudgetAll

variable {α : Type} [LinearOrderedField α] [FloorRing α]

/-- C10. On a ready machine with at least one neuron, with a library `exp` that is never
negative and a `random_shuffle` that permutes, and for a budget `M` that is not zero: each
of `computeSequentially`, `computeRandomly` and `computeRandomSeq` returns within `M + 1`
tests of its loop condition, has then made at most `M` calls of `processNeuron`, has left
the budget cell at `M`, and has made exactly `M` calls if it returns false. -/
theorem traversals_respect_budget (env : Env α) (hexp : ∀ x, 0 ≤ env.exp x)
    (hshuffle : ∀ k l, (env.random_shuffle k l).Perm l) (m : Machine α)
    (hr : m.Ready env) (hn : 1 ≤ m.net.m_neuronCount) (M : Nat) (hM0 : M ≠ 0)
    (hM : M < 2 ^ 64) (fuel : Nat) (hfuel : M < fuel) :
    (∃ b s, computeSequentially env m (some M) fuel = .returned b s ∧
      s.frame.updates ≤ M ∧ s.frame.maxSteps = some M ∧
      (b = false → s.frame.updates = M)) ∧
    (∃ b s, computeRandomly env m (some M) fuel = .returned b s ∧
      s.frame.updates ≤ M ∧ s.frame.maxSteps = some M ∧
      (b = false → s.frame.updates = M)) ∧
    (∃ b s, computeRandomSeq env m (some M) fuel = .returned b s ∧
      s.frame.updates ≤ M ∧ s.frame.maxSteps = some M ∧
      (b = false → s.frame.updates = M)) :=
  ⟨computeSequentially_budget env hexp m hr hn M hM0 hM fuel hfuel,
   computeRandomly_budget env hexp m hr hn M hM0 hM fuel hfuel,
   computeRandomSeq_budget env hexp hshuffle m hr hn M hM0 hM fuel hfuel⟩

end BudgetAll

/-- The theorem `traversals_respect_budget` on the one-neuron network with weight 3 and the
cached logarithmic schedule at temperature 30, for the budget 2. -/
theorem traversals_respect_budget_witness :
    (∃ b s, computeSequentially exampleEnv
        (exampleMachine [[3]] [false] (some (TemperatureModule.mkLogOpt 30))) (some 2) 3 =
          .returned b s ∧
      s.frame.updates ≤ 2 ∧ s.frame.maxSteps = some 2 ∧
      (b = false → s.frame.updates = 2)) ∧
    (∃ b s, computeRandomly exampleEnv
        (exampleMachine [[3]] [false] (some (TemperatureModule.mkLogOpt 30))) (some 2) 3 =
          .returned b s ∧
      s.frame.updates ≤ 2 ∧ s.frame.maxSteps = some 2 ∧
      (b = false → s.frame.updates = 2)) ∧
    (∃ b s, computeRandomSeq exampleEnv
        (exampleMachine [[3]] [false] (some (TemperatureModule.mkLogOpt 30))) (some 2) 3 =
          .returned b s ∧
      s.frame.updates ≤ 2 ∧ s.frame.maxSteps = some 2 ∧
      (b = false → s.frame.updates = 2)) :=
  traversals_respect_budget exampleEnv (fun _ => by simp [exampleEnv])
    (fun _ l => List.reverse_perm l) _ (exampleMachine_ready_one 3 false 30)
    (by decide) 2 (by decide) (by norm_num) 3 (by decide)

/-! ## A schedule that is not hot -/

section Cold

variable {α : Type} [LinearOrderedField α] [FloorRing α]

/-- C20. For a valid network, `i < count` and an attached schedule with temperature at most
0.5, `processNeuron(i)` returns `NO_ERROR` both with the schedule attached and with no
schedule attached, the two resulting machines differ only in the schedule pointer (same
weights, state and count, same statics and generator state), and the attached schedule is
the module as it was before the call: temperature and elapsed ticks are unchanged. -/
theorem processNeuron_cold_schedule (env : Env α) (m : Machine α) (hv : m.net.Valid)
    (i : Nat) (hi : i < m.net.m_neuronCount) (tm : TemperatureModule α)
    (htm : m.net.m_temperatureModule = some tm) (hcold : tm.m_temperature ≤ 1 / 2) :
    ∃ m1, processNeuron env { m with net := { m.net with m_temperatureModule := none } } i =
        .ok (.NO_ERROR, m1) ∧
      processNeuron env m i =
        .ok (.NO_ERROR, { m1 with net := { m1.net with m_temperatureModule := some tm } }) := by
  have hnot : tm.isHot = false := by
    simp only [TemperatureModule.isHot, ZERO_THRESHOLD, decide_eq_false_iff_not, not_lt]
    exact hcold
  obtain ⟨⟨w, v, n, tmo⟩, st, bc, rc, sc, rs⟩ := m
  simp only at htm
  subst htm
  have h0 := processNeuron_cold env ⟨⟨w, v, n, none⟩, st, bc, rc, sc, rs⟩
    (hv.of_same_shape rfl rfl rfl) i hi (by intro tm0 h; cases h)
  have h1 := processNeuron_cold env ⟨⟨w, v, n, some tm⟩, st, bc, rc, sc, rs⟩
    hv i hi (by intro tm0 h; cases h; exact hnot)
  have hpot : (⟨w, v, n, none⟩ : HopfieldNetwork α).specPotential i =
      (⟨w, v, n, some tm⟩ : HopfieldNetwork α).specPotential i := rfl
  refine ⟨_, h0, ?_⟩
  rw [h1]
  simp only [hpot]
  by_cases hp : (⟨w, v, n, some tm⟩ : HopfieldNetwork α).specPotential i = 0
  · simp only [hp, if_true]
  · simp only [hp, if_false, HopfieldNetwork.withValue]

end Cold


/-- The theorem `processNeuron_cold_schedule` on the one-neuron network with weight 3 and
state `false`, with a logarithmic schedule at temperature 1/4. -/
theorem processNeuron_cold_schedule_witness :
    ∃ m1, processNeuron exampleEnv
        { exampleMachine [[3]] [false] (some (TemperatureModule.mkLog (1 / 4))) with
          net := { (exampleMachine [[3]] [false]
              (some (TemperatureModule.mkLog (1 / 4)))).net with
            m_temperatureModule := none } } 0 =
        .ok (.NO_ERROR, m1) ∧
      processNeuron exampleEnv
          (exampleMachine [[3]] [false] (some (TemperatureModule.mkLog (1 / 4)))) 0 =
        .ok (.NO_ERROR, { m1 with
          net := { m1.net with
            m_temperatureModule := some (TemperatureModule.mkLog (1 / 4)) } }) :=
  processNeuron_cold_schedule exampleEnv _ (exampleMachine_valid_one 3 false _) 0
    (by decide) (TemperatureModule.mkLog (1 / 4)) rfl
    (by norm_num [TemperatureModule.mkLog])

/-! ## The probe of the generator width -/

/-- The flag `done` of `randBits` is never set, so its loop raises no error. -/
theorem randBitsLoop_raises_nothing (tempMaxRand : Nat) :
    ∀ fuel bitPos result, (randBitsLoop tempMaxRand fuel bitPos result false).2 = [] := by
  intro fuel
  induction fuel with
  | zero => intro _ _; rfl
  | succ fuel ih =>
      intro bitPos result
      unfold randBitsLoop
      by_cases hb : bitPos = 0
      · simp [hb]
      · by_cases hbit : tempMaxRand &&& bitPos = 0
        · simp only [ne_eq, hb, not_false_eq_true, if_true, hbit, not_true_eq_false, if_false]
          exact ih _ _
        · simp only [ne_eq, hb, not_false_eq_true, if_true, hbit, Bool.false_eq_true,
            if_false]
          exact ih _ _

set_option maxRecDepth 100000 in
/-- C18, failing input. For `RAND_MAX = 5`, whose set bits are not contiguous, `randBits`
returns 2 and raises nothing; in fact it raises nothing for any `RAND_MAX`, because the
flag `done` is never set. For `RAND_MAX = 2^k - 1` with `k ≤ 64` it returns `k`. -/
theorem randBits_never_signals :
    randBits 5 = (2, []) ∧ (∀ randMax, (randBits randMax).2 = []) ∧
      ∀ k : Fin 65, randBits (2 ^ k.val - 1) = (k.val, []) := by
  refine ⟨by decide, fun randMax => randBitsLoop_raises_nothing _ _ _ _, by decide⟩

/-! ## The temperature schedules over time -/

section ExpSchedule

variable {α : Type} [LinearOrderedField α]

/-- An exponential module that was just set to `T0` has, `t` ticks later, the temperature
`T0 * n ^ (t / q)`, the elapsed time `t` and the next cooling at `(t / q + 1) * q`. -/
theorem expModule_after (env : Env α) (n : α) (q : Nat) (hq : 1 ≤ q) (T0 : α)
    (st : LogStatics α) (t : Nat) (ht : t + q < 2 ^ 32) :
    TemperatureModule.coolDownTimes env
        { m_temperature := T0, m_timeElapsed := 0, kind := .expModule n q q } st t =
      .ok ({ m_temperature := T0 * n ^ (t / q), m_timeElapsed := t,
             kind := .expModule n q ((t / q + 1) * q) }, st) := by
  induction t with
  | zero => simp [TemperatureModule.coolDownTimes, pure, Except.pure]
  | succ t ih =>
      have hdiv := Nat.div_add_mod t q
      have hmod := Nat.mod_lt t hq
      have hmul : q * (t / q) ≤ t := Nat.mul_div_le t q
      unfold TemperatureModule.coolDownTimes
      rw [ih (by omega)]
      simp only [bind, Except.bind, TemperatureModule.coolDown, expCoolDown, pure,
        Except.pure]
      have ht1 : (t + 1) % ULONG_WIDTH = t + 1 :=
        Nat.mod_eq_of_lt (by simp only [ULONG_WIDTH]; omega)
      rw [ht1]
      by_cases hdvd : q ∣ t + 1
      · have hsucc : (t + 1) / q = t / q + 1 := by rw [Nat.succ_div, if_pos hdvd]
        have heq : t + 1 = (t / q + 1) * q := by
          rw [← hsucc]
          exact (Nat.div_mul_cancel hdvd).symm
        have hnext : ((t / q + 1) * q + q) % UINT_WIDTH = (t / q + 1 + 1) * q := by
          rw [Nat.mod_eq_of_lt (by simp only [UINT_WIDTH]; omega)]
          ring
        rw [if_pos heq, hnext, hsucc, pow_succ, mul_assoc]
      · have hsucc : (t + 1) / q = t / q := by rw [Nat.succ_div, if_neg hdvd]; rfl
        have hne : ¬ t + 1 = (t / q + 1) * q := fun h => hdvd ⟨t / q + 1, by rw [h]; ring⟩
        rw [if_neg hne, hsucc]

/-- C16. For an exponential module with multiplier `n` and period `q ≥ 1`, whatever its
temperature, elapsed time and next cooling tick were: after `setTemperature(T0)`, or
after construction with `T0`, and `t` calls of `coolDown` with `t + q < 2^32`, the
temperature is `T0 * n ^ (t / q)`. -/
theorem expModule_temperature (env : Env α) (n : α) (q : Nat) (hq : 1 ≤ q) (T0 : α)
    (st : LogStatics α) (t : Nat) (ht : t + q < 2 ^ 32) :
    (∀ tm : TemperatureModule α, (∃ c, tm.kind = .expModule n q c) →
      ∃ tm1, (tm.setTemperature T0).coolDownTimes env st t = .ok (tm1, st) ∧
        tm1.m_temperature = T0 * n ^ (t / q)) ∧
    ∃ tm1, (TemperatureModule.mkExp n q T0).coolDownTimes env st t = .ok (tm1, st) ∧
      tm1.m_temperature = T0 * n ^ (t / q) := by
  constructor
  · rintro tm ⟨c, hk⟩
    have hset : tm.setTemperature T0 =
        { m_temperature := T0, m_timeElapsed := 0, kind := .expModule n q q } := by
      simp [TemperatureModule.setTemperature, hk]
    rw [hset]
    exact ⟨_, expModule_after env n q hq T0 st t ht, rfl⟩
  · exact ⟨_, expModule_after env n q hq T0 st t ht, rfl⟩

end ExpSchedule

/-- The theorem `expModule_temperature` for the multiplier 1/2, the period 3, the initial
temperature 8 and 7 ticks. -/
theorem expModule_temperature_witness :
    (∀ tm : TemperatureModule ℚ, (∃ c, tm.kind = .expModule (1 / 2) 3 c) →
      ∃ tm1, (tm.setTemperature 8).coolDownTimes exampleEnv
          (LogStatics.initial exampleEnv) 7 = .ok (tm1, LogStatics.initial exampleEnv) ∧
        tm1.m_temperature = 8 * (1 / 2) ^ (7 / 3)) ∧
    ∃ tm1, (TemperatureModule.mkExp (1 / 2 : ℚ) 3 8).coolDownTimes exampleEnv
        (LogStatics.initial exampleEnv) 7 = .ok (tm1, LogStatics.initial exampleEnv) ∧
      tm1.m_temperature = 8 * (1 / 2) ^ (7 / 3) :=
  expModule_temperature exampleEnv (1 / 2) 3 (by decide) 8 _ 7 (by norm_num)

/-- The statics of `LogTemperatureModuleOpt::coolDown` as their initialisers leave them,
spelled out. -/
theorem LogStatics.initial_eq {α : Type} [LinearOrderedField α] (env : Env α) :
    LogStatics.initial env =
      { computedLogarithms := [env.log1p 0, env.log1p 1, env.log1p 2],
        computedCount := 2, k := 1 } := by
  simp [LogStatics.initial, initializeComputedLogarithms, COMPUTED_LOGARITHMS_MAX_INDEX,
    List.range_succ]

/-- With the real `log1p`, a fresh `LogTemperatureModule` and a fresh
`LogTemperatureModuleOpt` with the same initial temperature `T0 ≠ 0` differ after four
calls of `coolDown`: the first reports `T0 / ln 5`, the second `T0 / (ln 3 + ln 3)`,
because at the even tick 4 the table entry is built as `table[2] + table[2]`. -/
theorem logOpt_differs_from_log (env : Env ℝ)
    (hlog : ∀ x, env.log1p x = Real.log (1 + x)) (T0 : ℝ) (hT : T0 ≠ 0) :
    ∃ tmA stA tmB stB,
      (TemperatureModule.mkLog T0).coolDownTimes env (LogStatics.initial env) 4 =
        .ok (tmA, stA) ∧
      (TemperatureModule.mkLogOpt T0).coolDownTimes env (LogStatics.initial env) 4 =
        .ok (tmB, stB) ∧
      tmA.m_temperature = T0 / Real.log 5 ∧
      tmB.m_temperature = T0 / (Real.log 3 + Real.log 3) ∧
      tmA.m_temperature ≠ tmB.m_temperature := by
  have h3 : env.log1p 2 = Real.log 3 := by rw [hlog]; norm_num
  have h5 : env.log1p 4 = Real.log 5 := by rw [hlog]; norm_num
  have hA : (TemperatureModule.mkLog T0).coolDownTimes env (LogStatics.initial env) 4 =
      .ok ({ m_temperature := T0 / Real.log 5, m_timeElapsed := 4, kind := .logModule T0 },
        LogStatics.initial env) := by
    simp [TemperatureModule.coolDownTimes, TemperatureModule.coolDown, logCoolDown,
      TemperatureModule.mkLog, ULONG_WIDTH, bind, Except.bind, pure, Except.pure, h5]
  have hB : ∃ stB, (TemperatureModule.mkLogOpt T0).coolDownTimes env
      (LogStatics.initial env) 4 =
      .ok ({ m_temperature := T0 / (Real.log 3 + Real.log 3), m_timeElapsed := 4,
             kind := .logModuleOpt T0 }, stB) := by
    refine ⟨{ computedLogarithms := [env.log1p 0, env.log1p 1, env.log1p 2, env.log1p 3,
        env.log1p 2 + env.log1p 2], computedCount := 2, k := 2 }, ?_⟩
    rw [LogStatics.initial_eq]
    simp [TemperatureModule.coolDownTimes, TemperatureModule.coolDown, logOptCoolDown,
      extendComputedLogarithms, TemperatureModule.mkLogOpt, ULONG_WIDTH, readAt,
      bind, Except.bind, pure, Except.pure, h3]
  obtain ⟨stB, hB⟩ := hB
  refine ⟨_, _, _, _, hA, hB, rfl, rfl, ?_⟩
  show T0 / Real.log 5 ≠ T0 / (Real.log 3 + Real.log 3)
  have h9 : Real.log 3 + Real.log 3 = Real.log 9 := by
    rw [← Real.log_mul (by norm_num) (by norm_num)]
    norm_num
  have hlt : Real.log 5 < Real.log 9 := Real.log_lt_log (by norm_num) (by norm_num)
  have hpos : 0 < Real.log 5 := Real.log_pos (by norm_num)
  rw [h9]
  intro h
  rw [div_eq_div_iff hpos.ne' (by linarith)] at h
  have := mul_left_cancel₀ hT h
  linarith

/-- C15, failing input. With the real `exp` and `log1p` and the initial temperature 30, a
fresh `LogTemperatureModule` and a fresh `LogTemperatureModuleOpt` report different
temperatures after four calls of `coolDown` each: `30 / ln 5` and `30 / (ln 3 + ln 3)`. -/
theorem logOpt_differs_at_tick_four :
    ∃ tmA stA tmB stB,
      (TemperatureModule.mkLog (30 : ℝ)).coolDownTimes
          { exp := Real.exp, log1p := fun x => Real.log (1 + x), RAND_MAX := 32767,
            rand := fun _ => 0, random_shuffle := fun _ l => l }
          (LogStatics.initial
            { exp := Real.exp, log1p := fun x => Real.log (1 + x), RAND_MAX := 32767,
              rand := fun _ => 0, random_shuffle := fun _ l => l }) 4 =
        .ok (tmA, stA) ∧
      (TemperatureModule.mkLogOpt (30 : ℝ)).coolDownTimes
          { exp := Real.exp, log1p := fun x => Real.log (1 + x), RAND_MAX := 32767,
            rand := fun _ => 0, random_shuffle := fun _ l => l }
          (LogStatics.initial
            { exp := Real.exp, log1p := fun x => Real.log (1 + x), RAND_MAX := 32767,
              rand := fun _ => 0, random_shuffle := fun _ l => l }) 4 =
        .ok (tmB, stB) ∧
      tmA.m_temperature = 30 / Real.log 5 ∧
      tmB.m_temperature = 30 / (Real.log 3 + Real.log 3) ∧
      tmA.m_temperature ≠ tmB.m_temperature :=
  logOpt_differs_from_log _ (fun _ => rfl) 30 (by norm_num)

/-! ## The Bernoulli trial -/

section Trial

variable {α : Type} [LinearOrderedField α] [FloorRing α]

/-- `BernoulliTrial` is the draw of `randomNumber` followed by `trialOutcome`. -/
theorem BernoulliTrial_eq (env : Env α) (m : Machine α) (input : α) :
    BernoulliTrial env m input =
      (randomNumber env m).bind fun r =>
        (trialOutcome input r.1).map fun b => (b, r.2) := by
  unfold BernoulliTrial trialOutcome
  cases randomNumber env m with
  | error e => rfl
  | ok r =>
      simp only [bind, Except.bind, Except.map, pure, Except.pure]
      by_cases h1 : input = 1
      · simp only [h1, if_true]
      · simp only [h1, if_false]
        by_cases hgt : input > 1
        · simp only [hgt, if_true]
          cases toULong ((ULONG_MAX : α) / input) <;> rfl
        · simp only [hgt, if_false]
          cases toULong ((ULONG_MAX : α) * input) <;> rfl

/-- For an argument above 1 the trial succeeds exactly on the outputs up to the
threshold `⌊ULONG_MAX / input⌋`. -/
theorem trialSucceeds_of_gt_one (input : α) (hgt : 1 < input) (random : Nat) :
    trialSucceeds input random =
      decide (random ≤ Int.toNat ⌊(ULONG_MAX : α) / input⌋) := by
  have hpos : (0 : α) < input := by linarith
  have hq0 : (0 : α) ≤ (ULONG_MAX : α) / input := div_nonneg (Nat.cast_nonneg _) hpos.le
  have hq1 : (ULONG_MAX : α) / input < (ULONG_WIDTH : α) := by
    rw [div_lt_iff₀ hpos]
    have hc : (ULONG_MAX : α) < (ULONG_WIDTH : α) := by
      exact_mod_cast (show ULONG_MAX < ULONG_WIDTH by decide)
    have hw : (0 : α) ≤ (ULONG_WIDTH : α) := Nat.cast_nonneg _
    nlinarith
  unfold trialSucceeds trialOutcome
  simp only [ne_of_gt hgt, if_false, hgt, if_true, toULong_ok _ hq0 hq1, bind, Except.bind,
    pure, Except.pure, ge_iff_le]
  by_cases h : random ≤ Int.toNat ⌊(ULONG_MAX : α) / input⌋ <;> simp [h]

/-- The number of generator outputs on which the trial succeeds, for an argument above
1. -/
theorem trialSucceeds_card (input : α) (hgt : 1 < input) :
    ((Finset.range ULONG_WIDTH).filter fun r => trialSucceeds input r = true).card =
      Int.toNat ⌊(ULONG_MAX : α) / input⌋ + 1 := by
  have hpos : (0 : α) < input := by linarith
  have hfloor : ⌊(ULONG_MAX : α) / input⌋ < (ULONG_MAX : ℤ) := by
    rw [Int.floor_lt]
    rw [div_lt_iff₀ hpos]
    have h0 : (0 : α) < (ULONG_MAX : α) := by
      exact_mod_cast (show 0 < ULONG_MAX by decide)
    push_cast
    nlinarith
  have hle : Int.toNat ⌊(ULONG_MAX : α) / input⌋ + 1 ≤ ULONG_WIDTH := by
    have : Int.toNat ⌊(ULONG_MAX : α) / input⌋ < ULONG_MAX := by
      rw [Int.toNat_lt' (by decide)]
      exact hfloor
    have hw : ULONG_MAX + 1 = ULONG_WIDTH := by decide
    omega
  have hset : ((Finset.range ULONG_WIDTH).filter fun r => trialSucceeds input r = true) =
      Finset.range (Int.toNat ⌊(ULONG_MAX : α) / input⌋ + 1) := by
    ext r
    simp only [Finset.mem_filter, Finset.mem_range, trialSucceeds_of_gt_one input hgt,
      decide_eq_true_eq]
    omega
  rw [hset, Finset.card_range]

end Trial

section TrialFraction

variable {α : Type} [LinearOrderedField α] [FloorRing α]

/-- In exact arithmetic, with `ULONG_MAX` entering as `2^64 - 1`: `BernoulliTrial(x)` is
the draw of a 64 bit number `r` followed by a test that depends on `x` and `r` only. For
every `x ≥ 1`, the share of the `2^64` values of `r` on which the test succeeds differs
from `1 / x` by less than `2^-63`; and for `x = 1` the test succeeds for every `r`. -/
theorem bernoulli_success_fraction (input : α) (hx : 1 ≤ input) :
    (∀ (env : Env α) (m : Machine α), BernoulliTrial env m input =
      (randomNumber env m).bind fun r =>
        (trialOutcome input r.1).map fun b => (b, r.2)) ∧
    |((((Finset.range ULONG_WIDTH).filter fun r => trialSucceeds input r = true).card : ℕ) : α)
        / (ULONG_WIDTH : α) - 1 / input| < 1 / 2 ^ 63 ∧
    ∀ r, trialOutcome (1 : α) r = .ok true := by
  refine ⟨fun env m => BernoulliTrial_eq env m input, ?_, fun r => by simp [trialOutcome, pure, Except.pure]⟩
  have hW : (ULONG_WIDTH : α) = 2 ^ 64 := by
    have h : ULONG_WIDTH = 2 ^ 64 := rfl
    rw [h]
    norm_num
  have hM : (ULONG_MAX : α) = 2 ^ 64 - 1 := by
    have : (ULONG_MAX : α) + 1 = 2 ^ 64 := by
      have h : ULONG_MAX + 1 = 2 ^ 64 := by decide
      exact_mod_cast h
    linarith
  have h63 : (0 : α) < 1 / 2 ^ 63 := by positivity
  rcases eq_or_lt_of_le hx with h1 | hgt
  · subst h1
    have hall : ((Finset.range ULONG_WIDTH).filter
        fun r => trialSucceeds (1 : α) r = true) = Finset.range ULONG_WIDTH := by
      apply Finset.filter_true_of_mem
      intro r _
      simp [trialSucceeds, trialOutcome, pure, Except.pure]
    rw [hall, Finset.card_range, hW]
    have : ((2 : α) ^ 64 / 2 ^ 64 - 1 / 1) = 0 := by norm_num
    rw [this, abs_zero]
    exact h63
  · have hpos : (0 : α) < input := by linarith
    have hq0 : (0 : α) ≤ (ULONG_MAX : α) / input := div_nonneg (Nat.cast_nonneg _) hpos.le
    have hfl0 : (0 : ℤ) ≤ ⌊(ULONG_MAX : α) / input⌋ := Int.floor_nonneg.mpr hq0
    have hcast : ((Int.toNat ⌊(ULONG_MAX : α) / input⌋ : ℕ) : α) =
        ((⌊(ULONG_MAX : α) / input⌋ : ℤ) : α) := by
      have := Int.toNat_of_nonneg hfl0
      exact_mod_cast congrArg (fun z : ℤ => (z : α)) this
    have hlo : ((⌊(ULONG_MAX : α) / input⌋ : ℤ) : α) ≤ (ULONG_MAX : α) / input :=
      Int.floor_le _
    have hhi : (ULONG_MAX : α) / input < ((⌊(ULONG_MAX : α) / input⌋ : ℤ) : α) + 1 :=
      Int.lt_floor_add_one _
    rw [trialSucceeds_card input hgt, hW]
    push_cast
    rw [hcast]
    set F : α := ((⌊(ULONG_MAX : α) / input⌋ : ℤ) : α) with hF
    have hdiv : (ULONG_MAX : α) / input = 2 ^ 64 / input - 1 / input := by
      rw [hM]; ring
    rw [hdiv] at hlo hhi
    have hinv1 : 1 / input < 1 := by
      rw [div_lt_one hpos]; exact hgt
    have hinv0 : 0 < 1 / input := by positivity
    have hp : (0 : α) < 2 ^ 64 := by positivity
    have hkey : (F + 1) / 2 ^ 64 - 1 / input = (F + 1 - 2 ^ 64 / input) / 2 ^ 64 := by
      have h1 : (2 : α) ^ 64 / input / 2 ^ 64 = 1 / input := by
        rw [div_right_comm, div_self hp.ne']
      rw [sub_div, h1]
    rw [hkey, abs_lt]
    constructor
    · rw [lt_div_iff₀ hp]
      have : -(1 / 2 ^ 63 : α) * 2 ^ 64 = -2 := by norm_num
      rw [this]
      linarith
    · rw [div_lt_iff₀ hp]
      have : (1 / 2 ^ 63 : α) * 2 ^ 64 = 2 := by norm_num
      rw [this]
      linarith

end TrialFraction

/-- The theorem `bernoulli_success_fraction` for the argument 3. -/
theorem bernoulli_success_fraction_witness :
    (∀ (env : Env ℚ) (m : Machine ℚ), BernoulliTrial env m 3 =
      (randomNumber env m).bind fun r =>
        (trialOutcome (3 : ℚ) r.1).map fun b => (b, r.2)) ∧
    |((((Finset.range ULONG_WIDTH).filter
          fun r => trialSucceeds (3 : ℚ) r = true).card : ℕ) : ℚ)
        / (ULONG_WIDTH : ℚ) - 1 / 3| < 1 / 2 ^ 63 ∧
    ∀ r, trialOutcome (1 : ℚ) r = .ok true :=
  bernoulli_success_fraction 3 (by norm_num)

/-! ## The traversal by permutations: the all-zero matrix -/

section Loops

/-- A loop whose condition holds throughout and whose body either returns or goes on with
a smaller measure returns within as many rounds as the measure allows. -/
theorem whileLoop_measure {σ : Type} (cond : σ → Bool)
    (body : σ → Except Abort (LoopStep σ)) (μ : σ → Nat) (Inv : σ → Prop)
    (Post : Bool → σ → Prop)
    (hcond : ∀ s, Inv s → cond s = true)
    (hbody : ∀ s, Inv s →
      (∃ s1, body s = .ok (.next s1) ∧ Inv s1 ∧ μ s1 < μ s) ∨
      (∃ b s1, body s = .ok (.ret b s1) ∧ Post b s1)) :
    ∀ fuel s, Inv s → μ s < fuel →
      ∃ b s1, whileLoop cond body fuel s = .returned b s1 ∧ Post b s1 := by
  intro fuel
  induction fuel with
  | zero => intro s _ h; omega
  | succ fuel ih =>
      intro s hinv hfuel
      unfold whileLoop
      rw [if_pos (hcond s hinv)]
      rcases hbody s hinv with ⟨s1, hb, hinv1, hlt⟩ | ⟨b, s1, hb, hpost⟩
      · rw [hb]
        exact ih s1 hinv1 (by omega)
      · rw [hb]
        exact ⟨b, s1, rfl, hpost⟩

/-- What holds at every test of the loop condition and is handed on by the body holds of
the state with which the loop returns. -/
theorem whileLoop_invariant {σ : Type} (cond : σ → Bool)
    (body : σ → Except Abort (LoopStep σ)) (Inv : σ → Prop) (Post : Bool → σ → Prop)
    (hexit : ∀ s, Inv s → cond s = false → Post false s)
    (hnext : ∀ s s1, Inv s → cond s = true → body s = .ok (.next s1) → Inv s1)
    (hret : ∀ s b s1, Inv s → cond s = true → body s = .ok (.ret b s1) → Post b s1) :
    ∀ fuel s b s1, Inv s → whileLoop cond body fuel s = .returned b s1 → Post b s1 := by
  intro fuel
  induction fuel with
  | zero => intro s b s1 _ h; simp [whileLoop] at h
  | succ fuel ih =>
      intro s b s1 hinv h
      unfold whileLoop at h
      by_cases hc : cond s = true
      · rw [if_pos hc] at h
        cases hb : body s with
        | error e => simp [hb] at h
        | ok step =>
            cases step with
            | next s2 =>
                simp only [hb] at h
                exact ih s2 b s1 (hnext s s2 hinv hc hb) h
            | ret b2 s2 =>
                simp only [hb, Run.returned.injEq] at h
                obtain ⟨hb2, hs2⟩ := h
                subst hb2 hs2
                exact hret s _ _ hinv hc hb
      · rw [if_neg hc] at h
        simp only [Run.returned.injEq] at h
        obtain ⟨hb, hs⟩ := h
        subst hb hs
        exact hexit s hinv (by simpa using hc)

end Loops

section Stable

variable {α : Type} [LinearOrderedField α] [FloorRing α]

/-- A visit of a neuron that `processNeuron` leaves alone reports no change and changes
only the counters of the model. -/
theorem Frame.visit_of_stable (env : Env α) (f : Frame α) (e : Nat) (hv : f.m.net.Valid)
    (he : e < f.m.net.m_neuronCount)
    (hst : processNeuron env f.m e = .ok (.NO_ERROR, f.m)) :
    f.visit env e = .ok (some false, { f with
      updates := f.updates + 1
      trace := (e, some false) :: f.trace }) := by
  unfold Frame.visit
  simp [hv.readValue he, hst, bind, Except.bind, pure, Except.pure]

end Stable

section ZeroWeights

variable {α : Type} [LinearOrderedField α] [FloorRing α]

omit [FloorRing α] in
theorem matrixEntry_zero (n i j : Nat) :
    matrixEntry (List.replicate n (List.replicate n (0 : α))) i j = 0 := by
  unfold matrixEntry
  by_cases hi : i < n
  · by_cases hj : j < n <;> simp [List.getElem?_replicate, hi, hj]
  · simp [List.getElem?_replicate, hi]

omit [FloorRing α] in
/-- A network with the all-zero matrix and a state of the right length is valid, and all
its potentials are zero. -/
theorem zeroWeights_valid (net : HopfieldNetwork α) (n : Nat)
    (hw : net.m_neuronWeights = List.replicate n (List.replicate n 0))
    (hlen : net.m_neuronValues.length = n) (hc : net.m_neuronCount = n) :
    net.Valid ∧ ∀ i, net.specPotential i = 0 := by
  refine ⟨⟨by rw [hlen, hc], by rw [hw, hc, List.length_replicate], ?_, ?_⟩, ?_⟩
  · intro row hrow
    rw [hw] at hrow
    rw [(List.mem_replicate.mp hrow).2, List.length_replicate, hc]
  · intro i j _ _
    simp [HopfieldNetwork.weight, hw, matrixEntry_zero]
  · intro i
    simp [HopfieldNetwork.specPotential, HopfieldNetwork.weight, hw, matrixEntry_zero]

/-- One round of `computeRandomSeq` on the all-zero matrix with a zero budget. -/
theorem permBody_zeroWeights (env : Env α) (net : HopfieldNetwork α) (n : Nat)
    (hw : net.m_neuronWeights = List.replicate n (List.replicate n 0))
    (hlen : net.m_neuronValues.length = n) (hc : net.m_neuronCount = n)
    (hn : n + 1 < ULONG_WIDTH) (s : PermState α)
    (hinv : s.frame.m.net = net ∧ s.frame.maxSteps = some 0 ∧
      s.frame.currentSteps = s.elementIndex ∧ s.frame.updates = s.elementIndex ∧
      s.changed = false ∧ s.elementIndex ≤ n ∧ s.permutation.length = n ∧
      ∀ e ∈ s.permutation, e < n) :
    (∃ s1, permBody env s = .ok (.next s1) ∧
        (s1.frame.m.net = net ∧ s1.frame.maxSteps = some 0 ∧
          s1.frame.currentSteps = s1.elementIndex ∧ s1.frame.updates = s1.elementIndex ∧
          s1.changed = false ∧ s1.elementIndex ≤ n ∧ s1.permutation.length = n ∧
          ∀ e ∈ s1.permutation, e < n) ∧
        n - s1.elementIndex < n - s.elementIndex) ∨
      (∃ b s1, permBody env s = .ok (.ret b s1) ∧
        (b = true ∧ s1.frame.m.net = net ∧ s1.frame.maxSteps = some (n + 1) ∧
          s1.frame.updates = n)) := by
  obtain ⟨hnet, hms, hcs, hup, hch, hei, hplen, hmem⟩ := hinv
  have hvalid := zeroWeights_valid net n hw hlen hc
  unfold permBody
  by_cases hend : s.elementIndex = n
  · have hstep : (s.frame.currentSteps + 1) % ULONG_WIDTH = n + 1 := by
      rw [hcs, hend]
      exact Nat.mod_eq_of_lt hn
    simp only [hnet, hc, hend, if_true, hch, Bool.not_false, pure, Except.pure,
      Frame.writeBack, hms, hstep]
    exact Or.inr ⟨true, _, rfl, rfl, hnet, rfl, by show s.frame.updates = n; rw [hup, hend]⟩
  · have hlt : s.elementIndex < n := lt_of_le_of_ne hei hend
    have hei' : s.elementIndex < s.permutation.length := hplen ▸ hlt
    have hel : (s.permutation[s.elementIndex]?).getD 0 < n := by
      apply hmem
      rw [List.getElem?_eq_getElem hei']
      exact List.getElem_mem _
    have hst : processNeuron env s.frame.m ((s.permutation[s.elementIndex]?).getD 0) =
        .ok (.NO_ERROR, s.frame.m) := by
      apply processNeuron_of_zero_potential
      · rw [hnet, hc]; exact hel
      · rw [hnet, calculatePotential_ok net hvalid.1 _ (hc ▸ hel), hvalid.2]
    have hvisit := Frame.visit_of_stable env
      { s.frame with currentSteps := (s.frame.currentSteps + 1) % ULONG_WIDTH }
      ((s.permutation[s.elementIndex]?).getD 0) (hnet ▸ hvalid.1)
      (by show _ < s.frame.m.net.m_neuronCount; rw [hnet, hc]; exact hel) hst
    have hidx : (s.elementIndex + 1) % ULONG_WIDTH = s.elementIndex + 1 :=
      Nat.mod_eq_of_lt (by omega)
    have hstep : (s.frame.currentSteps + 1) % ULONG_WIDTH = s.elementIndex + 1 := by
      rw [hcs]; exact hidx
    simp only [hnet, hc, hend, if_false, permVisit, readAt_of_lt _ _ 0 hei', hvisit, bind,
      Except.bind, pure, Except.pure]
    refine Or.inl ⟨_, rfl, ⟨hnet, hms, ?_, ?_, ?_, ?_, hplen, hmem⟩, ?_⟩
    · show (s.frame.currentSteps + 1) % ULONG_WIDTH = (s.elementIndex + 1) % ULONG_WIDTH
      rw [hstep, hidx]
    · show s.frame.updates + 1 = (s.elementIndex + 1) % ULONG_WIDTH
      rw [hidx, hup]
    · show (if (some false : Option Bool) = some true then true else s.changed) = false
      simp [hch]
    · show (s.elementIndex + 1) % ULONG_WIDTH ≤ n
      omega
    · show n - (s.elementIndex + 1) % ULONG_WIDTH < n - s.elementIndex
      omega

/-- On the all-zero `n`×`n` matrix, with any state of length `n`, any schedule and any
permutation from the shuffle, `computeRandomSeq` with a zero budget returns true after
`n` calls of `processNeuron`, leaves the network as it was, and writes back `n + 1`. -/
theorem computeRandomSeq_zeroWeights (env : Env α) (m : Machine α) (n : Nat)
    (hw : m.net.m_neuronWeights = List.replicate n (List.replicate n 0))
    (hlen : m.net.m_neuronValues.length = n) (hc : m.net.m_neuronCount = n)
    (hn : n + 1 < ULONG_WIDTH)
    (hperm : (env.random_shuffle m.shuffleCalls (List.range n)).Perm (List.range n))
    (fuel : Nat) (hfuel : n < fuel) :
    ∃ s, computeRandomSeq env m (some 0) fuel = .returned true s ∧
      s.frame.m.net = m.net ∧ s.frame.maxSteps = some (n + 1) ∧ s.frame.updates = n := by
  unfold computeRandomSeq
  obtain ⟨b, s, hrun, hb, hpost⟩ := whileLoop_measure (fun s => s.frame.budgetOpen)
    (permBody env) (fun s => n - s.elementIndex)
    (fun s => s.frame.m.net = m.net ∧ s.frame.maxSteps = some 0 ∧
      s.frame.currentSteps = s.elementIndex ∧ s.frame.updates = s.elementIndex ∧
      s.changed = false ∧ s.elementIndex ≤ n ∧ s.permutation.length = n ∧
      ∀ e ∈ s.permutation, e < n)
    (fun b s => b = true ∧ s.frame.m.net = m.net ∧ s.frame.maxSteps = some (n + 1) ∧
      s.frame.updates = n)
    (fun s hinv => by simp [Frame.budgetOpen, hinv.2.1])
    (permBody_zeroWeights env m.net n hw hlen hc hn) fuel
    { frame := { m := (createRandomPermutation env m m.net.m_neuronCount).2,
                 maxSteps := some 0, currentSteps := 0, updates := 0, trace := [] },
      changed := false, elementIndex := 0,
      permutation := (createRandomPermutation env m m.net.m_neuronCount).1 }
    ⟨rfl, rfl, rfl, rfl, rfl, Nat.zero_le _,
      by show (env.random_shuffle m.shuffleCalls (List.range m.net.m_neuronCount)).length = n
         rw [hc, hperm.length_eq, List.length_range],
      fun e he => by
        have he' : e ∈ env.random_shuffle m.shuffleCalls (List.range m.net.m_neuronCount) := he
        rw [hc] at he'
        exact List.mem_range.mp (hperm.mem_iff.mp he')⟩
    (by show n - 0 < fuel; omega)
  subst hb
  exact ⟨s, hrun, hpost⟩

end ZeroWeights

/-- C11, failing input. On the all-zero 2×2 matrix with state `[true,false]`,
`computeRandomSeq` with a zero budget returns true after 2 calls of `processNeuron` and
leaves the network as it was, but the step count it writes back is 3: the round that
finds the epoch complete is counted as well. -/
theorem computeRandomSeq_writes_one_more :
    ∃ s, computeRandomSeq exampleEnv (exampleMachine [[0, 0], [0, 0]] [true, false] none)
        (some 0) 3 = .returned true s ∧
      s.frame.m.net = (exampleMachine [[0, 0], [0, 0]] [true, false] none).net ∧
      s.frame.maxSteps = some 3 ∧ s.frame.updates = 2 :=
  computeRandomSeq_zeroWeights exampleEnv
    (exampleMachine [[0, 0], [0, 0]] [true, false] none) 2 rfl rfl rfl (by decide)
    (List.reverse_perm _) 3 (by decide)

/-! ## The traversal by permutations: equilibrium after an epoch without change -/

section Epoch

/-- Writing back the element that is already there leaves the list as it is. -/
theorem list_set_same {β : Type} (l : List β) (i : Nat) (d : β) (h : i < l.length) :
    l.set i ((l[i]?).getD d) = l := by
  induction l generalizing i with
  | nil => simp at h
  | cons a l ih =>
      cases i with
      | zero => simp
      | succ i =>
          simp only [List.length_cons, Nat.add_lt_add_iff_right] at h
          simpa using ih i h

variable {α : Type} [LinearOrderedField α] [FloorRing α]

/-- For `i >= count`, `processNeuron` leaves the machine as it is. -/
theorem processNeuron_of_count_le (env : Env α) (m : Machine α) (i : Nat)
    (hi : m.net.m_neuronCount ≤ i) : processNeuron env m i = .ok (.OUT_OF_BOUNDS, m) := by
  simp [processNeuron, Nat.not_lt.mpr hi, pure, Except.pure]

/-- A visit on a valid network without schedule: it succeeds, keeps the network valid,
without schedule and of the same size, and when it reports no change the machine is what
it was and the neuron is stable. -/
theorem Frame.visit_cold (env : Env α) (f : Frame α) (e : Nat) (hv : f.m.net.Valid)
    (hnone : f.m.net.m_temperatureModule = none) (he : e < f.m.net.m_neuronCount) :
    ∃ c m1, f.visit env e = .ok (some c, { f with
        m := m1
        updates := f.updates + 1
        trace := (e, some c) :: f.trace }) ∧
      m1.net.Valid ∧ m1.net.m_temperatureModule = none ∧
      m1.net.m_neuronCount = f.m.net.m_neuronCount ∧
      (c = false → m1 = f.m ∧ processNeuron env f.m e = .ok (.NO_ERROR, f.m)) := by
  have he' : e < f.m.net.m_neuronValues.length := hv.values_length ▸ he
  have hpn := processNeuron_cold env f.m hv e he (by simp [hnone])
  by_cases hp : f.m.net.specPotential e = 0
  · simp only [hp, if_true] at hpn
    refine ⟨false, f.m, ?_, hv, hnone, rfl, fun _ => ⟨rfl, hpn⟩⟩
    unfold Frame.visit
    simp [hv.readValue he, hpn, bind, Except.bind, pure, Except.pure]
  · simp only [hp, if_false] at hpn
    have hv1 : (f.m.net.withValue e (decide (f.m.net.specPotential e ≥ 0))).Valid :=
      hv.of_same_shape rfl rfl (by simp [HopfieldNetwork.withValue])
    have hval1 : (f.m.net.withValue e (decide (f.m.net.specPotential e ≥ 0))).value e =
        decide (f.m.net.specPotential e ≥ 0) := withValue_value_self _ _ _ he'
    have hread1 : readAt (f.m.net.withValue e
        (decide (f.m.net.specPotential e ≥ 0))).m_neuronValues e =
        .ok (decide (f.m.net.specPotential e ≥ 0)) := by
      rw [hv1.readValue (show e < _ from he), hval1]
    refine ⟨decide (f.m.net.value e ≠ decide (f.m.net.specPotential e ≥ 0)),
      { f.m with net := f.m.net.withValue e (decide (f.m.net.specPotential e ≥ 0)) },
      ?_, hv1, hnone, rfl, ?_⟩
    · unfold Frame.visit
      simp only [hv.readValue he, hpn, hread1, bind, Except.bind, pure, Except.pure, ne_eq,
        not_true_eq_false, if_false]
    · intro hc
      have hsame : f.m.net.value e = decide (f.m.net.specPotential e ≥ 0) := by
        simpa using hc
      have hnet : f.m.net.withValue e (decide (f.m.net.specPotential e ≥ 0)) = f.m.net := by
        rw [← hsame]
        unfold HopfieldNetwork.withValue HopfieldNetwork.value
        rw [list_set_same _ _ _ he']
      rw [hnet] at hpn ⊢
      exact ⟨rfl, hpn⟩

end Epoch

section Epoch2

variable {α : Type} [LinearOrderedField α] [FloorRing α]

omit [LinearOrderedField α] [FloorRing α] in
theorem Frame.writeBack_m (f : Frame α) : f.writeBack.m = f.m := by
  unfold Frame.writeBack
  split <;> rfl

omit [LinearOrderedField α] [FloorRing α] in
theorem Frame.writeBack_trace (f : Frame α) : f.writeBack.trace = f.trace := by
  unfold Frame.writeBack
  split <;> rfl

/-- The visit of the next neuron of the order hands the invariant on. -/
theorem permVisit_epoch (env : Env α) (n : Nat) (hn : n < ULONG_WIDTH) (s s1 : PermState α)
    (hinv : s.Epoch env n) (hlt : s.elementIndex < n)
    (hbody : permVisit env s = .ok (.next s1)) : s1.Epoch env n := by
  obtain ⟨hv, hnone, hc, _, hperm, hpre⟩ := hinv
  have hplen : s.permutation.length = n := by rw [hperm.length_eq, List.length_range]
  have hei : s.elementIndex < s.permutation.length := hplen ▸ hlt
  have hel : (s.permutation[s.elementIndex]?).getD 0 < s.frame.m.net.m_neuronCount := by
    rw [hc]
    apply List.mem_range.mp
    apply hperm.mem_iff.mp
    rw [List.getElem?_eq_getElem hei]
    exact List.getElem_mem _
  obtain ⟨c, m1, hvisit, hv1, hnone1, hc1, hstable⟩ :=
    Frame.visit_cold env s.frame _ hv hnone hel
  have hidx : (s.elementIndex + 1) % ULONG_WIDTH = s.elementIndex + 1 :=
    Nat.mod_eq_of_lt (by omega)
  simp only [permVisit, readAt_of_lt _ _ 0 hei, hvisit, bind, Except.bind, pure, Except.pure,
    Except.ok.injEq, LoopStep.next.injEq, hidx] at hbody
  subst hbody
  refine ⟨hv1, hnone1, hc1.trans hc, by show s.elementIndex + 1 ≤ n; omega, hperm, ?_⟩
  intro hch
  have hch' : (if some c = some true then true else s.changed) = false := hch
  have hcf : c = false := by
    cases c with
    | false => rfl
    | true => simp at hch'
  subst hcf
  have hsch : s.changed = false := by simpa using hch'
  obtain ⟨htr, hst⟩ := hpre hsch
  obtain ⟨hm1, hpn⟩ := hstable rfl
  subst hm1
  have htake : s.permutation.take (s.elementIndex + 1) =
      s.permutation.take s.elementIndex ++ [(s.permutation[s.elementIndex]?).getD 0] := by
    rw [List.take_succ, List.getElem?_eq_getElem hei]
    rfl
  constructor
  · show (((s.permutation[s.elementIndex]?).getD 0, some false) :: s.frame.trace).take
        (s.elementIndex + 1) = _
    rw [htake, List.take_succ_cons, htr]
    simp
  · intro e he
    show processNeuron env s.frame.m e = .ok (.NO_ERROR, s.frame.m)
    have he' : e ∈ s.permutation.take (s.elementIndex + 1) := he
    rw [htake, List.mem_append] at he'
    rcases he' with h | h
    · exact hst e h
    · rw [List.mem_singleton.mp h]
      exact hpn

/-- A round of `computeRandomSeq` that goes on hands the invariant on. -/
theorem permBody_epoch (env : Env α) (n : Nat) (hn : n < ULONG_WIDTH)
    (hshuffle : ∀ k, (env.random_shuffle k (List.range n)).Perm (List.range n))
    (s s1 : PermState α) (hinv : s.Epoch env n)
    (hbody : permBody env s = .ok (.next s1)) : s1.Epoch env n := by
  have hinv0 := hinv
  obtain ⟨hv, hnone, hc, hle, hperm, hpre⟩ := hinv0
  unfold permBody at hbody
  by_cases hend : s.elementIndex = n
  · simp only [hc, hend, if_true] at hbody
    by_cases hch : s.changed = true
    · simp only [hch, Bool.not_true, Bool.false_eq_true, if_false] at hbody
      by_cases hn0 : n = 0
      · subst hn0
        have hnil : env.random_shuffle s.frame.m.shuffleCalls [] = [] :=
          List.length_eq_zero.mp (by
            have h := (hshuffle s.frame.m.shuffleCalls).length_eq
            simpa using h)
        simp [permVisit, createRandomPermutation, hnil, readAt, bind, Except.bind] at hbody
      · refine permVisit_epoch env n hn _ s1 ?_ ?_ hbody
        · exact ⟨hv, hnone, hc, Nat.zero_le _, hshuffle _,
            fun _ => ⟨rfl, fun e he => by simp at he⟩⟩
        · exact Nat.pos_of_ne_zero hn0
    · have hch' : s.changed = false := by simpa using hch
      simp [hch', pure, Except.pure] at hbody
  · simp only [hc, hend, if_false] at hbody
    refine permVisit_epoch env n hn _ s1 ?_ ?_ hbody
    · exact ⟨hv, hnone, hc, hle, hperm, hpre⟩
    · exact lt_of_le_of_ne hle hend

/-- A round of `computeRandomSeq` that returns does so with true, after a whole epoch
without change. -/
theorem permBody_epoch_ret (env : Env α) (n : Nat) (s s1 : PermState α) (b : Bool)
    (hinv : s.Epoch env n) (hbody : permBody env s = .ok (.ret b s1)) :
    (∃ p : List Nat, p.Perm (List.range n) ∧
        s1.frame.trace.take n = (p.map fun e => (e, some false)).reverse) ∧
      ∀ i, ∃ e, processNeuron env s1.frame.m i = .ok (e, s1.frame.m) := by
  obtain ⟨hv, hnone, hc, hle, hperm, hpre⟩ := hinv
  have hplen : s.permutation.length = n := by rw [hperm.length_eq, List.length_range]
  unfold permBody at hbody
  by_cases hend : s.elementIndex = n
  · by_cases hch : s.changed = true
    · simp [hc, hend, hch, permVisit, bind, Except.bind, pure, Except.pure] at hbody
      revert hbody
      split
      · simp
      · split <;> simp
    · have hch' : s.changed = false := by simpa using hch
      simp only [hc, hend, if_true, hch', Bool.not_false, pure, Except.pure, Except.ok.injEq,
        LoopStep.ret.injEq] at hbody
      obtain ⟨_, hs1⟩ := hbody
      subst hs1
      obtain ⟨htr, hst⟩ := hpre hch'
      rw [hend, ← hplen, List.take_length] at htr hst
      refine ⟨⟨s.permutation, hperm, ?_⟩, ?_⟩
      · show (Frame.writeBack _).trace.take n = _
        rw [Frame.writeBack_trace, ← hplen]
        exact htr
      · intro i
        show ∃ e, processNeuron env (Frame.writeBack _).m i = .ok (e, (Frame.writeBack _).m)
        rw [Frame.writeBack_m]
        by_cases hi : i < n
        · exact ⟨_, hst i (hperm.mem_iff.mpr (List.mem_range.mpr hi))⟩
        · exact ⟨_, processNeuron_of_count_le env s.frame.m i (by rw [hc]; omega)⟩
  · simp [hc, hend, permVisit, bind, Except.bind, pure, Except.pure] at hbody
    revert hbody
    split
    · simp
    · split <;> simp

end Epoch2

section EpochClaim

variable {α : Type} [LinearOrderedField α] [FloorRing α]

/-- C12. On a valid network without schedule, when every order that the shuffle produces
is a permutation of `0..n-1`: if `computeRandomSeq` returns true, the last `n` calls of
`processNeuron` visited the neurons of one permutation, each once and none with a change
of value, and `processNeuron` leaves the final machine as it is for every index. -/
theorem computeRandomSeq_true_is_fixed_point (env : Env α) (m : Machine α)
    (hv : m.net.Valid) (hnone : m.net.m_temperatureModule = none)
    (hn : m.net.m_neuronCount < ULONG_WIDTH)
    (hshuffle : ∀ k, (env.random_shuffle k (List.range m.net.m_neuronCount)).Perm
      (List.range m.net.m_neuronCount))
    (maxSteps : Option Nat) (fuel : Nat) (s : PermState α)
    (hrun : computeRandomSeq env m maxSteps fuel = .returned true s) :
    (∃ p : List Nat, p.Perm (List.range m.net.m_neuronCount) ∧
        s.frame.trace.take m.net.m_neuronCount =
          (p.map fun e => (e, some false)).reverse) ∧
      ∀ i, ∃ e, processNeuron env s.frame.m i = .ok (e, s.frame.m) := by
  unfold computeRandomSeq at hrun
  refine whileLoop_invariant (fun s => s.frame.budgetOpen) (permBody env)
    (PermState.Epoch env m.net.m_neuronCount)
    (fun b s1 => b = true →
      (∃ p : List Nat, p.Perm (List.range m.net.m_neuronCount) ∧
        s1.frame.trace.take m.net.m_neuronCount =
          (p.map fun e => (e, some false)).reverse) ∧
      ∀ i, ∃ e, processNeuron env s1.frame.m i = .ok (e, s1.frame.m))
    (fun _ _ _ h => by simp at h)
    (fun s0 s1 hinv _ hb => permBody_epoch env _ hn hshuffle s0 s1 hinv hb)
    (fun s0 b s1 hinv _ hb _ => permBody_epoch_ret env _ s0 s1 b hinv hb)
    fuel _ true s ?_ hrun rfl
  exact ⟨hv, hnone, rfl, Nat.zero_le _, hshuffle _,
    fun _ => ⟨rfl, fun e he => by simp at he⟩⟩

end EpochClaim

set_option maxRecDepth 100000 in
set_option maxHeartbeats 4000000 in
/-- The two-neuron network with weights `[[1,0],[0,1]]` and state `[false,false]`: the
first epoch switches both neurons on, the second changes nothing, and the run returns
true in the fifth round; the last two visits are those of the order `[1,0]`, and the
final machine is a fixed point. -/
theorem computeRandomSeq_true_is_fixed_point_witness :
    computeRandomSeq exampleEnv (exampleMachine [[1, 0], [0, 1]] [false, false] none) none 5 =
        .returned true
          { frame := { m := { exampleMachine [[1, 0], [0, 1]] [true, true] none with
                              shuffleCalls := 2 },
                       maxSteps := none, currentSteps := 5, updates := 4,
                       trace := [(0, some false), (1, some false), (0, some true),
                                 (1, some true)] },
            changed := false, elementIndex := 2, permutation := [1, 0] } ∧
      (∃ p : List Nat, p.Perm (List.range 2) ∧
        [(0, some false), (1, some false)] = (p.map fun e => (e, some false)).reverse) ∧
      ∀ i, ∃ e, processNeuron exampleEnv
          { exampleMachine [[1, 0], [0, 1]] [true, true] none with shuffleCalls := 2 } i =
        .ok (e, { exampleMachine [[1, 0], [0, 1]] [true, true] none with
                  shuffleCalls := 2 }) := by
  have hrun : computeRandomSeq exampleEnv
      (exampleMachine [[1, 0], [0, 1]] [false, false] none) none 5 =
        .returned true
          { frame := { m := { exampleMachine [[1, 0], [0, 1]] [true, true] none with
                              shuffleCalls := 2 },
                       maxSteps := none, currentSteps := 5, updates := 4,
                       trace := [(0, some false), (1, some false), (0, some true),
                                 (1, some true)] },
            changed := false, elementIndex := 2, permutation := [1, 0] } := by
    norm_num [computeRandomSeq, whileLoop, Frame.budgetOpen, permBody, permVisit,
      createRandomPermutation, Frame.visit, Frame.writeBack, processNeuron,
      calculatePotential, calculatePotentialLoop, exampleMachine, exampleEnv, readWeight,
      readAt, writeAt, setNeuronValue, List.range, List.range.loop, bind, Except.bind, pure,
      Except.pure, ULONG_WIDTH]
  exact ⟨hrun, computeRandomSeq_true_is_fixed_point exampleEnv
    (exampleMachine [[1, 0], [0, 1]] [false, false] none)
    (exampleMachine_valid_two 1 0 1 false false none) rfl (by decide)
    (fun _ => List.reverse_perm _) none 5 _ hrun⟩

/-! ## The random traversal: the countdown -/

section Countdown

variable {α : Type} [LinearOrderedField α] [FloorRing α]

/-- A visit that returns records the neuron and its outcome, counts one update and leaves
the budget cell and the step counter alone. -/
theorem Frame.visit_record (env : Env α) (f f1 : Frame α) (neuron : Nat) (c : Option Bool)
    (h : f.visit env neuron = .ok (c, f1)) :
    f1.trace = (neuron, c) :: f.trace ∧ f1.maxSteps = f.maxSteps ∧
      f1.currentSteps = f.currentSteps ∧ f1.updates = f.updates + 1 := by
  unfold Frame.visit at h
  cases hread : readAt f.m.net.m_neuronValues neuron with
  | error e => simp [hread, bind, Except.bind] at h
  | ok prior =>
      cases hpn : processNeuron env f.m neuron with
      | error e => simp [hread, hpn, bind, Except.bind] at h
      | ok r =>
          simp only [hread, hpn, bind, Except.bind] at h
          by_cases herr : r.1 = .NO_ERROR
          · simp only [herr, ne_eq, not_true_eq_false, if_false] at h
            cases hread1 : readAt r.2.net.m_neuronValues neuron with
            | error e => simp [hread1] at h
            | ok new =>
                simp only [hread1, pure, Except.pure, Except.ok.injEq, Prod.mk.injEq] at h
                obtain ⟨hc, hf⟩ := h
                subst hc hf
                exact ⟨rfl, rfl, rfl, rfl⟩
          · simp only [herr, ne_eq, not_false_eq_true, if_true] at h
            cases hraise : raiseError r.2.raised r.1 with
            | error e => simp [hraise] at h
            | ok raised =>
                simp only [hraise, pure, Except.pure, Except.ok.injEq, Prod.mk.injEq] at h
                obtain ⟨hc, hf⟩ := h
                subst hc hf
                exact ⟨rfl, rfl, rfl, rfl⟩

end Countdown

set_option maxRecDepth 100000 in
set_option maxHeartbeats 8000000 in
/-- C13, failing input. On the valid two-neuron network with weights `[[-1,2],[2,1]]`, state
`[false,false]` and no schedule, let the generator yield neuron 0 five times and neuron 1
from then on. After 6 steps (the sixth changes neuron 1 while the streak is 5 > 4) both
flags of `neuronsToCheck` are `false`, the value that marks a neuron as checked, so the
scan counts 0 neurons left. With a zero budget the call returns true after 14 steps; the
record shows that since the change only neuron 1 was visited, and `processNeuron(0)` on
the final state turns `state[0]` to true. -/
theorem computeRandomly_unsampled_equilibrium :
    (exampleMachine [[-1, 2], [2, 1]] [false, false] none).net.Valid ∧
    (∃ s, computeRandomly (exampleEnvWith fun k => if k < 5 then 0 else 1)
        (exampleMachine [[-1, 2], [2, 1]] [false, false] none) (some 6) 7 =
        .returned false s ∧
      s.frame.trace = (1, some true) :: List.replicate 5 (0, some false) ∧
      s.neuronsToCheck = [false, false] ∧
      countToCheck s.neuronsToCheck (List.range 2) 0 = .ok 0) ∧
    computeRandomly (exampleEnvWith fun k => if k < 5 then 0 else 1)
        (exampleMachine [[-1, 2], [2, 1]] [false, false] none) (some 0) 15 =
      .returned true
        { frame := { m := { exampleMachine [[-1, 2], [2, 1]] [false, true] none with
                            randCalls := 14 },
                     maxSteps := some 14, currentSteps := 14, updates := 14,
                     trace := List.replicate 8 (1, some false) ++
                       ((1, some true) :: List.replicate 5 (0, some false)) },
          CHECK_THRESHOLD := 4, unchangedCount := 8, neuronsToCheck := [false, false],
          nextCheck := 0, checkSteps := 0 } ∧
    processNeuron (exampleEnvWith fun k => if k < 5 then 0 else 1)
        { exampleMachine [[-1, 2], [2, 1]] [false, true] none with randCalls := 14 } 0 =
      .ok (.NO_ERROR,
        { exampleMachine [[-1, 2], [2, 1]] [true, true] none with randCalls := 14 }) := by
  refine ⟨exampleMachine_valid_two (-1) 2 1 false false none, ?_, ?_, ?_⟩
  · refine ⟨{ frame := { m := { exampleMachine [[-1, 2], [2, 1]] [false, true] none with
                                randCalls := 6 },
                         maxSteps := some 6, currentSteps := 6, updates := 6,
                         trace := (1, some true) :: List.replicate 5 (0, some false) },
              CHECK_THRESHOLD := 4, unchangedCount := 0, neuronsToCheck := [false, false],
              nextCheck := 4, checkSteps := 0 }, ?_, rfl, rfl, ?_⟩
    · norm_num [computeRandomly, whileLoop, Frame.budgetOpen, randBody, Frame.visit,
        Frame.writeBack, processNeuron, calculatePotential, calculatePotentialLoop,
        exampleMachine, exampleEnvWith, exampleEnv, readWeight, readAt, writeAt,
        countToCheck, setNeuronValue, List.range, List.range.loop, bind, Except.bind, pure,
        Except.pure, ULONG_WIDTH, List.replicate]
    · simp [countToCheck, readAt, List.range, List.range.loop, bind, Except.bind, pure,
        Except.pure]
  · norm_num [computeRandomly, whileLoop, Frame.budgetOpen, randBody, Frame.visit,
      Frame.writeBack, processNeuron, calculatePotential, calculatePotentialLoop,
      exampleMachine, exampleEnvWith, exampleEnv, readWeight, readAt, writeAt,
      countToCheck, setNeuronValue, List.range, List.range.loop, bind, Except.bind, pure,
      Except.pure, ULONG_WIDTH, List.replicate]
  · norm_num [processNeuron, calculatePotential, calculatePotentialLoop, exampleMachine,
      setNeuronValue, writeAt, readWeight, readAt, List.range, List.range.loop, bind,
      Except.bind, pure, Except.pure]

/-! ## The invariant of the data model and the constructor -/

/-- C19, failing input. When the loop variable of the row-size check of `isInconsistent`
starts at 2, the constructor called with the 2×3 matrix `[[0,0,5],[0,0,7]]`, the state
`[true,true]` and the count 2 installs them: the network has rows of 3 entries for a
count of 2, so it does not satisfy the invariant of the data model. -/
theorem construct_ragged_breaks_invariant :
    ∃ m : Machine ℚ,
      HopfieldNetwork.construct 2 (exampleMachine [] [] none) [[0, 0, 5], [0, 0, 7]]
        [true, true] 2 = .ok m ∧
      m.net.m_neuronWeights = [[0, 0, 5], [0, 0, 7]] ∧ m.net.m_neuronCount = 2 ∧
      ¬ m.net.Valid := by
  refine ⟨exampleMachine [[0, 0, 5], [0, 0, 7]] [true, true] none, ?_, rfl, rfl, ?_⟩
  · simp [HopfieldNetwork.construct, HopfieldNetwork.empty, updateNetwork, isInconsistent,
      rowSizeLoop, symmetryOuter, symmetryInner, readWeight, readAt, exampleMachine,
      List.range, List.range.loop, List.range', bind, Except.bind, pure, Except.pure]
  · intro hv
    have h := hv.row_length [0, 0, 5] (by simp [exampleMachine])
    simp [exampleMachine] at h

/-! ## The cached logarithmic schedule and its history -/

/-- With the real `log1p` and `T0 ≠ 0`: a `LogTemperatureModuleOpt` that is constructed
with `T0` while the statics of `coolDown` are fresh reports `T0 / ln 6` after five calls
of `coolDown`; after four earlier calls by an instance, both that instance after
`setTemperature(T0)` and a newly constructed one report `T0 / ln 4` after five calls,
because every tick above 2 appends to the table again and tick 5 then reads the entry
that the second tick 3 appended. -/
theorem logOpt_depends_on_history (env : Env ℝ)
    (hlog : ∀ x, env.log1p x = Real.log (1 + x)) (T0 : ℝ) (hT : T0 ≠ 0) :
    ∃ tm0 stH tmF stF tmH stH1,
      (TemperatureModule.mkLogOpt T0).coolDownTimes env (LogStatics.initial env) 4 =
        .ok (tm0, stH) ∧
      (TemperatureModule.mkLogOpt T0).coolDownTimes env (LogStatics.initial env) 5 =
        .ok (tmF, stF) ∧
      (tm0.setTemperature T0).coolDownTimes env stH 5 = .ok (tmH, stH1) ∧
      (TemperatureModule.mkLogOpt T0).coolDownTimes env stH 5 = .ok (tmH, stH1) ∧
      tmF.m_temperature = T0 / Real.log 6 ∧
      tmH.m_temperature = T0 / Real.log 4 ∧
      tmF.m_temperature ≠ tmH.m_temperature := by
  have h4 : env.log1p 3 = Real.log 4 := by rw [hlog]; norm_num
  have h6 : env.log1p 5 = Real.log 6 := by rw [hlog]; norm_num
  have hH : (TemperatureModule.mkLogOpt T0).coolDownTimes env (LogStatics.initial env) 4 =
      .ok ({ m_temperature := T0 / (env.log1p 2 + env.log1p 2), m_timeElapsed := 4,
             kind := .logModuleOpt T0 },
        { computedLogarithms := [env.log1p 0, env.log1p 1, env.log1p 2, env.log1p 3,
            env.log1p 2 + env.log1p 2], computedCount := 2, k := 2 }) := by
    rw [LogStatics.initial_eq]
    simp [TemperatureModule.coolDownTimes, TemperatureModule.coolDown, logOptCoolDown,
      extendComputedLogarithms, TemperatureModule.mkLogOpt, ULONG_WIDTH, readAt,
      bind, Except.bind, pure, Except.pure]
  have hF : (TemperatureModule.mkLogOpt T0).coolDownTimes env (LogStatics.initial env) 5 =
      .ok ({ m_temperature := T0 / Real.log 6, m_timeElapsed := 5,
             kind := .logModuleOpt T0 },
        { computedLogarithms := [env.log1p 0, env.log1p 1, env.log1p 2, env.log1p 3,
            env.log1p 2 + env.log1p 2, env.log1p 5], computedCount := 2, k := 2 }) := by
    rw [LogStatics.initial_eq]
    simp [TemperatureModule.coolDownTimes, TemperatureModule.coolDown, logOptCoolDown,
      extendComputedLogarithms, TemperatureModule.mkLogOpt, ULONG_WIDTH, readAt,
      bind, Except.bind, pure, Except.pure, h6]
  have hN : (TemperatureModule.mkLogOpt T0).coolDownTimes env
      { computedLogarithms := [env.log1p 0, env.log1p 1, env.log1p 2, env.log1p 3,
          env.log1p 2 + env.log1p 2], computedCount := 2, k := 2 } 5 =
      .ok ({ m_temperature := T0 / Real.log 4, m_timeElapsed := 5,
             kind := .logModuleOpt T0 },
        { computedLogarithms := [env.log1p 0, env.log1p 1, env.log1p 2, env.log1p 3,
            env.log1p 2 + env.log1p 2, env.log1p 3, env.log1p 3 + env.log1p 2,
            env.log1p 5], computedCount := 2, k := 3 }) := by
    simp [TemperatureModule.coolDownTimes, TemperatureModule.coolDown, logOptCoolDown,
      extendComputedLogarithms, TemperatureModule.mkLogOpt, ULONG_WIDTH, readAt,
      bind, Except.bind, pure, Except.pure, h4]
  refine ⟨_, _, _, _, _, _, hH, hF, ?_, hN, rfl, rfl, ?_⟩
  · exact hN
  · show T0 / Real.log 6 ≠ T0 / Real.log 4
    have hlt : Real.log 4 < Real.log 6 := Real.log_lt_log (by norm_num) (by norm_num)
    have hpos : 0 < Real.log 4 := Real.log_pos (by norm_num)
    intro h
    rw [div_eq_div_iff (by linarith) hpos.ne'] at h
    have := mul_left_cancel₀ hT h
    linarith

/-- C25, failing input. With the real `exp` and `log1p` and `T0 = 30`: constructed while
the statics of `coolDown` are fresh, a `LogTemperatureModuleOpt` reports `30 / ln 6` after
five calls of `coolDown`; after four earlier calls by an instance, that instance after
`setTemperature(30)`, and likewise a newly constructed instance, reports `30 / ln 4`
after five calls. -/
theorem logOpt_history_changes_temperature :
    ∃ tm0 stH tmF stF tmH stH1,
      (TemperatureModule.mkLogOpt (30 : ℝ)).coolDownTimes
          { exp := Real.exp, log1p := fun x => Real.log (1 + x), RAND_MAX := 32767,
            rand := fun _ => 0, random_shuffle := fun _ l => l }
          (LogStatics.initial
            { exp := Real.exp, log1p := fun x => Real.log (1 + x), RAND_MAX := 32767,
              rand := fun _ => 0, random_shuffle := fun _ l => l }) 4 =
        .ok (tm0, stH) ∧
      (TemperatureModule.mkLogOpt (30 : ℝ)).coolDownTimes
          { exp := Real.exp, log1p := fun x => Real.log (1 + x), RAND_MAX := 32767,
            rand := fun _ => 0, random_shuffle := fun _ l => l }
          (LogStatics.initial
            { exp := Real.exp, log1p := fun x => Real.log (1 + x), RAND_MAX := 32767,
              rand := fun _ => 0, random_shuffle := fun _ l => l }) 5 =
        .ok (tmF, stF) ∧
      (tm0.setTemperature 30).coolDownTimes
          { exp := Real.exp, log1p := fun x => Real.log (1 + x), RAND_MAX := 32767,
            rand := fun _ => 0, random_shuffle := fun _ l => l } stH 5 =
        .ok (tmH, stH1) ∧
      (TemperatureModule.mkLogOpt (30 : ℝ)).coolDownTimes
          { exp := Real.exp, log1p := fun x => Real.log (1 + x), RAND_MAX := 32767,
            rand := fun _ => 0, random_shuffle := fun _ l => l } stH 5 =
        .ok (tmH, stH1) ∧
      tmF.m_temperature = 30 / Real.log 6 ∧
      tmH.m_temperature = 30 / Real.log 4 ∧
      tmF.m_temperature ≠ tmH.m_temperature :=
  logOpt_depends_on_history _ (fun _ => rfl) 30 (by norm_num)

/-! ## The traversals on the empty network -/

/-- C28, failing input. The default constructor yields the empty network, which satisfies
the invariant of the data model. On it `computeSequentially` reads `m_neuronValues[0]` of
an empty vector in its first round, and `computeRandomly`, also with a schedule uploaded
as `main` does, takes `rand() % 0` in its first round; `computeRandomSeq` returns true at
once. -/
theorem traversals_on_empty_network :
    (∀ i0, HopfieldNetwork.construct i0 (exampleMachine [] [] none) [] [] 0 =
      .ok (exampleMachine [] [] none)) ∧
    (exampleMachine [] [] none).net.Valid ∧
    (∀ (maxSteps : Option Nat) (fuel : Nat),
      computeSequentially exampleEnv (exampleMachine [] [] none) maxSteps (fuel + 1) =
        .aborted .outOfRange) ∧
    (∀ (maxSteps : Option Nat) (fuel : Nat), computeRandomly exampleEnv
      (uploadTemperatureModule (exampleMachine [] [] none) (some (TemperatureModule.mkLog 30)))
      maxSteps (fuel + 1) = .aborted .remainderByZero) ∧
    (∀ (maxSteps : Option Nat) (fuel : Nat),
      computeRandomly exampleEnv (exampleMachine [] [] none) maxSteps (fuel + 1) =
        .aborted .remainderByZero) ∧
    ∃ s, computeRandomSeq exampleEnv (exampleMachine [] [] none) none 1 =
      .returned true s := by
  refine ⟨?_, ⟨rfl, rfl, ?_, ?_⟩, ?_, ?_, ?_, ?_⟩
  · intro i0
    simp [HopfieldNetwork.construct, HopfieldNetwork.empty, updateNetwork, isInconsistent,
      rowSizeLoop, symmetryOuter, exampleMachine, bind, Except.bind, pure, Except.pure]
  · intro row hrow
    simp [exampleMachine] at hrow
  · intro i j hi
    simp [exampleMachine] at hi
  · intro maxSteps fuel
    rcases maxSteps with _ | M <;>
      simp [computeSequentially, whileLoop, Frame.budgetOpen, seqBody, Frame.visit, readAt,
        exampleMachine, bind, Except.bind]
  · intro maxSteps fuel
    rcases maxSteps with _ | M <;>
      simp [computeRandomly, whileLoop, Frame.budgetOpen, randBody, exampleMachine,
        uploadTemperatureModule, bind, Except.bind]
  · intro maxSteps fuel
    rcases maxSteps with _ | M <;>
      simp [computeRandomly, whileLoop, Frame.budgetOpen, randBody, exampleMachine, bind,
        Except.bind]
  · simp [computeRandomSeq, whileLoop, Frame.budgetOpen, permBody, createRandomPermutation,
      exampleMachine, exampleEnv, pure, Except.pure]

/-! ## The energy -/

section EnergyLoops

variable {α : Type} [LinearOrderedField α]

/-- The inner loop of `printEnergy` subtracts one summand for each `j ≠ i`. -/
theorem printEnergyInner_eq (net : HopfieldNetwork α) (hv : net.Valid) (i : Nat)
    (hi : i < net.m_neuronCount) (l : List Nat) (hl : ∀ j ∈ l, j < net.m_neuronCount)
    (E : α) :
    printEnergyInner net i l E =
      .ok (E - (l.map fun j =>
        if j ≠ i then 1 / 2 * (net.weight i j * net.bit i * net.bit j) else 0).sum) := by
  induction l generalizing E with
  | nil => simp [printEnergyInner, pure, Except.pure]
  | cons j js ih =>
      have hj : j < net.m_neuronCount := hl j (List.mem_cons_self _ _)
      have hjs : ∀ x ∈ js, x < net.m_neuronCount := fun x hx => hl x (List.mem_cons_of_mem _ hx)
      unfold printEnergyInner
      by_cases hij : i = j
      · subst hij
        simp only [ne_eq, not_true_eq_false, if_false, ih hjs, List.map_cons, List.sum_cons,
          zero_add]
      · have hji : j ≠ i := fun h => hij h.symm
        simp only [ne_eq, hij, not_false_eq_true, if_true, hv.readWeight hi hj,
          hv.readValue hi, hv.readValue hj, bind, Except.bind, ih hjs, List.map_cons,
          List.sum_cons, hji]
        congr 1
        unfold HopfieldNetwork.bit
        ring

/-- The outer loop of `printEnergy`. -/
theorem printEnergyOuter_eq (net : HopfieldNetwork α) (hv : net.Valid) (l : List Nat)
    (hl : ∀ i ∈ l, i < net.m_neuronCount) (E : α) :
    printEnergyOuter net l E =
      .ok (E - (l.map fun i =>
        (∑ j in Finset.range net.m_neuronCount,
          if j ≠ i then 1 / 2 * (net.weight i j * net.bit i * net.bit j) else 0) +
        net.weight i i * net.bit i).sum) := by
  induction l generalizing E with
  | nil => simp [printEnergyOuter, pure, Except.pure]
  | cons i is ih =>
      have hi : i < net.m_neuronCount := hl i (List.mem_cons_self _ _)
      have his : ∀ x ∈ is, x < net.m_neuronCount := fun x hx => hl x (List.mem_cons_of_mem _ hx)
      unfold printEnergyOuter
      simp only [printEnergyInner_eq net hv i hi _ (fun j hj => List.mem_range.mp hj),
        hv.readWeight hi hi, hv.readValue hi, bind, Except.bind, ih his, List.map_cons,
        List.sum_cons, list_range_map_sum]
      congr 1
      unfold HopfieldNetwork.bit
      ring

/-- On a valid network `printEnergy` writes the energy of the specification. -/
theorem printEnergy_ok (net : HopfieldNetwork α) (hv : net.Valid) :
    printEnergy net = .ok net.specEnergy := by
  unfold printEnergy
  rw [printEnergyOuter_eq net hv _ (fun i hi => List.mem_range.mp hi), list_range_map_sum]
  congr 1
  unfold HopfieldNetwork.specEnergy
  rw [Finset.sum_add_distrib, zero_sub, neg_add, sub_eq_add_neg, Finset.mul_sum]
  congr 1
  rw [← Finset.sum_neg_distrib]
  apply Finset.sum_congr rfl
  intro i _
  rw [Finset.sum_filter, Finset.mul_sum, ← Finset.sum_neg_distrib]
  apply Finset.sum_congr rfl
  intro j _
  by_cases hji : j = i
  · simp [hji]
  · simp only [ne_eq, hji, not_false_eq_true, if_true]
    ring

/-- The sum of a list over `range' i k` as a finite sum over the interval. -/
theorem list_range'_map_sum (f : Nat → α) (i k : Nat) :
    ((List.range' i k).map f).sum = ∑ j in Finset.Ico i (i + k), f j := by
  induction k generalizing i with
  | zero => simp
  | succ k ih =>
      have hk : i + 1 + k = i + (k + 1) := by omega
      rw [List.range'_succ, List.map_cons, List.sum_cons, ih (i + 1), hk,
        Finset.sum_eq_sum_Ico_succ_bot (by omega : i < i + (k + 1))]

/-- The inner loop of `printEnergy2` subtracts one summand for each `j`. -/
theorem printEnergy2Inner_eq (net : HopfieldNetwork α) (hv : net.Valid) (i : Nat)
    (hi : i < net.m_neuronCount) (l : List Nat) (hl : ∀ j ∈ l, j < net.m_neuronCount)
    (E : α) :
    printEnergy2Inner net i l E =
      .ok (E - (l.map fun j => net.weight i j * net.bit i * net.bit j).sum) := by
  induction l generalizing E with
  | nil => simp [printEnergy2Inner, pure, Except.pure]
  | cons j js ih =>
      have hj : j < net.m_neuronCount := hl j (List.mem_cons_self _ _)
      have hjs : ∀ x ∈ js, x < net.m_neuronCount := fun x hx => hl x (List.mem_cons_of_mem _ hx)
      unfold printEnergy2Inner
      simp only [hv.readWeight hi hj, hv.readValue hi, hv.readValue hj, bind, Except.bind,
        ih hjs, List.map_cons, List.sum_cons]
      congr 1
      unfold HopfieldNetwork.bit
      ring

/-- The outer loop of `printEnergy2`. -/
theorem printEnergy2Outer_eq (net : HopfieldNetwork α) (hv : net.Valid) (l : List Nat)
    (hl : ∀ i ∈ l, i < net.m_neuronCount) (E : α) :
    printEnergy2Outer net l E =
      .ok (E - (l.map fun i =>
        ∑ j in Finset.Ico i net.m_neuronCount,
          net.weight i j * net.bit i * net.bit j).sum) := by
  induction l generalizing E with
  | nil => simp [printEnergy2Outer, pure, Except.pure]
  | cons i is ih =>
      have hi : i < net.m_neuronCount := hl i (List.mem_cons_self _ _)
      have his : ∀ x ∈ is, x < net.m_neuronCount := fun x hx => hl x (List.mem_cons_of_mem _ hx)
      have hmem : ∀ j ∈ List.range' i (net.m_neuronCount - i), j < net.m_neuronCount := by
        intro j hj
        have := List.mem_range'_1.mp hj
        omega
      unfold printEnergy2Outer
      simp only [printEnergy2Inner_eq net hv i hi _ hmem, bind, Except.bind, ih his,
        List.map_cons, List.sum_cons, list_range'_map_sum]
      have hin : i + (net.m_neuronCount - i) = net.m_neuronCount := by omega
      rw [hin]
      congr 1
      ring

/-- On a valid network `printEnergy2` writes minus the sum over the pairs `i ≤ j`. -/
theorem printEnergy2_ok (net : HopfieldNetwork α) (hv : net.Valid) :
    printEnergy2 net = .ok net.specEnergy2 := by
  unfold printEnergy2
  rw [printEnergy2Outer_eq net hv _ (fun i hi => List.mem_range.mp hi), list_range_map_sum,
    zero_sub]
  congr 2
  apply Finset.sum_congr rfl
  intro i hi
  apply Finset.sum_congr _ (fun _ _ => rfl)
  ext j
  simp only [Finset.mem_Ico, Finset.mem_filter, Finset.mem_range]
  tauto

end EnergyLoops

section EnergyAlgebra

variable {α : Type} [LinearOrderedField α]

/-- The algebra behind the energy argument: for a symmetric `w`, raising `x i` by `δ`
lowers the energy by `δ` times the potential of `i`. -/
theorem energy_shift (n i : Nat) (hi : i < n) (w : Nat → Nat → α)
    (hw : ∀ a b, a < n → b < n → w a b = w b a) (x : Nat → α) (δ : α) :
    -(1 / 2) * (∑ a in Finset.range n, ∑ b in (Finset.range n).filter (fun b => b ≠ a),
        w a b * (x a + if a = i then δ else 0) * (x b + if b = i then δ else 0)) -
      ∑ a in Finset.range n, w a a * (x a + if a = i then δ else 0) =
    (-(1 / 2) * (∑ a in Finset.range n, ∑ b in (Finset.range n).filter (fun b => b ≠ a),
        w a b * x a * x b) -
      ∑ a in Finset.range n, w a a * x a) -
    δ * (w i i + ∑ b in (Finset.range n).filter (fun b => b ≠ i), w i b * x b) := by
  have hmem : i ∈ Finset.range n := Finset.mem_range.mpr hi
  have h1 : ∑ a in Finset.range n, w a a * (x a + if a = i then δ else 0) =
      ∑ a in Finset.range n, w a a * x a + δ * w i i := by
    have : ∀ a ∈ Finset.range n, w a a * (x a + if a = i then δ else 0) =
        w a a * x a + if a = i then δ * w a a else 0 := by
      intro a _
      by_cases h : a = i <;> simp [h, mul_add, mul_comm]
    rw [Finset.sum_congr rfl this, Finset.sum_add_distrib, Finset.sum_ite_eq' _ i, if_pos hmem]
  have h2 : ∑ a in Finset.range n, ∑ b in (Finset.range n).filter (fun b => b ≠ a),
        w a b * (x a + if a = i then δ else 0) * (x b + if b = i then δ else 0) =
      ∑ a in Finset.range n, ∑ b in (Finset.range n).filter (fun b => b ≠ a),
        w a b * x a * x b +
      2 * (δ * ∑ b in (Finset.range n).filter (fun b => b ≠ i), w i b * x b) := by
    simp only [Finset.sum_filter]
    have hterm : ∀ a ∈ Finset.range n, ∀ b ∈ Finset.range n,
        (if b ≠ a then w a b * (x a + if a = i then δ else 0) * (x b + if b = i then δ else 0)
          else 0) =
        (if b ≠ a then w a b * x a * x b else 0) +
          ((if a = i then δ * (if b ≠ i then w i b * x b else 0) else 0) +
           (if b = i then δ * (if a ≠ i then w a i * x a else 0) else 0)) := by
      intro a _ b _
      by_cases hba : b = a
      · subst hba
        by_cases hbi : b = i <;> simp [hbi]
      · by_cases hai : a = i
        · subst hai
          simp [hba]
          ring
        · by_cases hbi : b = i
          · subst hbi
            simp [hba, hai]
            ring
          · simp [hba, hai, hbi]
    rw [Finset.sum_congr rfl fun a ha => Finset.sum_congr rfl fun b hb => hterm a ha b hb]
    simp only [Finset.sum_add_distrib]
    have hg : ∑ a in Finset.range n, ∑ b in Finset.range n,
        (if a = i then δ * (if b ≠ i then w i b * x b else 0) else 0) =
        δ * ∑ b in Finset.range n, if b ≠ i then w i b * x b else 0 := by
      rw [Finset.sum_comm]
      simp only [Finset.sum_ite_eq' _ i, if_pos hmem, Finset.mul_sum]
    have hh : ∑ a in Finset.range n, ∑ b in Finset.range n,
        (if b = i then δ * (if a ≠ i then w a i * x a else 0) else 0) =
        δ * ∑ b in Finset.range n, if b ≠ i then w i b * x b else 0 := by
      simp only [Finset.sum_ite_eq' _ i, if_pos hmem, Finset.mul_sum]
      apply Finset.sum_congr rfl
      intro a ha
      rw [hw a i (Finset.mem_range.mp ha) hi]
    rw [hg, hh]
    ring
  rw [h1, h2]
  ring

end EnergyAlgebra

section EnergyFacts

variable {α : Type} [LinearOrderedField α]

theorem HopfieldNetwork.bit_sq (net : HopfieldNetwork α) (i : Nat) :
    net.bit i * net.bit i = net.bit i := by
  unfold HopfieldNetwork.bit
  split <;> simp

/-- On a valid network the two ways of writing the energy agree. -/
theorem specEnergy_eq_specEnergy2 (net : HopfieldNetwork α) (hv : net.Valid) :
    net.specEnergy = net.specEnergy2 := by
  unfold HopfieldNetwork.specEnergy HopfieldNetwork.specEnergy2
  simp only [Finset.sum_filter]
  have hsplit : ∀ i ∈ Finset.range net.m_neuronCount,
      ∑ j in Finset.range net.m_neuronCount,
        (if j ≠ i then net.weight i j * net.bit i * net.bit j else 0) =
      ∑ j in Finset.range net.m_neuronCount,
        (if j < i then net.weight i j * net.bit i * net.bit j else 0) +
      ∑ j in Finset.range net.m_neuronCount,
        (if i < j then net.weight i j * net.bit i * net.bit j else 0) := by
    intro i _
    rw [← Finset.sum_add_distrib]
    apply Finset.sum_congr rfl
    intro j _
    rcases lt_trichotomy j i with h | h | h
    · simp [h, h.ne, h.le, not_lt.mpr h.le]
    · simp [h]
    · simp [h, h.ne', not_lt.mpr h.le]
  have hle : ∀ i ∈ Finset.range net.m_neuronCount,
      ∑ j in Finset.range net.m_neuronCount,
        (if i ≤ j then net.weight i j * net.bit i * net.bit j else 0) =
      net.weight i i * net.bit i +
      ∑ j in Finset.range net.m_neuronCount,
        (if i < j then net.weight i j * net.bit i * net.bit j else 0) := by
    intro i hi
    have : ∀ j ∈ Finset.range net.m_neuronCount,
        (if i ≤ j then net.weight i j * net.bit i * net.bit j else 0) =
        (if j = i then net.weight i i * net.bit i else 0) +
        (if i < j then net.weight i j * net.bit i * net.bit j else 0) := by
      intro j _
      rcases lt_trichotomy j i with h | h | h
      · simp [h.ne, not_le.mpr h, not_lt.mpr h.le]
      · subst h
        simp [mul_assoc, HopfieldNetwork.bit_sq]
      · simp [h, h.ne', h.le]
    rw [Finset.sum_congr rfl this, Finset.sum_add_distrib, Finset.sum_ite_eq' _ i, if_pos hi]
  have hswap : ∑ i in Finset.range net.m_neuronCount, ∑ j in Finset.range net.m_neuronCount,
        (if j < i then net.weight i j * net.bit i * net.bit j else 0) =
      ∑ i in Finset.range net.m_neuronCount, ∑ j in Finset.range net.m_neuronCount,
        (if i < j then net.weight i j * net.bit i * net.bit j else 0) := by
    rw [Finset.sum_comm]
    apply Finset.sum_congr rfl
    intro i hi
    apply Finset.sum_congr rfl
    intro j hj
    rw [hv.symmetric j i (Finset.mem_range.mp hj) (Finset.mem_range.mp hi)]
    split <;> ring
  rw [Finset.sum_congr rfl hsplit, Finset.sum_congr rfl hle, Finset.sum_add_distrib,
    Finset.sum_add_distrib, hswap]
  ring

theorem bit_withValue (net : HopfieldNetwork α) (i : Nat) (b : Bool)
    (hi : i < net.m_neuronValues.length) (a : Nat) :
    (net.withValue i b).bit a =
      net.bit a + if a = i then (if b then 1 else 0) - net.bit i else 0 := by
  unfold HopfieldNetwork.bit
  by_cases h : a = i
  · subst h
    rw [withValue_value_self net a b hi]
    simp
  · rw [withValue_value_other net i a b (fun e => h e.symm)]
    simp [h]

/-- Setting `state[i]` to `b` changes the energy of a valid network by minus the change
of the state, read as 0 or 1, times the potential of `i`. -/
theorem specEnergy_withValue (net : HopfieldNetwork α) (hv : net.Valid) (i : Nat)
    (hi : i < net.m_neuronCount) (b : Bool) :
    (net.withValue i b).specEnergy =
      net.specEnergy - ((if b then 1 else 0) - net.bit i) * net.specPotential i := by
  have hi' : i < net.m_neuronValues.length := hv.values_length ▸ hi
  have h := energy_shift net.m_neuronCount i hi net.weight hv.symmetric net.bit
    ((if b then 1 else 0) - net.bit i)
  unfold HopfieldNetwork.specEnergy HopfieldNetwork.specPotential
  simp only [bit_withValue net i b hi']
  exact h

end EnergyFacts

section EnergyClaims

variable {α : Type} [LinearOrderedField α] [FloorRing α]

omit [FloorRing α] in
/-- C27. On every valid network `printEnergy` and `printEnergy2` both return, and with
the same value: half the double sum over `i ≠ j` plus the diagonal terms, which is the
sum over the pairs `i ≤ j`. -/
theorem printEnergy_eq_printEnergy2 (net : HopfieldNetwork α) (hv : net.Valid) :
    printEnergy net = .ok net.specEnergy ∧ printEnergy2 net = .ok net.specEnergy2 ∧
      printEnergy net = printEnergy2 net := by
  refine ⟨printEnergy_ok net hv, printEnergy2_ok net hv, ?_⟩
  rw [printEnergy_ok net hv, printEnergy2_ok net hv, specEnergy_eq_specEnergy2 net hv]

/-- C23. On a valid network without schedule and for `i < count`, `processNeuron(i)`
returns `NO_ERROR`, `printEnergy` returns before and after the call, the energy after the
call is not above the energy before, and it is strictly below when `state[i]` has
changed. -/
theorem processNeuron_energy (env : Env α) (m : Machine α) (hv : m.net.Valid)
    (hnone : m.net.m_temperatureModule = none) (i : Nat) (hi : i < m.net.m_neuronCount) :
    ∃ m1 E0 E1, processNeuron env m i = .ok (.NO_ERROR, m1) ∧
      printEnergy m.net = .ok E0 ∧ printEnergy m1.net = .ok E1 ∧
      E0 = m.net.specEnergy ∧ E1 ≤ E0 ∧ (m1.net.value i ≠ m.net.value i → E1 < E0) := by
  have hi' : i < m.net.m_neuronValues.length := hv.values_length ▸ hi
  have hpn := processNeuron_cold env m hv i hi (by simp [hnone])
  by_cases hp : m.net.specPotential i = 0
  · simp only [hp, if_true] at hpn
    exact ⟨m, _, _, hpn, printEnergy_ok _ hv, printEnergy_ok _ hv, rfl, le_refl _,
      fun h => absurd rfl h⟩
  · simp only [hp, if_false] at hpn
    have hv1 : (m.net.withValue i (decide (m.net.specPotential i ≥ 0))).Valid :=
      hv.of_same_shape rfl rfl (by simp [HopfieldNetwork.withValue])
    refine ⟨_, _, _, hpn, printEnergy_ok _ hv, printEnergy_ok _ hv1, rfl, ?_, ?_⟩
    · show (m.net.withValue i (decide (m.net.specPotential i ≥ 0))).specEnergy ≤ _
      rw [specEnergy_withValue m.net hv i hi]
      rcases lt_or_gt_of_ne hp with hneg | hpos
      · have hb : decide (m.net.specPotential i ≥ 0) = false := by simpa using hneg
        rw [hb]
        have h01 : 0 ≤ m.net.bit i := by unfold HopfieldNetwork.bit; split <;> norm_num
        simp only [Bool.false_eq_true, if_false, zero_sub]
        nlinarith [mul_nonneg h01 (neg_nonneg.mpr hneg.le)]
      · have hb : decide (m.net.specPotential i ≥ 0) = true := by simpa using hpos.le
        rw [hb]
        have h01 : m.net.bit i ≤ 1 := by unfold HopfieldNetwork.bit; split <;> norm_num
        simp only [if_true]
        nlinarith [mul_nonneg (sub_nonneg.mpr h01) hpos.le]
    · intro hch
      show (m.net.withValue i (decide (m.net.specPotential i ≥ 0))).specEnergy < _
      have hch' : decide (m.net.specPotential i ≥ 0) ≠ m.net.value i := by
        have h := withValue_value_self m.net i (decide (m.net.specPotential i ≥ 0)) hi'
        intro hcon
        exact hch (h.trans hcon)
      rw [specEnergy_withValue m.net hv i hi]
      rcases lt_or_gt_of_ne hp with hneg | hpos
      · have hb : decide (m.net.specPotential i ≥ 0) = false := by simpa using hneg
        rw [hb] at hch' ⊢
        have hval : m.net.value i = true := by
          cases h : m.net.value i
          · exact absurd h.symm hch'
          · rfl
        have hbit : m.net.bit i = 1 := by simp [HopfieldNetwork.bit, hval]
        simp only [Bool.false_eq_true, if_false, zero_sub, hbit]
        linarith
      · have hb : decide (m.net.specPotential i ≥ 0) = true := by simpa using hpos.le
        rw [hb] at hch' ⊢
        have hval : m.net.value i = false := by
          cases h : m.net.value i
          · rfl
          · exact absurd h.symm hch'
        have hbit : m.net.bit i = 0 := by simp [HopfieldNetwork.bit, hval]
        simp only [if_true, hbit]
        linarith

end EnergyClaims

/-- The theorem `printEnergy_eq_printEnergy2` on the two-neuron network with weights
`[[1,-2],[-2,1]]` and state `[true,true]`: both routines return 0. -/
theorem printEnergy_eq_printEnergy2_witness :
    printEnergy (exampleMachine [[1, -2], [-2, 1]] [true, true] none).net =
        .ok (exampleMachine [[1, -2], [-2, 1]] [true, true] none).net.specEnergy ∧
      printEnergy2 (exampleMachine [[1, -2], [-2, 1]] [true, true] none).net =
        .ok (exampleMachine [[1, -2], [-2, 1]] [true, true] none).net.specEnergy2 ∧
      printEnergy (exampleMachine [[1, -2], [-2, 1]] [true, true] none).net =
        printEnergy2 (exampleMachine [[1, -2], [-2, 1]] [true, true] none).net :=
  printEnergy_eq_printEnergy2 _ (exampleMachine_valid_two 1 (-2) 1 true true none)

/-- The theorem `processNeuron_energy` on the two-neuron network with weights
`[[1,-2],[-2,1]]` and state `[true,true]`, for neuron 0, whose potential is -1. -/
theorem processNeuron_energy_witness :
    ∃ m1 E0 E1,
      processNeuron exampleEnv (exampleMachine [[1, -2], [-2, 1]] [true, true] none) 0 =
        .ok (.NO_ERROR, m1) ∧
      printEnergy (exampleMachine [[1, -2], [-2, 1]] [true, true] none).net = .ok E0 ∧
      printEnergy m1.net = .ok E1 ∧
      E0 = (exampleMachine [[1, -2], [-2, 1]] [true, true] none).net.specEnergy ∧ E1 ≤ E0 ∧
      (m1.net.value 0 ≠
        (exampleMachine [[1, -2], [-2, 1]] [true, true] none).net.value 0 → E1 < E0) :=
  processNeuron_energy exampleEnv _ (exampleMachine_valid_two 1 (-2) 1 true true none) rfl 0
    (by decide)

/-- The energies in the example: 0 before the update of neuron 0 and -1 after it. -/
theorem printEnergy_example :
    printEnergy (exampleMachine [[1, -2], [-2, 1]] [true, true] none).net = .ok 0 ∧
      printEnergy2 (exampleMachine [[1, -2], [-2, 1]] [true, true] none).net = .ok 0 ∧
      processNeuron exampleEnv (exampleMachine [[1, -2], [-2, 1]] [true, true] none) 0 =
        .ok (.NO_ERROR, exampleMachine [[1, -2], [-2, 1]] [false, true] none) ∧
      printEnergy (exampleMachine [[1, -2], [-2, 1]] [false, true] none).net = .ok (-1) := by
  refine ⟨?_, ?_, ?_, ?_⟩
  · norm_num [printEnergy, printEnergyOuter, printEnergyInner, exampleMachine, readWeight,
      readAt, List.range, List.range.loop, bind, Except.bind, pure, Except.pure]
  · norm_num [printEnergy2, printEnergy2Outer, printEnergy2Inner, exampleMachine, readWeight,
      readAt, List.range, List.range.loop, List.range', bind, Except.bind, pure, Except.pure]
  · norm_num [processNeuron, calculatePotential, calculatePotentialLoop, exampleMachine,
      setNeuronValue, writeAt, readWeight, readAt, List.range, List.range.loop, bind,
      Except.bind, pure, Except.pure]
  · norm_num [printEnergy, printEnergyOuter, printEnergyInner, exampleMachine, readWeight,
      readAt, List.range, List.range.loop, bind, Except.bind, pure, Except.pure]

/-! ## Termination of the sequential traversal -/

section Rank

variable {α : Type} [LinearOrderedField α]

/-- The energy depends on the state only through the values of the neurons below the
count. -/
theorem specEnergy_congr (net net1 : HopfieldNetwork α)
    (hw : net1.m_neuronWeights = net.m_neuronWeights)
    (hc : net1.m_neuronCount = net.m_neuronCount)
    (hval : ∀ j, j < net.m_neuronCount → net1.value j = net.value j) :
    net1.specEnergy = net.specEnergy := by
  have hbit : ∀ j ∈ Finset.range net.m_neuronCount, net1.bit j = net.bit j := by
    intro j hj
    unfold HopfieldNetwork.bit
    rw [hval j (Finset.mem_range.mp hj)]
  have hwt : ∀ i j, net1.weight i j = net.weight i j := by
    intro i j
    unfold HopfieldNetwork.weight
    rw [hw]
  unfold HopfieldNetwork.specEnergy
  rw [hc]
  congr 1
  · congr 1
    apply Finset.sum_congr rfl
    intro i hi
    apply Finset.sum_congr rfl
    intro j hj
    rw [hwt, hbit i hi, hbit j (Finset.mem_filter.mp hj).1]
  · apply Finset.sum_congr rfl
    intro i hi
    rw [hwt, hbit i hi]

/-- The present state is one of the states that `energyRank` ranges over. -/
theorem energyOf_own_state (net : HopfieldNetwork α) :
    net.energyOf (List.ofFn fun k : Fin net.m_neuronCount => net.value k.val) =
      net.specEnergy := by
  unfold HopfieldNetwork.energyOf
  refine specEnergy_congr net _ rfl rfl ?_
  intro j hj
  simp [HopfieldNetwork.value, List.getElem?_ofFn, hj]

theorem energyRank_lt (net : HopfieldNetwork α) :
    net.energyRank < 2 ^ net.m_neuronCount := by
  unfold HopfieldNetwork.energyRank
  have hcard : (Finset.univ : Finset (Fin net.m_neuronCount → Bool)).card =
      2 ^ net.m_neuronCount := by
    simp
  rw [← hcard]
  apply Finset.card_lt_card
  rw [Finset.filter_ssubset]
  exact ⟨fun k => net.value k.val, Finset.mem_univ _, by rw [energyOf_own_state]; exact lt_irrefl _⟩

/-- A change of one value that lowers the energy lowers the rank. -/
theorem energyRank_withValue_lt (net : HopfieldNetwork α) (i : Nat) (b : Bool)
    (h : (net.withValue i b).specEnergy < net.specEnergy) :
    (net.withValue i b).energyRank < net.energyRank := by
  unfold HopfieldNetwork.energyRank
  apply Finset.card_lt_card
  rw [Finset.ssubset_iff_of_subset]
  · refine ⟨fun k => (net.withValue i b).value k.val, ?_, ?_⟩
    · rw [Finset.mem_filter]
      refine ⟨Finset.mem_univ _, ?_⟩
      have := energyOf_own_state (net.withValue i b)
      exact this ▸ h
    · rw [Finset.mem_filter]
      intro hmem
      have := energyOf_own_state (net.withValue i b)
      exact lt_irrefl _ (this ▸ hmem.2)
  · intro f hf
    rw [Finset.mem_filter] at hf ⊢
    exact ⟨Finset.mem_univ _, lt_trans hf.2 h⟩

/-- The deterministic rule lowers the energy when it changes the value. -/
theorem specEnergy_update_lt (net : HopfieldNetwork α) (hv : net.Valid) (i : Nat)
    (hi : i < net.m_neuronCount) (hp : net.specPotential i ≠ 0)
    (hch : net.value i ≠ decide (net.specPotential i ≥ 0)) :
    (net.withValue i (decide (net.specPotential i ≥ 0))).specEnergy < net.specEnergy := by
  rw [specEnergy_withValue net hv i hi]
  rcases lt_or_gt_of_ne hp with hneg | hpos
  · have hb : decide (net.specPotential i ≥ 0) = false := by simpa using hneg
    rw [hb] at hch ⊢
    have hval : net.value i = true := by
      cases h : net.value i
      · exact absurd h hch
      · rfl
    have hbit : net.bit i = 1 := by simp [HopfieldNetwork.bit, hval]
    simp only [Bool.false_eq_true, if_false, zero_sub, hbit]
    linarith
  · have hb : decide (net.specPotential i ≥ 0) = true := by simpa using hpos.le
    rw [hb] at hch ⊢
    have hval : net.value i = false := by
      cases h : net.value i
      · rfl
      · exact absurd h hch
    have hbit : net.bit i = 0 := by simp [HopfieldNetwork.bit, hval]
    simp only [if_true, hbit]
    linarith

end Rank

section SeqTermination

variable {α : Type} [LinearOrderedField α] [FloorRing α]

/-- A visit on a valid network without schedule succeeds, keeps the network valid, without
schedule and of the same size; the rank of the energy stays when no change is reported
and goes down when a change is reported. -/
theorem Frame.visit_descends (env : Env α) (f : Frame α) (e : Nat) (hv : f.m.net.Valid)
    (hnone : f.m.net.m_temperatureModule = none) (he : e < f.m.net.m_neuronCount) :
    ∃ c m1, f.visit env e = .ok (some c, { f with
        m := m1
        updates := f.updates + 1
        trace := (e, some c) :: f.trace }) ∧
      m1.net.Valid ∧ m1.net.m_temperatureModule = none ∧
      m1.net.m_neuronCount = f.m.net.m_neuronCount ∧
      (c = false → m1.net.energyRank = f.m.net.energyRank) ∧
      (c = true → m1.net.energyRank < f.m.net.energyRank) := by
  have he' : e < f.m.net.m_neuronValues.length := hv.values_length ▸ he
  have hpn := processNeuron_cold env f.m hv e he (by simp [hnone])
  by_cases hp : f.m.net.specPotential e = 0
  · simp only [hp, if_true] at hpn
    refine ⟨false, f.m, ?_, hv, hnone, rfl, fun _ => rfl, fun h => by cases h⟩
    unfold Frame.visit
    simp [hv.readValue he, hpn, bind, Except.bind, pure, Except.pure]
  · simp only [hp, if_false] at hpn
    have hv1 : (f.m.net.withValue e (decide (f.m.net.specPotential e ≥ 0))).Valid :=
      hv.of_same_shape rfl rfl (by simp [HopfieldNetwork.withValue])
    have hval1 : (f.m.net.withValue e (decide (f.m.net.specPotential e ≥ 0))).value e =
        decide (f.m.net.specPotential e ≥ 0) := withValue_value_self _ _ _ he'
    have hread1 : readAt (f.m.net.withValue e
        (decide (f.m.net.specPotential e ≥ 0))).m_neuronValues e =
        .ok (decide (f.m.net.specPotential e ≥ 0)) := by
      rw [hv1.readValue (show e < _ from he), hval1]
    refine ⟨decide (f.m.net.value e ≠ decide (f.m.net.specPotential e ≥ 0)),
      { f.m with net := f.m.net.withValue e (decide (f.m.net.specPotential e ≥ 0)) },
      ?_, hv1, hnone, rfl, ?_, ?_⟩
    · unfold Frame.visit
      simp only [hv.readValue he, hpn, hread1, bind, Except.bind, pure, Except.pure, ne_eq,
        not_true_eq_false, if_false]
    · intro hc
      have hsame : f.m.net.value e = decide (f.m.net.specPotential e ≥ 0) := by
        simpa using hc
      have hnet : f.m.net.withValue e (decide (f.m.net.specPotential e ≥ 0)) = f.m.net := by
        rw [← hsame]
        unfold HopfieldNetwork.withValue HopfieldNetwork.value
        rw [list_set_same _ _ _ he']
      show (f.m.net.withValue e (decide (f.m.net.specPotential e ≥ 0))).energyRank = _
      rw [hnet]
    · intro hc
      have hne : f.m.net.value e ≠ decide (f.m.net.specPotential e ≥ 0) := by
        simpa using hc
      exact energyRank_withValue_lt _ _ _ (specEnergy_update_lt f.m.net hv e he hp hne)

omit [LinearOrderedField α] [FloorRing α] in
theorem Frame.writeBack_updates (f : Frame α) : f.writeBack.updates = f.updates := by
  unfold Frame.writeBack
  split <;> rfl

/-- One round of `computeSequentially`: it returns true, or goes on with a smaller
measure. -/
theorem seqBody_descends (env : Env α) (n B : Nat) (hn : n < ULONG_WIDTH) (s : SeqState α)
    (hinv : s.Descending n B) :
    (∃ s1, seqBody env s = .ok (.next s1) ∧ s1.Descending n B ∧
        s1.frame.m.net.energyRank * n + s1.distance <
          s.frame.m.net.energyRank * n + s.distance) ∨
      (∃ b s1, seqBody env s = .ok (.ret b s1) ∧ (b = true ∧ s1.frame.updates ≤ B + 1)) := by
  obtain ⟨hv, hnone, hc, hcur, hlast, hbud, hB⟩ := hinv
  obtain ⟨c, m1, hvisit, hv1, hnone1, hc1, hsame, hless⟩ := Frame.visit_descends env
    { s.frame with currentSteps := (s.frame.currentSteps + 1) % ULONG_WIDTH }
    s.currentNeuron hv hnone (by show s.currentNeuron < s.frame.m.net.m_neuronCount; omega)
  have hc1' : m1.net.m_neuronCount = n := hc1.trans hc
  have hn0 : ¬ n = 0 := by omega
  have hpos : 0 < n := by omega
  have hstep : (s.currentNeuron + 1) % ULONG_WIDTH = s.currentNeuron + 1 :=
    Nat.mod_eq_of_lt (by omega)
  have hdist : s.distance = if s.currentNeuron ≤ s.lastChangedNeuron
      then s.lastChangedNeuron - s.currentNeuron
      else s.lastChangedNeuron + n - s.currentNeuron := by
    unfold SeqState.distance
    rw [hc]
  unfold seqBody
  simp only [hvisit, bind, Except.bind]
  cases c with
  | true =>
      have hrank : m1.net.energyRank < s.frame.m.net.energyRank := hless rfl
      left
      simp only [hc1', hn0, if_false, hstep]
      refine ⟨_, rfl, ⟨hv1, hnone1, hc1', Nat.mod_lt _ hpos, hcur, hbud, ?_⟩, ?_⟩
      · show s.frame.updates + 1 + (m1.net.energyRank * n + SeqState.distance _) ≤ B
        have hd : SeqState.distance
            ({ frame := { m := m1, maxSteps := s.frame.maxSteps,
                          currentSteps := (s.frame.currentSteps + 1) % ULONG_WIDTH,
                          updates := s.frame.updates + 1,
                          trace := (s.currentNeuron, some true) :: s.frame.trace },
               currentNeuron := (s.currentNeuron + 1) % n,
               lastChangedNeuron := s.currentNeuron } : SeqState α) ≤ n - 1 := by
          unfold SeqState.distance
          have := Nat.mod_lt (s.currentNeuron + 1) (show 0 < n by omega)
          simp only [hc1']
          split <;> omega
        have hmul : (m1.net.energyRank + 1) * n ≤ s.frame.m.net.energyRank * n :=
          Nat.mul_le_mul_right n hrank
        rw [add_mul, one_mul] at hmul
        omega
      · have hd : SeqState.distance
            ({ frame := { m := m1, maxSteps := s.frame.maxSteps,
                          currentSteps := (s.frame.currentSteps + 1) % ULONG_WIDTH,
                          updates := s.frame.updates + 1,
                          trace := (s.currentNeuron, some true) :: s.frame.trace },
               currentNeuron := (s.currentNeuron + 1) % n,
               lastChangedNeuron := s.currentNeuron } : SeqState α) ≤ n - 1 := by
          unfold SeqState.distance
          have := Nat.mod_lt (s.currentNeuron + 1) (show 0 < n by omega)
          simp only [hc1']
          split <;> omega
        have hmul : (m1.net.energyRank + 1) * n ≤ s.frame.m.net.energyRank * n :=
          Nat.mul_le_mul_right n hrank
        rw [add_mul, one_mul] at hmul
        show m1.net.energyRank * n + SeqState.distance _ < _
        omega
  | false =>
      have hrank : m1.net.energyRank = s.frame.m.net.energyRank := hsame rfl
      by_cases heq : s.currentNeuron = s.lastChangedNeuron
      · right
        simp only [heq, if_true, pure, Except.pure]
        refine ⟨true, _, rfl, rfl, ?_⟩
        show (Frame.writeBack _).updates ≤ B + 1
        rw [Frame.writeBack_updates]
        show s.frame.updates + 1 ≤ B + 1
        omega
      · left
        simp only [heq, if_false, hc1', hn0, hstep]
        have hmod : (s.currentNeuron + 1) % n =
            if s.currentNeuron + 1 = n then 0 else s.currentNeuron + 1 := by
          split
          · rename_i h
            rw [h, Nat.mod_self]
          · exact Nat.mod_eq_of_lt (by omega)
        have hd : SeqState.distance
            ({ frame := { m := m1, maxSteps := s.frame.maxSteps,
                          currentSteps := (s.frame.currentSteps + 1) % ULONG_WIDTH,
                          updates := s.frame.updates + 1,
                          trace := (s.currentNeuron, some false) :: s.frame.trace },
               currentNeuron := (s.currentNeuron + 1) % n,
               lastChangedNeuron := s.lastChangedNeuron } : SeqState α) + 1 =
            s.distance := by
          rw [hdist]
          unfold SeqState.distance
          simp only [hc1', hmod]
          split <;> split <;> split <;> omega
        refine ⟨_, rfl, ⟨hv1, hnone1, hc1', Nat.mod_lt _ hpos, hlast, hbud, ?_⟩, ?_⟩
        · show s.frame.updates + 1 + (m1.net.energyRank * n + SeqState.distance _) ≤ B
          rw [hrank]
          omega
        · show m1.net.energyRank * n + SeqState.distance _ < _
          rw [hrank]
          omega

end SeqTermination

section SeqTerminationClaim

variable {α : Type} [LinearOrderedField α] [FloorRing α]

/-- C24. On a valid network with `n ≥ 1` neurons and no schedule, `computeSequentially`
with an absent or a zero budget returns true when it is given at least `n * 2^n` tests of
its loop condition, and has then made at most `n * 2^n` calls of `processNeuron`. -/
theorem computeSequentially_terminates (env : Env α) (m : Machine α) (hv : m.net.Valid)
    (hnone : m.net.m_temperatureModule = none) (hn1 : 1 ≤ m.net.m_neuronCount)
    (hn : m.net.m_neuronCount < ULONG_WIDTH) (maxSteps : Option Nat)
    (hbud : maxSteps = none ∨ maxSteps = some 0) (fuel : Nat)
    (hfuel : m.net.m_neuronCount * 2 ^ m.net.m_neuronCount ≤ fuel) :
    ∃ s, computeSequentially env m maxSteps fuel = .returned true s ∧
      s.frame.updates ≤ m.net.m_neuronCount * 2 ^ m.net.m_neuronCount := by
  have hrank := energyRank_lt m.net
  have hmul : (m.net.energyRank + 1) * m.net.m_neuronCount ≤
      2 ^ m.net.m_neuronCount * m.net.m_neuronCount := Nat.mul_le_mul_right _ hrank
  rw [add_mul, one_mul, Nat.mul_comm (2 ^ m.net.m_neuronCount)] at hmul
  unfold computeSequentially
  obtain ⟨b, s, hrun, hb, hup⟩ := whileLoop_measure (fun s => s.frame.budgetOpen)
    (seqBody env)
    (fun s => s.frame.m.net.energyRank * m.net.m_neuronCount + s.distance)
    (SeqState.Descending m.net.m_neuronCount
      (m.net.energyRank * m.net.m_neuronCount))
    (fun b s => b = true ∧ s.frame.updates ≤ m.net.energyRank * m.net.m_neuronCount + 1)
    (fun s hinv => by
      rcases hinv.2.2.2.2.2.1 with h | h <;> simp [Frame.budgetOpen, h])
    (seqBody_descends env _ _ hn) fuel
    { frame := { m := m, maxSteps := maxSteps, currentSteps := 0, updates := 0, trace := [] },
      currentNeuron := 0, lastChangedNeuron := 0 }
    ⟨hv, hnone, rfl, hn1, hn1, hbud, by simp [SeqState.distance]⟩
    (by
      show m.net.energyRank * m.net.m_neuronCount + SeqState.distance _ < fuel
      simp only [SeqState.distance, le_refl, if_true, Nat.sub_self, Nat.add_zero]
      omega)
  subst hb
  exact ⟨s, hrun, by omega⟩

end SeqTerminationClaim

set_option maxRecDepth 100000 in
/-- The theorem `computeSequentially_terminates` on the two-neuron network with weights
`[[1,-2],[-2,1]]` and state `[true,true]`, without budget, for 8 tests of the loop
condition. -/
theorem computeSequentially_terminates_witness :
    ∃ s, computeSequentially exampleEnv (exampleMachine [[1, -2], [-2, 1]] [true, true] none)
        none 8 = .returned true s ∧
      s.frame.updates ≤ 2 * 2 ^ 2 :=
  computeSequentially_terminates exampleEnv _
    (exampleMachine_valid_two 1 (-2) 1 true true none) rfl (by decide) (by decide) none
    (Or.inl rfl) 8 (by decide)

/-! ## The random traversal: the phases of the countdown -/

section Shape

variable {α : Type} [LinearOrderedField α] [FloorRing α]

omit [LinearOrderedField α] [FloorRing α] in
theorem setNeuronValue_count (m m1 : Machine α) (i : Nat) (b : Bool)
    (h : setNeuronValue m i b = .ok m1) :
    m1.net.m_neuronCount = m.net.m_neuronCount := by
  unfold setNeuronValue writeAt at h
  by_cases hi : i < m.net.m_neuronValues.length
  · simp only [hi, if_true, bind, Except.bind, pure, Except.pure, Except.ok.injEq] at h
    rw [← h]
  · simp [hi, bind, Except.bind] at h

omit [LinearOrderedField α] [FloorRing α] in
theorem randomNumber_net (env : Env α) (m : Machine α) (r : Nat × Machine α)
    (h : randomNumber env m = .ok r) : r.2.net = m.net := by
  unfold randomNumber at h
  cases hb : m.bitCount with
  | none =>
      simp only [hb, bind, Except.bind] at h
      split at h
      · simp at h
      · simp only [pure, Except.pure, Except.ok.injEq] at h
        rw [← h]
  | some b =>
      simp only [hb, bind, Except.bind] at h
      split at h
      · simp at h
      · simp only [pure, Except.pure, Except.ok.injEq] at h
        rw [← h]

theorem Except.bind_eq_ok {ε β γ : Type} (x : Except ε β) (f : β → Except ε γ) (r : γ)
    (h : x.bind f = .ok r) : ∃ a, x = .ok a ∧ f a = .ok r := by
  cases x with
  | error e => simp [Except.bind] at h
  | ok a => exact ⟨a, rfl, h⟩

theorem BernoulliTrial_net (env : Env α) (m : Machine α) (input : α)
    (r : Bool × Machine α) (h : BernoulliTrial env m input = .ok r) : r.2.net = m.net := by
  rw [BernoulliTrial_eq] at h
  obtain ⟨rn, hr, h⟩ := Except.bind_eq_ok _ _ _ h
  have hnet := randomNumber_net env m rn hr
  cases ht : trialOutcome input rn.1 with
  | error e => simp [ht, Except.map] at h
  | ok b =>
      simp only [ht, Except.map, Except.ok.injEq] at h
      rw [← h]
      exact hnet

/-- A call of `processNeuron` that returns leaves the count as it is, and for an index
below the count it returns `NO_ERROR`. -/
theorem processNeuron_shape (env : Env α) (m : Machine α) (i : Nat)
    (r : errorCode × Machine α) (h : processNeuron env m i = .ok r) :
    r.2.net.m_neuronCount = m.net.m_neuronCount ∧
      (i < m.net.m_neuronCount → r.1 = .NO_ERROR) := by
  unfold processNeuron at h
  by_cases hi : i < m.net.m_neuronCount
  · simp only [hi, if_true, bind] at h
    obtain ⟨p, hp, h⟩ := Except.bind_eq_ok _ _ _ h
    by_cases hp0 : p = 0
    · simp only [hp0, ne_eq, not_true_eq_false, if_false, pure, Except.pure,
        Except.ok.injEq] at h
      rw [← h]
      exact ⟨rfl, fun _ => rfl⟩
    · simp only [hp0, ne_eq, not_false_eq_true, if_true] at h
      cases htm : m.net.m_temperatureModule with
      | none =>
          simp only [htm] at h
          obtain ⟨m1, hs, h⟩ := Except.bind_eq_ok _ _ _ h
          simp only [pure, Except.pure, Except.ok.injEq] at h
          rw [← h]
          exact ⟨setNeuronValue_count m m1 i _ hs, fun _ => rfl⟩
      | some tm =>
          simp only [htm] at h
          by_cases hhot : tm.isHot = true
          · simp only [hhot, if_true] at h
            obtain ⟨rb, hb, h⟩ := Except.bind_eq_ok _ _ _ h
            obtain ⟨m1, hs, h⟩ := Except.bind_eq_ok _ _ _ h
            obtain ⟨c, hcd, h⟩ := Except.bind_eq_ok _ _ _ h
            have hnet := BernoulliTrial_net env m _ rb hb
            have hc := setNeuronValue_count rb.2 m1 i _ hs
            simp only [pure, Except.pure, Except.ok.injEq] at h
            rw [← h]
            refine ⟨?_, fun _ => rfl⟩
            show m1.net.m_neuronCount = _
            rw [hc, hnet]
          · simp only [hhot, if_false] at h
            obtain ⟨m1, hs, h⟩ := Except.bind_eq_ok _ _ _ h
            simp only [pure, Except.pure, Except.ok.injEq] at h
            rw [← h]
            exact ⟨setNeuronValue_count m m1 i _ hs, fun _ => rfl⟩
  · simp only [hi, if_false, pure, Except.pure, Except.ok.injEq] at h
    rw [← h]
    exact ⟨rfl, fun hcon => absurd hcon hi⟩

/-- A visit of a neuron below the count that returns has succeeded with or without a
change, and leaves the count as it is. -/
theorem Frame.visit_shape (env : Env α) (f f1 : Frame α) (neuron : Nat) (c : Option Bool)
    (h : f.visit env neuron = .ok (c, f1)) (hlt : neuron < f.m.net.m_neuronCount) :
    (∃ b, c = some b) ∧ f1.m.net.m_neuronCount = f.m.net.m_neuronCount := by
  unfold Frame.visit at h
  cases hread : readAt f.m.net.m_neuronValues neuron with
  | error e => simp [hread, bind, Except.bind] at h
  | ok prior =>
      cases hpn : processNeuron env f.m neuron with
      | error e => simp [hread, hpn, bind, Except.bind] at h
      | ok r =>
          obtain ⟨hcount, herr⟩ := processNeuron_shape env f.m neuron r hpn
          simp only [hread, hpn, bind, Except.bind, herr hlt, ne_eq, not_true_eq_false,
            if_false] at h
          cases hread1 : readAt r.2.net.m_neuronValues neuron with
          | error e => simp [hread1] at h
          | ok new =>
              simp only [hread1, pure, Except.pure, Except.ok.injEq, Prod.mk.injEq] at h
              obtain ⟨hc, hf⟩ := h
              subst hc hf
              exact ⟨⟨_, rfl⟩, hcount⟩

end Shape

section CountdownInv

variable {α : Type} [LinearOrderedField α] [FloorRing α]

omit [LinearOrderedField α] [FloorRing α] in
theorem list_take_cons_all {β : Type} (p : β → Prop) (x : β) (l : List β) (k : Nat)
    (hx : p x) (hl : ∀ y ∈ l.take k, p y) : ∀ y ∈ (x :: l).take (k + 1), p y := by
  intro y hy
  rw [List.take_succ_cons, List.mem_cons] at hy
  rcases hy with h | h
  · rw [h]; exact hx
  · exact hl y h

/-- One round of `computeRandomly`, as long as fewer than `2^64` visits have been made:
it hands the invariant on, or returns true after a streak of at least `4n` visits without
change. -/
theorem randBody_countdown (env : Env α) (n : Nat) (hn : 2 * n < ULONG_WIDTH)
    (s : RandState α) (hinv : s.Countdown n) (hW : s.frame.updates + 1 < ULONG_WIDTH) :
    ∀ step, randBody env s = .ok step →
      match step with
      | .next s1 => s1.frame.updates = s.frame.updates + 1 ∧ s1.Countdown n
      | .ret b s1 => b = true ∧ s1.frame.updates = s.frame.updates + 1 ∧
          4 * n ≤ s1.frame.updates ∧ 4 * n ≤ s1.frame.trace.length ∧
          ∀ x ∈ s1.frame.trace.take (4 * n), x.2 = some false := by
  intro step hbody
  obtain ⟨hc, hth, huc, hlen, hall, hphase⟩ := hinv
  unfold randBody at hbody
  by_cases hn0 : s.frame.m.net.m_neuronCount = 0
  · simp [hn0] at hbody
  · have hn0' : ¬ n = 0 := hc ▸ hn0
    simp only [hn0, if_false] at hbody
    cases hvisit : Frame.visit env
        { m := { s.frame.m with randCalls := s.frame.m.randCalls + 1 },
          maxSteps := s.frame.maxSteps,
          currentSteps := (s.frame.currentSteps + 1) % ULONG_WIDTH,
          updates := s.frame.updates, trace := s.frame.trace }
        ((env.rand s.frame.m.randCalls % ULONG_WIDTH) % s.frame.m.net.m_neuronCount) with
    | error e => simp [hvisit, bind, Except.bind] at hbody
    | ok r =>
        obtain ⟨c, f1⟩ := r
        obtain ⟨htrace, _, _, hupd⟩ := Frame.visit_record env _ f1 _ c hvisit
        obtain ⟨⟨b, hcb⟩, hcount⟩ := Frame.visit_shape env _ f1 _ c hvisit
          (Nat.mod_lt _ (Nat.pos_of_ne_zero hn0))
        have hupd' : f1.updates = s.frame.updates + 1 := hupd
        have htrace' : f1.trace = (_, c) :: s.frame.trace := htrace
        have hcount' : f1.m.net.m_neuronCount = n := hcount.trans hc
        have hlen1 : f1.trace.length = f1.updates := by
          rw [htrace', hupd', List.length_cons, hlen]
        have hwb : ∀ g : Frame α, g.writeBack.trace = g.trace ∧
            g.writeBack.updates = g.updates :=
          fun g => ⟨Frame.writeBack_trace g, Frame.writeBack_updates g⟩
        have hucW : (s.unchangedCount + 1) % ULONG_WIDTH = s.unchangedCount + 1 :=
          Nat.mod_eq_of_lt (by omega)
        have h2n : 2 * n % ULONG_WIDTH = 2 * n := Nat.mod_eq_of_lt hn
        subst hcb
        simp only [hvisit, bind, Except.bind] at hbody
        cases b with
        | true =>
            by_cases hgt : s.unchangedCount > s.CHECK_THRESHOLD
            · simp only [hgt, if_true, pure, Except.pure, Except.ok.injEq] at hbody
              subst hbody
              refine ⟨hupd', hcount', hth, Nat.zero_le _, hlen1, ?_, ?_⟩
              · intro x hx
                simp at hx
              · left
                refine ⟨Nat.zero_le _, rfl, ?_⟩
                show 2 * f1.m.net.m_neuronCount % ULONG_WIDTH = 2 * n
                rw [hcount', h2n]
            · simp only [hgt, if_false, pure, Except.pure, Except.ok.injEq] at hbody
              subst hbody
              refine ⟨hupd', hcount', hth, Nat.zero_le _, hlen1, ?_, ?_⟩
              · intro x hx
                simp at hx
              · left
                rw [hth] at hgt
                rcases hphase with h | h | h
                · exact ⟨Nat.zero_le _, h.2.1, h.2.2⟩
                · omega
                · omega
        | false =>
            have hall1 : ∀ x ∈ f1.trace.take (s.unchangedCount + 1), x.2 = some false := by
              rw [htrace']
              exact list_take_cons_all (fun x : Nat × Option Bool => x.2 = some false) _ _ _ rfl hall
            simp only [hucW] at hbody
            by_cases hgt : s.unchangedCount + 1 > s.CHECK_THRESHOLD
            · simp only [hgt, if_true] at hbody
              cases hw : writeAt s.neuronsToCheck
                  ((env.rand s.frame.m.randCalls % ULONG_WIDTH) %
                    s.frame.m.net.m_neuronCount) false with
              | error e => simp [hw] at hbody
              | ok ntc =>
                  simp only [hw] at hbody
                  rw [hth] at hgt
                  have hcsW : (s.checkSteps + 1) % ULONG_WIDTH = s.checkSteps + 1 :=
                    Nat.mod_eq_of_lt (by rcases hphase with h | h | h <;> omega)
                  simp only [hcsW] at hbody
                  by_cases hdone : s.checkSteps + 1 = s.nextCheck
                  · simp only [hdone, if_true] at hbody
                    have huc4 : 4 * n ≤ s.unchangedCount + 1 := by
                      rcases hphase with h | h | h <;> omega
                    cases hcnt : countToCheck ntc (List.range f1.m.net.m_neuronCount) 0 with
                    | error e => simp [hcnt] at hbody
                    | ok rem =>
                        simp only [hcnt] at hbody
                        by_cases hr : rem = 0
                        · simp only [hr, ne_eq, not_true_eq_false, if_false, pure,
                            Except.pure, Except.ok.injEq] at hbody
                          subst hbody
                          refine ⟨rfl, ?_, ?_, ?_, ?_⟩
                          · show (Frame.writeBack f1).updates = _
                            rw [(hwb f1).2, hupd']
                          · show 4 * n ≤ (Frame.writeBack f1).updates
                            rw [(hwb f1).2, hupd']
                            omega
                          · show 4 * n ≤ (Frame.writeBack f1).trace.length
                            rw [(hwb f1).1, hlen1, hupd']
                            omega
                          · show ∀ x ∈ (Frame.writeBack f1).trace.take (4 * n), _
                            rw [(hwb f1).1]
                            intro x hx
                            apply hall1 x
                            exact List.take_subset_take_left _ huc4 hx
                        · simp only [hr, ne_eq, not_false_eq_true, if_true, pure,
                            Except.pure, Except.ok.injEq] at hbody
                          subst hbody
                          refine ⟨hupd', hcount', hth, by show s.unchangedCount + 1 ≤ f1.updates; omega, hlen1,
                            hall1, ?_⟩
                          right; right
                          exact ⟨by show 2 * n < s.unchangedCount + 1; omega, huc4, hcount',
                            by show 0 < n; omega⟩
                  · simp only [hdone, if_false, pure, Except.pure, Except.ok.injEq] at hbody
                    subst hbody
                    refine ⟨hupd', hcount', hth, by show s.unchangedCount + 1 ≤ f1.updates; omega, hlen1,
                      hall1, ?_⟩
                    show (s.unchangedCount + 1 ≤ 2 * n ∧ s.checkSteps + 1 = 0 ∧ _) ∨
                      (2 * n < s.unchangedCount + 1 ∧ s.nextCheck = 2 * n ∧
                        s.checkSteps + 1 + 2 * n = s.unchangedCount + 1 ∧
                        s.checkSteps + 1 < 2 * n) ∨
                      (2 * n < s.unchangedCount + 1 ∧ 4 * n ≤ s.unchangedCount + 1 ∧
                        s.nextCheck = n ∧ s.checkSteps + 1 < n)
                    rcases hphase with h | h | h
                    · right; left
                      omega
                    · right; left
                      omega
                    · right; right
                      omega
            · simp only [hgt, if_false, pure, Except.pure, Except.ok.injEq] at hbody
              subst hbody
              refine ⟨hupd', hcount', hth, by show s.unchangedCount + 1 ≤ f1.updates; omega, hlen1, hall1, ?_⟩
              rw [hth] at hgt
              left
              show s.unchangedCount + 1 ≤ 2 * n ∧ s.checkSteps = 0 ∧ s.nextCheck = 2 * n
              rcases hphase with h | h | h
              · exact ⟨by omega, h.2.1, h.2.2⟩
              · omega
              · omega

end CountdownInv

section CountdownClaims

variable {α : Type} [LinearOrderedField α] [FloorRing α]

/-- Every round of `computeRandomly` that ends makes one call of `processNeuron`. -/
theorem randBody_updates (env : Env α) (s : RandState α) :
    ∀ step, randBody env s = .ok step →
      match step with
      | .next s1 => s1.frame.updates = s.frame.updates + 1
      | .ret _ s1 => s1.frame.updates = s.frame.updates + 1 := by
  intro step hbody
  unfold randBody at hbody
  by_cases hn0 : s.frame.m.net.m_neuronCount = 0
  · simp [hn0] at hbody
  · simp only [hn0, if_false, bind] at hbody
    obtain ⟨r, hvisit, hbody⟩ := Except.bind_eq_ok _ _ _ hbody
    obtain ⟨c, f1⟩ := r
    have hupd : f1.updates = s.frame.updates + 1 :=
      (Frame.visit_record env _ f1 _ c hvisit).2.2.2
    cases c with
    | none =>
        simp only [pure, Except.pure, Except.ok.injEq] at hbody
        subst hbody
        exact hupd
    | some b =>
        cases b with
        | true =>
            simp only at hbody
            split at hbody <;>
              · simp only [pure, Except.pure, Except.ok.injEq] at hbody
                subst hbody
                exact hupd
        | false =>
            simp only at hbody
            split at hbody
            · obtain ⟨ntc, _, hbody⟩ := Except.bind_eq_ok _ _ _ hbody
              split at hbody
              · obtain ⟨rem, _, hbody⟩ := Except.bind_eq_ok _ _ _ hbody
                split at hbody
                · simp only [pure, Except.pure, Except.ok.injEq] at hbody
                  subst hbody
                  exact hupd
                · simp only [pure, Except.pure, Except.ok.injEq] at hbody
                  subst hbody
                  show (Frame.writeBack f1).updates = _
                  rw [Frame.writeBack_updates]
                  exact hupd
              · simp only [pure, Except.pure, Except.ok.injEq] at hbody
                subst hbody
                exact hupd
            · simp only [pure, Except.pure, Except.ok.injEq] at hbody
              subst hbody
              exact hupd

omit [LinearOrderedField α] [FloorRing α] in
/-- What the body hands on from one test of the loop condition to the next holds of every
state with which the condition is tested. -/
theorem whileLoopState_invariant {σ : Type} (cond : σ → Bool)
    (body : σ → Except Abort (LoopStep σ)) (Inv : σ → Prop)
    (hnext : ∀ s s1, Inv s → cond s = true → body s = .ok (.next s1) → Inv s1) :
    ∀ k s0 s, Inv s0 → whileLoopState cond body k s0 = some s → Inv s := by
  intro k
  induction k with
  | zero =>
      intro s0 s h0 h
      simp only [whileLoopState, Option.some.injEq] at h
      exact h ▸ h0
  | succ k ih =>
      intro s0 s h0 h
      unfold whileLoopState at h
      by_cases hc : cond s0 = true
      · rw [if_pos hc] at h
        cases hb : body s0 with
        | error e => simp [hb] at h
        | ok step =>
            cases step with
            | next s1 =>
                simp only [hb] at h
                exact ih s1 s (hnext s0 s1 h0 hc hb) h
            | ret b s1 => simp [hb] at h
      · rw [if_neg hc] at h
        cases h

omit [LinearOrderedField α] [FloorRing α] in
/-- The initial state of `computeRandomly` satisfies the invariant. -/
theorem computeRandomly_initial_countdown (m : Machine α) (maxSteps : Option Nat)
    (hn : 2 * m.net.m_neuronCount < ULONG_WIDTH) :
    RandState.Countdown m.net.m_neuronCount
      ({ frame := { m := m, maxSteps := maxSteps, currentSteps := 0, updates := 0,
                    trace := [] },
         CHECK_THRESHOLD := (2 * m.net.m_neuronCount) % ULONG_WIDTH,
         unchangedCount := 0,
         neuronsToCheck := List.replicate m.net.m_neuronCount true,
         nextCheck := (2 * m.net.m_neuronCount) % ULONG_WIDTH,
         checkSteps := 0 } : RandState α) :=
  ⟨rfl, Nat.mod_eq_of_lt hn, Nat.zero_le _, rfl, fun x hx => by simp at hx,
    Or.inl ⟨Nat.zero_le _, rfl, Nat.mod_eq_of_lt hn⟩⟩

/-- C26. In `computeRandomly` on a network of `n` neurons with `2n < 2^64`, the state with
which the loop condition is tested for the `k+1`-st time has seen `k` calls of
`processNeuron`, and if `k < 2^64` and `unchangedCount ≤ 2n` in it, then `checkSteps = 0`
and `nextCheck = 2n`. -/
theorem computeRandomly_countdown_idle (env : Env α) (m : Machine α)
    (hn : 2 * m.net.m_neuronCount < ULONG_WIDTH) (maxSteps : Option Nat) (k : Nat)
    (s : RandState α)
    (hreach : computeRandomlyAt env m maxSteps k = some s)
    (hk : k < ULONG_WIDTH) (hstreak : s.unchangedCount ≤ 2 * m.net.m_neuronCount) :
    s.frame.updates = k ∧ s.checkSteps = 0 ∧ s.nextCheck = 2 * m.net.m_neuronCount := by
  unfold computeRandomlyAt at hreach
  have hupd : ∀ j s0 s1, whileLoopState (fun s => s.frame.budgetOpen) (randBody env) j s0 =
      some s1 → s1.frame.updates = s0.frame.updates + j := by
    intro j
    induction j with
    | zero =>
        intro s0 s1 h
        simp only [whileLoopState, Option.some.injEq] at h
        rw [← h]
        rfl
    | succ j ih =>
        intro s0 s1 h
        unfold whileLoopState at h
        split at h
        · cases hb : randBody env s0 with
          | error e => simp [hb] at h
          | ok step =>
              cases step with
              | next s2 =>
                  simp only [hb] at h
                  have h1 := randBody_updates env s0 _ hb
                  simp only at h1
                  rw [ih s2 s1 h, h1]
                  omega
              | ret b s2 => simp [hb] at h
        · cases h
  have hk' : s.frame.updates = k := by
    have := hupd k _ s hreach
    simpa using this
  have hinv := whileLoopState_invariant (fun s => s.frame.budgetOpen) (randBody env)
    (fun s => s.frame.updates < ULONG_WIDTH → s.Countdown m.net.m_neuronCount)
    (fun s0 s1 h0 _ hb hlt => by
      have h1 := randBody_updates env s0 _ hb
      simp only at h1
      have h2 := randBody_countdown env _ hn s0 (h0 (by omega)) (by omega) _ hb
      exact h2.2)
    k _ s (fun _ => computeRandomly_initial_countdown m maxSteps hn) hreach
    (by rw [hk']; exact hk)
  obtain ⟨_, _, _, _, _, hphase⟩ := hinv
  rcases hphase with h | h | h
  · exact ⟨hk', h.2.1, h.2.2⟩
  · omega
  · omega

/-- C21. On a network of `n` neurons with `2n < 2^64`: when `computeRandomly` returns
true after fewer than `2^64` calls of `processNeuron`, it has made at least `4n` calls,
and the last `4n` of them all left the state unchanged. -/
theorem computeRandomly_true_after_four_n (env : Env α) (m : Machine α)
    (hn : 2 * m.net.m_neuronCount < ULONG_WIDTH) (maxSteps : Option Nat) (fuel : Nat)
    (s : RandState α) (hrun : computeRandomly env m maxSteps fuel = .returned true s)
    (hW : s.frame.updates < ULONG_WIDTH) :
    4 * m.net.m_neuronCount ≤ s.frame.updates ∧
      4 * m.net.m_neuronCount ≤ s.frame.trace.length ∧
      ∀ x ∈ s.frame.trace.take (4 * m.net.m_neuronCount), x.2 = some false := by
  unfold computeRandomly at hrun
  refine whileLoop_invariant (fun s => s.frame.budgetOpen) (randBody env)
    (fun s => s.frame.updates < ULONG_WIDTH → s.Countdown m.net.m_neuronCount)
    (fun b s1 => b = true → s1.frame.updates < ULONG_WIDTH →
      4 * m.net.m_neuronCount ≤ s1.frame.updates ∧
      4 * m.net.m_neuronCount ≤ s1.frame.trace.length ∧
      ∀ x ∈ s1.frame.trace.take (4 * m.net.m_neuronCount), x.2 = some false)
    (fun _ _ _ h => by simp at h)
    (fun s0 s1 h0 _ hb hlt => by
      have h1 := randBody_updates env s0 _ hb
      simp only at h1
      have h2 := randBody_countdown env _ hn s0 (h0 (by omega)) (by omega) _ hb
      exact h2.2)
    (fun s0 b s1 h0 _ hb _ hlt => by
      have h1 := randBody_updates env s0 _ hb
      simp only at h1
      have h2 := randBody_countdown env _ hn s0 (h0 (by omega)) (by omega) _ hb
      exact h2.2.2)
    fuel _ true s ?_ hrun rfl hW
  exact fun _ => computeRandomly_initial_countdown m maxSteps hn

end CountdownClaims



set_option maxRecDepth 100000 in
/-- The theorem `computeRandomly_true_after_four_n` on the one-neuron network with weight
0: the run returns true in its fourth round, after four visits without change. -/
theorem computeRandomly_true_after_four_n_witness :
    ∃ s, computeRandomly exampleEnv (exampleMachine [[0]] [true] none) none 4 =
        .returned true s ∧
      s.frame.trace = List.replicate 4 (0, some false) ∧
      4 * 1 ≤ s.frame.updates ∧ 4 * 1 ≤ s.frame.trace.length ∧
      ∀ x ∈ s.frame.trace.take (4 * 1), x.2 = some false := by
  have hrun : computeRandomly exampleEnv (exampleMachine [[0]] [true] none) none 4 =
      .returned true
        { frame := { m := { exampleMachine [[0]] [true] none with randCalls := 4 },
                     maxSteps := none, currentSteps := 4, updates := 4,
                     trace := List.replicate 4 (0, some false) },
          CHECK_THRESHOLD := 2, unchangedCount := 4, neuronsToCheck := [false],
          nextCheck := 0, checkSteps := 0 } := by
    norm_num [computeRandomly, whileLoop, Frame.budgetOpen, randBody, Frame.visit,
      Frame.writeBack, processNeuron, calculatePotential, calculatePotentialLoop,
      exampleMachine, exampleEnv, readWeight, readAt, writeAt, countToCheck,
      setNeuronValue, List.range, List.range.loop, bind, Except.bind, pure, Except.pure,
      ULONG_WIDTH, List.replicate]
  exact ⟨_, hrun, rfl, computeRandomly_true_after_four_n exampleEnv
    (exampleMachine [[0]] [true] none) (by decide) none 4 _ hrun (by decide)⟩

set_option maxRecDepth 100000 in
/-- The theorem `computeRandomly_countdown_idle` on the one-neuron network with weight 0,
for the state with which the loop condition is tested the third time: the streak is 2,
`checkSteps` is 0 and `nextCheck` is 2. -/
theorem computeRandomly_countdown_idle_witness :
    ∃ s, computeRandomlyAt exampleEnv (exampleMachine [[0]] [true] none) none 2 = some s ∧
      s.unchangedCount = 2 ∧
      s.frame.updates = 2 ∧ s.checkSteps = 0 ∧ s.nextCheck = 2 * 1 := by
  have hreach : computeRandomlyAt exampleEnv (exampleMachine [[0]] [true] none) none 2 =
      some
        { frame := { m := { exampleMachine [[0]] [true] none with randCalls := 2 },
                     maxSteps := none, currentSteps := 2, updates := 2,
                     trace := List.replicate 2 (0, some false) },
          CHECK_THRESHOLD := 2, unchangedCount := 2, neuronsToCheck := [true],
          nextCheck := 2, checkSteps := 0 } := by
    norm_num [computeRandomlyAt, whileLoopState, Frame.budgetOpen, randBody, Frame.visit,
      processNeuron, calculatePotential, calculatePotentialLoop,
      exampleMachine, exampleEnv, readWeight, readAt, writeAt, countToCheck,
      setNeuronValue, List.range, List.range.loop, bind, Except.bind, pure, Except.pure,
      ULONG_WIDTH, List.replicate]
  exact ⟨_, hreach, rfl, computeRandomly_countdown_idle exampleEnv
    (exampleMachine [[0]] [true] none) (by decide) none 2 _ hreach (by decide) (by decide)⟩

/-! ## The rook problem: fixed points -/

section RookBoard

/-- On a `b`×`b` board on which every occupied square has no other occupied square in its
row or column, and every free square has one, every row holds an occupied square. -/
theorem rook_row_occupied (b : Nat) (P : Nat → Nat → Prop)
    (hno : ∀ r c r1 c1, r < b → c < b → r1 < b → c1 < b → P r c → P r1 c1 →
      (r1 = r ∨ c1 = c) → r1 = r ∧ c1 = c)
    (hatt : ∀ r c, r < b → c < b → ¬ P r c →
      ∃ r1 c1, r1 < b ∧ c1 < b ∧ P r1 c1 ∧ (r1 = r ∨ c1 = c))
    (r : Nat) (hr : r < b) : ∃ c, c < b ∧ P r c := by
  by_contra hempty
  have hrow : ∀ c, c < b → ¬ P r c := fun c hc hP => hempty ⟨c, hc, hP⟩
  have hcol : ∀ c, ∃ r1, c < b → r1 < b ∧ r1 ≠ r ∧ P r1 c := by
    intro c
    by_cases hc : c < b
    · obtain ⟨r1, c1, hr1, hc1, hP, hor⟩ := hatt r c hr hc (hrow c hc)
      rcases hor with h | h
      · exact absurd (h ▸ hP) (hrow c1 hc1)
      · refine ⟨r1, fun _ => ⟨hr1, ?_, h ▸ hP⟩⟩
        intro h1
        exact hrow c1 hc1 (h1 ▸ hP)
    · exact ⟨0, fun h => absurd h hc⟩
  choose f hf using hcol
  have hcard : ((Finset.range b).erase r).card < (Finset.range b).card := by
    rw [Finset.card_erase_of_mem (Finset.mem_range.mpr hr), Finset.card_range]
    omega
  obtain ⟨c1, hc1, c2, hc2, hne, heq⟩ :=
    Finset.exists_ne_map_eq_of_card_lt_of_maps_to hcard (f := f) (by
      intro c hc
      have h := hf c (Finset.mem_range.mp hc)
      exact Finset.mem_erase.mpr ⟨h.2.1, Finset.mem_range.mpr h.1⟩)
  have h1 := hf c1 (Finset.mem_range.mp hc1)
  have h2 := hf c2 (Finset.mem_range.mp hc2)
  have := hno (f c1) c1 (f c2) c2 h1.1 (Finset.mem_range.mp hc1) h2.1
    (Finset.mem_range.mp hc2) h1.2.2 h2.2.2 (Or.inl heq.symm)
  exact hne this.2.symm

/-- The squares occupied by a stable placement are one in every row and one in every
column, and conversely. -/
theorem rook_stable_iff (b : Nat) (P : Nat → Nat → Prop) :
    (∀ r c, r < b → c < b →
      (P r c ↔ ∀ r1 c1, r1 < b → c1 < b → P r1 c1 → (r1 = r ∨ c1 = c) → r1 = r ∧ c1 = c)) ↔
    ((∀ r, r < b → ∃! c, c < b ∧ P r c) ∧ (∀ c, c < b → ∃! r, r < b ∧ P r c)) := by
  constructor
  · intro hst
    have hno : ∀ r c r1 c1, r < b → c < b → r1 < b → c1 < b → P r c → P r1 c1 →
        (r1 = r ∨ c1 = c) → r1 = r ∧ c1 = c :=
      fun r c r1 c1 hr hc hr1 hc1 hP hP1 hor => (hst r c hr hc).mp hP r1 c1 hr1 hc1 hP1 hor
    have hatt : ∀ r c, r < b → c < b → ¬ P r c →
        ∃ r1 c1, r1 < b ∧ c1 < b ∧ P r1 c1 ∧ (r1 = r ∨ c1 = c) := by
      intro r c hr hc hP
      by_contra hnone
      apply hP
      rw [hst r c hr hc]
      intro r1 c1 hr1 hc1 hP1 hor
      exact absurd ⟨r1, c1, hr1, hc1, hP1, hor⟩ hnone
    constructor
    · intro r hr
      obtain ⟨c, hc, hP⟩ := rook_row_occupied b P hno hatt r hr
      refine ⟨c, ⟨hc, hP⟩, ?_⟩
      rintro c1 ⟨hc1, hP1⟩
      exact (hno r c r c1 hr hc hr hc1 hP hP1 (Or.inl rfl)).2
    · intro c hc
      obtain ⟨r, hr, hP⟩ := rook_row_occupied b (fun c r => P r c)
        (fun c r c1 r1 hc hr hc1 hr1 hP hP1 hor =>
          (hno r c r1 c1 hr hc hr1 hc1 hP hP1 hor.symm).symm)
        (fun c r hc hr hP => by
          obtain ⟨r1, c1, hr1, hc1, hP1, hor⟩ := hatt r c hr hc hP
          exact ⟨c1, r1, hc1, hr1, hP1, hor.symm⟩) c hc
      refine ⟨r, ⟨hr, hP⟩, ?_⟩
      rintro r1 ⟨hr1, hP1⟩
      exact (hno r c r1 c hr hc hr1 hc hP hP1 (Or.inr rfl)).1
  · rintro ⟨hrows, hcols⟩ r c hr hc
    constructor
    · intro hP r1 c1 hr1 hc1 hP1 hor
      rcases hor with h | h
      · subst h
        exact ⟨rfl, (hrows r1 hr1).unique ⟨hc1, hP1⟩ ⟨hc, hP⟩⟩
      · subst h
        exact ⟨(hcols c1 hc1).unique ⟨hr1, hP1⟩ ⟨hr, hP⟩, rfl⟩
    · intro hfree
      obtain ⟨c0, ⟨hc0, hP0⟩, _⟩ := hrows r hr
      have := (hfree r c0 hr hc0 hP0 (Or.inl rfl)).2
      exact this ▸ hP0

end RookBoard

section RookNetwork

variable {α : Type} [LinearOrderedField α]

theorem matrixEntry_rookWeights (b n i j : Nat) (hi : i < n) (hj : j < n) :
    matrixEntry (rookWeights b n : List (List α)) i j =
      if i = j then 1 else if i % b = j % b ∨ i / b = j / b then -2 else 0 := by
  simp [matrixEntry, rookWeights, List.getElem?_map, List.getElem?_range, hi, hj]

/-- A network with the weights of the rook problem and a state of the right length
satisfies the invariant. -/
theorem rookWeights_valid (b n : Nat) (net : HopfieldNetwork α)
    (hw : net.m_neuronWeights = rookWeights b n) (hc : net.m_neuronCount = n)
    (hl : net.m_neuronValues.length = n) : net.Valid := by
  refine ⟨by rw [hl, hc], by rw [hw, hc]; simp [rookWeights], ?_, ?_⟩
  · intro row hrow
    rw [hw] at hrow
    simp only [rookWeights, List.mem_map, List.mem_range] at hrow
    obtain ⟨i, _, rfl⟩ := hrow
    simp [hc]
  · intro i j hi hj
    rw [hc] at hi hj
    unfold HopfieldNetwork.weight
    rw [hw, matrixEntry_rookWeights b n i j hi hj, matrixEntry_rookWeights b n j i hj hi]
    by_cases hij : i = j
    · subst hij; rfl
    · have hji : ¬ j = i := fun h => hij h.symm
      simp only [hij, hji, if_false]
      have : (i % b = j % b ∨ i / b = j / b) ↔ (j % b = i % b ∨ j / b = i / b) := by
        constructor <;> rintro (h | h) <;> [exact Or.inl h.symm; exact Or.inr h.symm;
          exact Or.inl h.symm; exact Or.inr h.symm]
      simp only [this]

/-- The potential of a square in the rook network: 1 when no other square of its row or
column is occupied, and at most -1 when one is. -/
theorem rook_potential (b n : Nat) (net : HopfieldNetwork α)
    (hw : net.m_neuronWeights = rookWeights b n) (hc : net.m_neuronCount = n)
    (i : Nat) (hi : i < n) :
    ((∀ j, j < n → net.value j = true → (i % b = j % b ∨ i / b = j / b) → j = i) →
      net.specPotential i = 1) ∧
    (∀ j, j < n → net.value j = true → (i % b = j % b ∨ i / b = j / b) → j ≠ i →
      net.specPotential i ≤ -1) := by
  have hterm : ∀ j ∈ (Finset.range n).filter (fun j => j ≠ i),
      net.weight i j * (if net.value j then 1 else 0) =
        if net.value j = true ∧ (i % b = j % b ∨ i / b = j / b) then -2 else 0 := by
    intro j hj
    rw [Finset.mem_filter, Finset.mem_range] at hj
    have hij : ¬ i = j := fun h => hj.2 h.symm
    unfold HopfieldNetwork.weight
    rw [hw, matrixEntry_rookWeights b n i j hi hj.1]
    simp only [hij, if_false]
    by_cases hv : net.value j = true <;>
      by_cases ha : (i % b = j % b ∨ i / b = j / b) <;> simp [hv, ha]
  have hself : net.weight i i = 1 := by
    unfold HopfieldNetwork.weight
    rw [hw, matrixEntry_rookWeights b n i i hi hi]
    simp
  unfold HopfieldNetwork.specPotential
  rw [hc, hself, Finset.sum_congr rfl hterm]
  constructor
  · intro hfree
    rw [Finset.sum_eq_zero, add_zero]
    intro j hj
    rw [Finset.mem_filter, Finset.mem_range] at hj
    rw [if_neg]
    rintro ⟨hv, ha⟩
    exact hj.2 (hfree j hj.1 hv ha)
  · intro j hj hv ha hne
    have hmem : j ∈ (Finset.range n).filter (fun j => j ≠ i) :=
      Finset.mem_filter.mpr ⟨Finset.mem_range.mpr hj, hne⟩
    rw [← Finset.add_sum_erase _ _ hmem, if_pos ⟨hv, ha⟩]
    have hrest : ∑ x in ((Finset.range n).filter (fun j => j ≠ i)).erase j,
        (if net.value x = true ∧ (i % b = x % b ∨ i / b = x / b) then (-2 : α) else 0) ≤ 0 := by
      apply Finset.sum_nonpos
      intro x _
      split <;> norm_num
    linarith

end RookNetwork

section RookFixed

variable {α : Type} [LinearOrderedField α] [FloorRing α]

omit [LinearOrderedField α] [FloorRing α] in
theorem list_set_eq_self_iff {β : Type} (l : List β) (i : Nat) (x : β) (h : i < l.length) :
    l.set i x = l ↔ l[i]? = some x := by
  constructor
  · intro hset
    rw [← hset, List.getElem?_set_self (by simpa using h)]
  · intro hget
    have := list_set_same l i x h
    rw [hget] at this
    exact this

omit [FloorRing α] in
/-- For `b ≥ 1` with `b*b` below `2^32`, `createRookProblem(b)` is accepted by the check
of the constructor, whatever its uninitialised loop variable holds: the network has
`b*b` neurons, all off, the weights of the rook problem and no schedule. -/
theorem createRookProblem_ok (i0 : Nat) (m : Machine α) (b : Nat) (hb : 1 ≤ b)
    (hrep : b * b < UINT_WIDTH) :
    createRookProblem i0 m b =
      .ok { m with net := rookNetwork b (b * b) (List.replicate (b * b) false) } := by
  have hpos : 0 < b * b := Nat.mul_pos hb hb
  have hne : b * b ≠ 0 := by omega
  have hempty : (List.replicate (b * b) false).isEmpty = false := by
    cases hbb : b * b with
    | zero => omega
    | succ k => rfl
  have hvalid : (rookNetwork b (b * b) (List.replicate (b * b) false) :
      HopfieldNetwork α).Valid := rookWeights_valid b (b * b) _ rfl rfl (by simp [rookNetwork])
  have hcheck : isInconsistent i0 (rookWeights b (b * b) : List (List α))
      (if (List.replicate (b * b) false).isEmpty
        then List.replicate (rookWeights b (b * b) : List (List α)).length true
        else List.replicate (b * b) false)
      (if b * b ≠ 0 then b * b else (rookWeights b (b * b) : List (List α)).length) =
      .ok .NO_ERROR := by
    rw [hempty, if_pos hne]
    exact isInconsistent_symmetric i0 _ _ (b * b) (by simp) hvalid.weights_length
      hvalid.row_length hvalid.symmetric
  unfold createRookProblem HopfieldNetwork.construct
  rw [Nat.mod_eq_of_lt hrep]
  simp only [updateNetwork_of_check i0 _ _ _ _ _ hcheck, if_true, bind, Except.bind, pure,
    Except.pure, hempty, hne, ne_eq, not_false_eq_true, HopfieldNetwork.empty, rookNetwork]
  rfl

/-- In the rook network with state `v`, `processNeuron(i)` leaves the state as it is
exactly when square `i` is occupied if and only if no other square of its row or column
is. -/
theorem rook_processNeuron_fixed (env : Env α) (m : Machine α) (b n : Nat) (v : List Bool)
    (hl : v.length = n) (i : Nat) (hi : i < n) :
    (∃ e m1, processNeuron env { m with net := rookNetwork b n v } i = .ok (e, m1) ∧
        m1.net.m_neuronValues = v) ↔
    (v[i]? = some true ↔
      ∀ j, j < n → v[j]? = some true → (i % b = j % b ∨ i / b = j / b) → j = i) := by
  have hval : ∀ j, ((rookNetwork b n v : HopfieldNetwork α).value j = true) ↔
      v[j]? = some true := by
    intro j
    unfold HopfieldNetwork.value rookNetwork
    cases h : v[j]? with
    | none => simp
    | some x => simp
  have hvalid : (rookNetwork b n v : HopfieldNetwork α).Valid :=
    rookWeights_valid b n _ rfl rfl hl
  have hpn := processNeuron_cold env { m with net := rookNetwork b n v } hvalid i hi
    (by intro tm h; cases h)
  obtain ⟨hfree1, hatt1⟩ := rook_potential b n (rookNetwork b n v : HopfieldNetwork α)
    rfl rfl i hi
  have hi' : i < v.length := hl ▸ hi
  by_cases hfree : ∀ j, j < n → v[j]? = some true → (i % b = j % b ∨ i / b = j / b) → j = i
  · have hp := hfree1 (fun j hj hv ha => hfree j hj ((hval j).mp hv) ha)
    simp only [hp, one_ne_zero, if_false, ge_iff_le, zero_le_one, decide_True] at hpn
    rw [hpn]
    simp only [Except.ok.injEq, Prod.mk.injEq, exists_and_left, exists_eq_left',
      HopfieldNetwork.withValue, rookNetwork]
    constructor
    · rintro ⟨_, m1, ⟨_, rfl⟩, hset⟩
      exact ⟨fun _ => hfree, fun _ => (list_set_eq_self_iff v i true hi').mp hset⟩
    · intro h
      exact ⟨_, _, ⟨rfl, rfl⟩, (list_set_eq_self_iff v i true hi').mpr (h.mpr hfree)⟩
  · have hfree' := hfree
    push_neg at hfree'
    obtain ⟨j, hj, hv, ha, hne⟩ := hfree'
    have hp := hatt1 j hj ((hval j).mpr hv) ha hne
    have hp0 : ¬ (rookNetwork b n v : HopfieldNetwork α).specPotential i = 0 := by
      intro h0
      rw [h0] at hp
      norm_num at hp
    have hneg : decide ((rookNetwork b n v : HopfieldNetwork α).specPotential i ≥ 0) =
        false := by
      rw [decide_eq_false_iff_not, not_le]
      linarith
    simp only [hp0, if_false, hneg] at hpn
    rw [hpn]
    simp only [Except.ok.injEq, Prod.mk.injEq, exists_and_left, exists_eq_left',
      HopfieldNetwork.withValue, rookNetwork]
    constructor
    · rintro ⟨_, m1, ⟨_, rfl⟩, hset⟩
      have hget := (list_set_eq_self_iff v i false hi').mp hset
      constructor
      · intro htrue
        rw [hget] at htrue
        cases htrue
      · intro h
        exact absurd h hfree
    · intro h
      refine ⟨_, _, ⟨rfl, rfl⟩, (list_set_eq_self_iff v i false hi').mpr ?_⟩
      have hnot : ¬ v[i]? = some true := fun h1 => hfree (h.mp h1)
      rw [List.getElem?_eq_getElem hi'] at hnot ⊢
      cases hx : v[i] with
      | false => rfl
      | true => exact absurd (by rw [hx]) hnot

end RookFixed

section RookClaim

theorem board_index (b r c : Nat) (hr : r < b) (hc : c < b) :
    r * b + c < b * b ∧ (r * b + c) / b = r ∧ (r * b + c) % b = c := by
  have hb : 0 < b := by omega
  refine ⟨?_, ?_, ?_⟩
  · have h1 : (r + 1) * b ≤ b * b := Nat.mul_le_mul_right b hr
    rw [add_mul, one_mul] at h1
    omega
  · rw [Nat.add_comm, Nat.add_mul_div_right _ _ hb, Nat.div_eq_of_lt hc, Nat.zero_add]
  · rw [Nat.add_comm, Nat.add_mul_mod_self_right, Nat.mod_eq_of_lt hc]

theorem board_coordinates (b i : Nat) (hi : i < b * b) :
    i / b < b ∧ i % b < b ∧ i / b * b + i % b = i := by
  have hb : 0 < b := by
    rcases Nat.eq_zero_or_pos b with h | h
    · subst h; simp at hi
    · exact h
  exact ⟨Nat.div_lt_of_lt_mul hi, Nat.mod_lt _ hb, Nat.div_add_mod' i b⟩

/-- The condition on square `r*b+c` in terms of indices is the condition in terms of rows
and columns. -/
theorem rook_square_iff (b : Nat) (Q : Nat → Prop) (r c : Nat) (hr : r < b) (hc : c < b) :
    (∀ j, j < b * b → Q j →
      ((r * b + c) % b = j % b ∨ (r * b + c) / b = j / b) → j = r * b + c) ↔
    (∀ r1 c1, r1 < b → c1 < b → Q (r1 * b + c1) → (r1 = r ∨ c1 = c) → r1 = r ∧ c1 = c) := by
  obtain ⟨_, hdiv, hmod⟩ := board_index b r c hr hc
  rw [hdiv, hmod]
  constructor
  · intro hA r1 c1 hr1 hc1 hQ hor
    obtain ⟨hlt1, hdiv1, hmod1⟩ := board_index b r1 c1 hr1 hc1
    have hj := hA (r1 * b + c1) hlt1 hQ (by
      rw [hdiv1, hmod1]
      rcases hor with h | h
      · exact Or.inr h.symm
      · exact Or.inl h.symm)
    have h1 := congrArg (fun x => x / b) hj
    have h2 := congrArg (fun x => x % b) hj
    simp only [hdiv1, hmod1, hdiv, hmod] at h1 h2
    exact ⟨h1, h2⟩
  · intro hB j hj hQ hor
    obtain ⟨hr1, hc1, hsum⟩ := board_coordinates b j hj
    have := hB (j / b) (j % b) hr1 hc1 (by rw [hsum]; exact hQ) (by
      rcases hor with h | h
      · exact Or.inr h.symm
      · exact Or.inl h.symm)
    rw [← hsum, this.1, this.2]

/-- The fixed-point condition over the indices below `b*b` is the condition over the
squares of the board. -/
theorem rook_index_iff (b : Nat) (Q : Nat → Prop) :
    (∀ i, i < b * b →
      (Q i ↔ ∀ j, j < b * b → Q j → (i % b = j % b ∨ i / b = j / b) → j = i)) ↔
    (∀ r c, r < b → c < b →
      (Q (r * b + c) ↔
        ∀ r1 c1, r1 < b → c1 < b → Q (r1 * b + c1) → (r1 = r ∨ c1 = c) → r1 = r ∧ c1 = c)) := by
  constructor
  · intro h r c hr hc
    rw [h (r * b + c) (board_index b r c hr hc).1, rook_square_iff b Q r c hr hc]
  · intro h i hi
    obtain ⟨hr, hc, hsum⟩ := board_coordinates b i hi
    have h1 := h (i / b) (i % b) hr hc
    rw [← rook_square_iff b Q (i / b) (i % b) hr hc, hsum] at h1
    exact h1

variable {α : Type} [LinearOrderedField α] [FloorRing α]

/-- C22. For a board size `b ≥ 1` with `b*b < 2^32`, `createRookProblem(b)` is accepted by
the check of the constructor, whatever its uninitialised loop variable holds, and yields
a valid network of `b*b` neurons without schedule. For every state `v` of that network,
`processNeuron(i)` leaves the state as it is for every `i < b*b` if and only if every row
of the board holds exactly one neuron that is on and every column holds exactly one; the
neuron of row `r` and column `c` is `v[r*b+c]`. -/
theorem createRookProblem_fixed_points (env : Env α) (i0 : Nat) (m0 : Machine α) (b : Nat)
    (hb : 1 ≤ b) (hrep : b * b < UINT_WIDTH) :
    ∃ m, createRookProblem i0 m0 b = .ok m ∧ m.net.Valid ∧ m.net.m_neuronCount = b * b ∧
      m.net.m_temperatureModule = none ∧ m.raised = m0.raised ∧
      ∀ v : List Bool, v.length = b * b →
        ((∀ i, i < b * b → ∃ e m1,
            processNeuron env { m with net := { m.net with m_neuronValues := v } } i =
              .ok (e, m1) ∧ m1.net.m_neuronValues = v) ↔
          ((∀ r, r < b → ∃! c, c < b ∧ v[r * b + c]? = some true) ∧
            (∀ c, c < b → ∃! r, r < b ∧ v[r * b + c]? = some true))) := by
  refine ⟨_, createRookProblem_ok i0 m0 b hb hrep,
    rookWeights_valid b (b * b) _ rfl rfl (by simp [rookNetwork]), rfl, rfl, rfl, ?_⟩
  intro v hv
  rw [← rook_stable_iff b (fun r c => v[r * b + c]? = some true),
    ← rook_index_iff b (fun i => v[i]? = some true)]
  constructor
  · intro h i hi
    exact (rook_processNeuron_fixed env m0 b (b * b) v hv i hi).mp (h i hi)
  · intro h i hi
    exact (rook_processNeuron_fixed env m0 b (b * b) v hv i hi).mpr (h i hi)

end RookClaim

/-- The theorem `createRookProblem_fixed_points` for the 2×2 board. -/
theorem createRookProblem_fixed_points_witness :
    ∃ m, createRookProblem 0 (exampleMachine [] [] none) 2 = .ok m ∧ m.net.Valid ∧
      m.net.m_neuronCount = 2 * 2 ∧
      m.net.m_temperatureModule = none ∧ m.raised = (exampleMachine [] [] none).raised ∧
      ∀ v : List Bool, v.length = 2 * 2 →
        ((∀ i, i < 2 * 2 → ∃ e m1,
            processNeuron exampleEnv { m with net := { m.net with m_neuronValues := v } } i =
              .ok (e, m1) ∧ m1.net.m_neuronValues = v) ↔
          ((∀ r, r < 2 → ∃! c, c < 2 ∧ v[r * 2 + c]? = some true) ∧
            (∀ c, c < 2 → ∃! r, r < 2 ∧ v[r * 2 + c]? = some true))) :=
  createRookProblem_fixed_points exampleEnv 0 (exampleMachine [] [] none) 2 (by decide)
    (by decide)

/-- The network of the 2×2 board as the code builds it, and two updates on it: with the
diagonal occupied `processNeuron(1)` changes nothing, with the first row occupied
`processNeuron(1)` switches neuron 1 off. -/
theorem createRookProblem_two :
    createRookProblem 0 (exampleMachine [] [] none) 2 =
        .ok (exampleMachine [[1, -2, -2, 0], [-2, 1, 0, -2], [-2, 0, 1, -2], [0, -2, -2, 1]]
          [false, false, false, false] none) ∧
      processNeuron exampleEnv
          (exampleMachine [[1, -2, -2, 0], [-2, 1, 0, -2], [-2, 0, 1, -2], [0, -2, -2, 1]]
            [true, false, false, true] none) 1 =
        .ok (.NO_ERROR,
          exampleMachine [[1, -2, -2, 0], [-2, 1, 0, -2], [-2, 0, 1, -2], [0, -2, -2, 1]]
            [true, false, false, true] none) ∧
      processNeuron exampleEnv
          (exampleMachine [[1, -2, -2, 0], [-2, 1, 0, -2], [-2, 0, 1, -2], [0, -2, -2, 1]]
            [true, true, false, false] none) 1 =
        .ok (.NO_ERROR,
          exampleMachine [[1, -2, -2, 0], [-2, 1, 0, -2], [-2, 0, 1, -2], [0, -2, -2, 1]]
            [true, false, false, false] none) := by
  refine ⟨?_, ?_, ?_⟩
  · norm_num [createRookProblem, rookWeights, HopfieldNetwork.construct,
      HopfieldNetwork.empty, updateNetwork, isInconsistent, rowSizeLoop, symmetryOuter,
      symmetryInner, readWeight, readAt, exampleMachine, UINT_WIDTH, List.range,
      List.range.loop, List.range', bind, Except.bind, pure, Except.pure]
    rfl
  · norm_num [processNeuron, calculatePotential, calculatePotentialLoop, exampleMachine,
      setNeuronValue, writeAt, readWeight, readAt, List.range, List.range.loop, bind,
      Except.bind, pure, Except.pure]
  · norm_num [processNeuron, calculatePotential, calculatePotentialLoop, exampleMachine,
      setNeuronValue, writeAt, readWeight, readAt, List.range, List.range.loop, bind,
      Except.bind, pure, Except.pure]

/-! ## The potential and the trial in `double` -/

section DoubleRounding

variable {α : Type} [LinearOrderedField α] [FloorRing α]

theorem roundHalfEven_of_lt (y : α) (f : ℤ) (h1 : (f : α) ≤ y) (h2 : y - f < 1 / 2) :
    roundHalfEven y = f := by
  have hf : ⌊y⌋ = f := by
    rw [Int.floor_eq_iff]
    constructor
    · exact h1
    · linarith
  unfold roundHalfEven
  rw [hf, if_pos h2]

theorem roundHalfEven_of_gt (y : α) (f : ℤ) (h1 : 1 / 2 < y - f) (h2 : y < f + 1) :
    roundHalfEven y = f + 1 := by
  have hf : ⌊y⌋ = f := by
    rw [Int.floor_eq_iff]
    constructor
    · linarith
    · exact h2
  unfold roundHalfEven
  rw [hf, if_neg (by linarith), if_pos h1]

theorem roundHalfEven_intCast (z : ℤ) : roundHalfEven (z : α) = z := by
  apply roundHalfEven_of_lt
  · exact le_refl _
  · simp

/-- Rounding to the nearest integer moves a number by at most one half. -/
theorem roundHalfEven_error (y : α) : |(roundHalfEven y : α) - y| ≤ 1 / 2 := by
  have h1 := Int.floor_le y
  have h2 := Int.lt_floor_add_one y
  unfold roundHalfEven
  rw [abs_le]
  split
  · constructor <;> linarith
  · split
    · push_cast
      constructor <;> linarith
    · have heq : y - (⌊y⌋ : α) = 1 / 2 := by
        rename_i ha hb
        exact le_antisymm (not_lt.mp hb) (not_lt.mp ha)
      split
      · constructor <;> linarith
      · push_cast
        constructor <;> linarith

/-- The spacing around a number whose binade is known. -/
theorem Double.quantum_eq (x : α) (e : ℤ) (he : -1022 ≤ e) (hlo : (2 : α) ^ e ≤ |x|)
    (hhi : |x| < (2 : α) ^ (e + 1)) : Double.quantum x = (2 : α) ^ (e - 52) := by
  have hpos : 0 < |x| := lt_of_lt_of_le (by positivity) hlo
  have hlog : Int.log 2 |x| = e := by
    apply le_antisymm
    · have := (Int.lt_zpow_iff_log_lt (R := α) (b := 2) (by norm_num) hpos (x := e + 1)).mp
        (by exact_mod_cast hhi)
      omega
    · exact (Int.zpow_le_iff_le_log (R := α) (b := 2) (by norm_num) hpos).mp
        (by exact_mod_cast hlo)
  unfold Double.quantum
  rw [hlog, max_eq_left he]

/-- Evaluation of `Double.round` on a number whose binade is known. -/
theorem Double.round_eq (x : α) (e k : ℤ) (he : -1022 ≤ e) (hlo : (2 : α) ^ e ≤ |x|)
    (hhi : |x| < (2 : α) ^ (e + 1)) (hk : roundHalfEven (x / (2 : α) ^ (e - 52)) = k)
    (hfin : |(k : α) * (2 : α) ^ (e - 52)| < 2 ^ 1024) :
    Double.round x = some ((k : α) * (2 : α) ^ (e - 52)) := by
  unfold Double.round Double.roundFinite
  rw [Double.quantum_eq x e he hlo hhi, hk, if_pos hfin]

theorem Double.round_zero : Double.round (0 : α) = some 0 := by
  unfold Double.round Double.roundFinite
  have h0 : roundHalfEven ((0 : α) / Double.quantum 0) = 0 := by
    rw [zero_div]
    exact_mod_cast @roundHalfEven_intCast α _ _ 0
  rw [h0]
  simp

end DoubleRounding

section DoublePotential

variable {α : Type} [LinearOrderedField α] [FloorRing α]

/-- The loop of `calculatePotential` in `double` adds one summand for each index it runs
over, in the order of the list. -/
theorem Double.calculatePotentialLoop_foldl (net : HopfieldNetwork α) (hv : net.Valid) (i : Nat)
    (hi : i < net.m_neuronCount) (l : List Nat) (hl : ∀ j ∈ l, j < net.m_neuronCount)
    (acc : Option α) :
    Double.calculatePotentialLoop net i l acc =
      .ok ((l.map (net.potentialTerm i)).foldl Double.add acc) := by
  induction l generalizing acc with
  | nil => simp [Double.calculatePotentialLoop, pure, Except.pure]
  | cons j js ih =>
      have hj : j < net.m_neuronCount := hl j (List.mem_cons_self _ _)
      have hjs : ∀ x ∈ js, x < net.m_neuronCount := fun x hx => hl x (List.mem_cons_of_mem _ hx)
      unfold Double.calculatePotentialLoop
      rw [hv.readWeight hi hj]
      by_cases hji : j = i
      · subst hji
        simp only [if_true, bind, Except.bind, ih hjs, List.map_cons, List.foldl_cons,
          HopfieldNetwork.potentialTerm]
      · simp only [hji, if_false, bind, Except.bind, hv.readValue hj, ih hjs, List.map_cons,
          List.foldl_cons, HopfieldNetwork.potentialTerm]
        congr 3
        cases net.value j <;> simp

omit [FloorRing α] in
/-- The summands of the potential add up to the potential of the specification. -/
theorem potentialTerm_sum (net : HopfieldNetwork α) (i : Nat) (hi : i < net.m_neuronCount) :
    ∑ j in Finset.range net.m_neuronCount, net.potentialTerm i j = net.specPotential i := by
  unfold HopfieldNetwork.specPotential
  rw [Finset.filter_ne', ← Finset.add_sum_erase (Finset.range net.m_neuronCount) _
    (Finset.mem_range.mpr hi)]
  congr 1
  · simp [HopfieldNetwork.potentialTerm]
  · apply Finset.sum_congr rfl
    intro j hj
    have : j ≠ i := Finset.ne_of_mem_erase hj
    simp [HopfieldNetwork.potentialTerm, this]

/-- When no partial sum is changed by rounding, the sum accumulated in `double` is the
exact sum. -/
theorem Double.sum_range_exact (f : Nat → α) (n : Nat)
    (hexact : ∀ k, k ≤ n → Double.round (∑ j in Finset.range k, f j) =
      some (∑ j in Finset.range k, f j)) :
    ∀ k, k ≤ n → Double.sum ((List.range k).map f) = some (∑ j in Finset.range k, f j) := by
  intro k
  induction k with
  | zero => intro _; simp [Double.sum]
  | succ k ih =>
      intro hk
      have h := ih (by omega)
      unfold Double.sum at h ⊢
      rw [List.range_succ, List.map_append, List.foldl_append, h]
      show Double.round (∑ j in Finset.range k, f j + f k) = _
      rw [← Finset.sum_range_succ]
      exact hexact (k + 1) hk

/-- C4, amended. For a valid network and `i < count`, `calculatePotential(i)` computed in
`double` returns the sum of the summands `weights[i][i]` (for `j = i`, whatever
`state[i]` is) and `weights[i][j] * (1 if state[j] else 0)` (for `j ≠ i`), accumulated
from 0 in the order of `j` with every addition rounded; when no partial sum is changed
by rounding, that is `weights[i][i]` plus the sum over all `j ≠ i` of
`weights[i][j] * (1 if state[j] else 0)`. -/
theorem calculatePotential_in_double (net : HopfieldNetwork α) (hv : net.Valid) (i : Nat)
    (hi : i < net.m_neuronCount) :
    Double.calculatePotential net i =
      .ok (Double.sum ((List.range net.m_neuronCount).map (net.potentialTerm i))) ∧
    ((∀ k, k ≤ net.m_neuronCount →
        Double.round (∑ j in Finset.range k, net.potentialTerm i j) =
          some (∑ j in Finset.range k, net.potentialTerm i j)) →
      Double.calculatePotential net i = .ok (some (net.weight i i +
        ∑ j in (Finset.range net.m_neuronCount).filter (fun j => j ≠ i),
          net.weight i j * (if net.value j then 1 else 0)))) := by
  have h1 : Double.calculatePotential net i =
      .ok (Double.sum ((List.range net.m_neuronCount).map (net.potentialTerm i))) := by
    unfold Double.calculatePotential Double.sum
    exact Double.calculatePotentialLoop_foldl net hv i hi _ (fun j hj => List.mem_range.mp hj) _
  refine ⟨h1, fun hexact => ?_⟩
  rw [h1, Double.sum_range_exact (net.potentialTerm i) net.m_neuronCount hexact _ (le_refl _),
    potentialTerm_sum net i hi]
  rfl

end DoublePotential

/-- The two roundings that decide the example of `calculatePotential` in `double`. -/
theorem Double.round_absorbs_one :
    Double.round (100000000000000000 : ℚ) = some 100000000000000000 ∧
    Double.round (100000000000000001 : ℚ) = some 100000000000000000 := by
  constructor
  · have h := Double.round_eq (100000000000000000 : ℚ) 56 6250000000000000 (by norm_num)
      (by norm_num) (by norm_num) (by
        have : (100000000000000000 : ℚ) / 2 ^ ((56 : ℤ) - 52) =
            ((6250000000000000 : ℤ) : ℚ) := by norm_num
        rw [this, roundHalfEven_intCast]) (by norm_num)
    rw [h]
    norm_num
  · have h := Double.round_eq (100000000000000001 : ℚ) 56 6250000000000000 (by norm_num)
      (by norm_num) (by norm_num) (by
        apply roundHalfEven_of_lt <;> norm_num) (by norm_num)
    rw [h]
    norm_num

/-- C4, as stated, fails in `double`: on the valid network with weights
`[[1e17,1,-1e17],[1,0,0],[-1e17,0,0]]` and state `[false,true,true]`,
`calculatePotential(0)` returns 0, because `1e17 + 1` rounds to `1e17`, while
`weights[0][0]` plus the sum over `j ≠ 0` of `weights[0][j] * state[j]` is 1. -/
theorem calculatePotential_rounding_counterexample :
    (exampleMachine [[100000000000000000, 1, -100000000000000000], [1, 0, 0],
        [-100000000000000000, 0, 0]] [false, true, true] none).net.Valid ∧
    Double.calculatePotential
      (exampleMachine [[100000000000000000, 1, -100000000000000000], [1, 0, 0],
        [-100000000000000000, 0, 0]] [false, true, true] none).net 0 = .ok (some 0) ∧
    (exampleMachine [[100000000000000000, 1, -100000000000000000], [1, 0, 0],
        [-100000000000000000, 0, 0]] [false, true, true] none).net.weight 0 0 +
      ∑ j in (Finset.range 3).filter (fun j => j ≠ 0),
        (exampleMachine [[100000000000000000, 1, -100000000000000000], [1, 0, 0],
          [-100000000000000000, 0, 0]] [false, true, true] none).net.weight 0 j *
        (if (exampleMachine [[100000000000000000, 1, -100000000000000000], [1, 0, 0],
          [-100000000000000000, 0, 0]] [false, true, true] none).net.value j
          then 1 else 0) = 1 := by
  have hvalid : (exampleMachine [[100000000000000000, 1, -100000000000000000], [1, 0, 0],
      [-100000000000000000, 0, 0]] [false, true, true] none : Machine ℚ).net.Valid := by
    refine ⟨rfl, rfl, ?_, ?_⟩
    · intro row hrow
      simp only [exampleMachine, List.mem_cons, List.mem_singleton, List.not_mem_nil,
        or_false] at hrow
      rcases hrow with h | h | h <;> rw [h] <;> rfl
    · intro i j hi hj
      have hi3 : i < 3 := hi
      have hj3 : j < 3 := hj
      interval_cases i <;> interval_cases j <;>
        simp [exampleMachine, HopfieldNetwork.weight, matrixEntry]
  refine ⟨hvalid, ?_, ?_⟩
  · have h := Double.calculatePotentialLoop_foldl _ hvalid 0 (show 0 < 3 by norm_num)
      (List.range 3) (fun j hj => List.mem_range.mp hj) (some 0)
    have t0 : (exampleMachine [[100000000000000000, 1, -100000000000000000], [1, 0, 0],
        [-100000000000000000, 0, 0]] [false, true, true] none).net.potentialTerm 0 0 =
        (100000000000000000 : ℚ) := by
      simp [HopfieldNetwork.potentialTerm, HopfieldNetwork.weight, matrixEntry, exampleMachine]
    have t1 : (exampleMachine [[100000000000000000, 1, -100000000000000000], [1, 0, 0],
        [-100000000000000000, 0, 0]] [false, true, true] none).net.potentialTerm 0 1 =
        (1 : ℚ) := by
      simp [HopfieldNetwork.potentialTerm, HopfieldNetwork.weight, HopfieldNetwork.value,
        matrixEntry, exampleMachine]
    have t2 : (exampleMachine [[100000000000000000, 1, -100000000000000000], [1, 0, 0],
        [-100000000000000000, 0, 0]] [false, true, true] none).net.potentialTerm 0 2 =
        (-100000000000000000 : ℚ) := by
      simp [HopfieldNetwork.potentialTerm, HopfieldNetwork.weight, HopfieldNetwork.value,
        matrixEntry, exampleMachine]
    have hr : List.range 3 = [0, 1, 2] := by decide
    have a0 : (0 : ℚ) + 100000000000000000 = 100000000000000000 := by norm_num
    have a1 : (100000000000000000 : ℚ) + 1 = 100000000000000001 := by norm_num
    have a2 : (100000000000000000 : ℚ) + -100000000000000000 = 0 := by norm_num
    unfold Double.calculatePotential
    show Double.calculatePotentialLoop _ 0 (List.range 3) (some 0) = _
    rw [h, hr]
    rw [List.map_cons, List.map_cons, List.map_cons, List.map_nil, List.foldl_cons,
      List.foldl_cons, List.foldl_cons, List.foldl_nil, t0, t1, t2]
    unfold Double.add
    rw [Option.some_bind, a0, Double.round_absorbs_one.1, Option.some_bind, a1,
      Double.round_absorbs_one.2, Option.some_bind, a2, Double.round_zero]
  · simp [exampleMachine, HopfieldNetwork.weight, HopfieldNetwork.value, matrixEntry,
      Finset.sum_filter, Finset.sum_range_succ]

/-- The roundings of the example below: 1 and -1 are `double` numbers. -/
theorem Double.round_units :
    Double.round (1 : ℚ) = some 1 ∧ Double.round (-1 : ℚ) = some (-1) := by
  constructor
  · have h := Double.round_eq (1 : ℚ) 0 4503599627370496 (by norm_num) (by norm_num)
      (by norm_num) (by
        have : (1 : ℚ) / 2 ^ ((0 : ℤ) - 52) = ((4503599627370496 : ℤ) : ℚ) := by norm_num
        rw [this, roundHalfEven_intCast]) (by norm_num)
    rw [h]
    norm_num
  · have h := Double.round_eq (-1 : ℚ) 0 (-4503599627370496) (by norm_num) (by norm_num)
      (by norm_num) (by
        have : (-1 : ℚ) / 2 ^ ((0 : ℤ) - 52) = ((-4503599627370496 : ℤ) : ℚ) := by norm_num
        rw [this, roundHalfEven_intCast]) (by norm_num)
    rw [h]
    norm_num

/-- The theorem `calculatePotential_in_double` on the two-neuron network with weights
`[[1,-2],[-2,1]]` and state `[true,true]`, for neuron 0: the partial sums 0, 1 and -1 are
not changed by rounding, and the potential is `1 + -2 * 1`. -/
theorem calculatePotential_in_double_witness :
    Double.calculatePotential (exampleMachine [[1, -2], [-2, 1]] [true, true] none).net 0 =
      .ok (Double.sum ((List.range 2).map
        ((exampleMachine [[1, -2], [-2, 1]] [true, true] none).net.potentialTerm 0))) ∧
    Double.calculatePotential (exampleMachine [[1, -2], [-2, 1]] [true, true] none).net 0 =
      .ok (some ((exampleMachine [[1, -2], [-2, 1]] [true, true] none).net.weight 0 0 +
        ∑ j in (Finset.range 2).filter (fun j => j ≠ 0),
          (exampleMachine [[1, -2], [-2, 1]] [true, true] none).net.weight 0 j *
          (if (exampleMachine [[1, -2], [-2, 1]] [true, true] none).net.value j
            then 1 else 0))) := by
  have h := calculatePotential_in_double
    (exampleMachine [[1, -2], [-2, 1]] [true, true] none).net
    (exampleMachine_valid_two 1 (-2) 1 true true none) 0 (by decide)
  refine ⟨h.1, h.2 ?_⟩
  intro k hk
  have hk2 : k ≤ 2 := hk
  interval_cases k
  · simpa using (Double.round_zero : Double.round (0 : ℚ) = some 0)
  · simpa [Finset.sum_range_succ, HopfieldNetwork.potentialTerm, HopfieldNetwork.weight,
      matrixEntry, exampleMachine] using Double.round_units.1
  · have hsum : ∑ j in Finset.range 2,
        (exampleMachine [[1, -2], [-2, 1]] [true, true] none).net.potentialTerm 0 j = -1 := by
      simp [Finset.sum_range_succ, HopfieldNetwork.potentialTerm, HopfieldNetwork.weight,
        HopfieldNetwork.value, matrixEntry, exampleMachine]
      norm_num
    rw [hsum]
    exact Double.round_units.2

section DoubleTrial

variable {α : Type} [LinearOrderedField α] [FloorRing α]

/-- `BernoulliTrial` in `double` is the draw of `randomNumber` followed by
`Double.trialOutcome`. -/
theorem Double.BernoulliTrial_draw_then_test (env : Env α) (m : Machine α) (input : α) :
    Double.BernoulliTrial env m input =
      (randomNumber env m).bind fun r =>
        (Double.trialOutcome input r.1).map fun b => (b, r.2) := by
  unfold Double.BernoulliTrial Double.trialOutcome
  cases randomNumber env m with
  | error e => rfl
  | ok r =>
      simp only [bind, Except.bind, Except.map, pure, Except.pure]
      by_cases h1 : input = 1
      · simp only [h1, if_true]
      · simp only [h1, if_false]
        by_cases hgt : input > 1
        · simp only [hgt, if_true]
          cases Double.toULong ((Double.round (ULONG_MAX : α)).bind
            fun M => Double.round (M / input)) <;> rfl
        · simp only [hgt, if_false]
          cases Double.toULong ((Double.round (ULONG_MAX : α)).bind
            fun M => Double.round (M * input)) <;> rfl

/-- In the normal range rounding changes a number by at most the fraction `2^-53` of its
size. -/
theorem Double.roundFinite_error (x : α) (hx : (2 : α) ^ (-1022 : ℤ) ≤ |x|) :
    |Double.roundFinite x - x| ≤ |x| / 2 ^ 53 := by
  have hpos : 0 < |x| := lt_of_lt_of_le (by positivity) hx
  have he : -1022 ≤ Int.log 2 |x| :=
    (Int.zpow_le_iff_le_log (R := α) (b := 2) (by norm_num) hpos).mp (by exact_mod_cast hx)
  have hlo : (2 : α) ^ Int.log 2 |x| ≤ |x| := by
    exact_mod_cast Int.zpow_log_le_self (R := α) (b := 2) (by norm_num) hpos
  have hq : Double.quantum x = (2 : α) ^ (Int.log 2 |x| - 52) := by
    unfold Double.quantum
    rw [max_eq_left he]
  have hqpos : 0 < (2 : α) ^ (Int.log 2 |x| - 52) := by positivity
  have hqval : (2 : α) ^ (Int.log 2 |x| - 52) = (2 : α) ^ Int.log 2 |x| / 2 ^ 52 := by
    rw [zpow_sub₀ (two_ne_zero), zpow_ofNat]
  unfold Double.roundFinite
  rw [hq]
  have herr := roundHalfEven_error (x / (2 : α) ^ (Int.log 2 |x| - 52))
  have hfac : (roundHalfEven (x / (2 : α) ^ (Int.log 2 |x| - 52)) : α) *
      (2 : α) ^ (Int.log 2 |x| - 52) - x =
      ((roundHalfEven (x / (2 : α) ^ (Int.log 2 |x| - 52)) : α) -
        x / (2 : α) ^ (Int.log 2 |x| - 52)) * (2 : α) ^ (Int.log 2 |x| - 52) := by
    rw [sub_mul, div_mul_cancel₀ _ hqpos.ne']
  rw [hfac, abs_mul, abs_of_pos hqpos]
  calc _ ≤ 1 / 2 * (2 : α) ^ (Int.log 2 |x| - 52) :=
        mul_le_mul_of_nonneg_right herr hqpos.le
    _ = (2 : α) ^ Int.log 2 |x| / 2 ^ 53 := by
        rw [hqval]
        ring
    _ ≤ |x| / 2 ^ 53 := div_le_div_of_nonneg_right hlo (by positivity)

/-- The conversion of `ULONG_MAX` to `double` gives `2^64`. -/
theorem Double.round_ULONG_MAX : Double.round (ULONG_MAX : α) = some (2 ^ 64) := by
  have hM : (ULONG_MAX : α) = 2 ^ 64 - 1 := by
    have : (ULONG_MAX : α) + 1 = 2 ^ 64 := by
      have h : ULONG_MAX + 1 = 2 ^ 64 := by decide
      exact_mod_cast h
    linarith
  have habs : |(ULONG_MAX : α)| = 2 ^ 64 - 1 := by
    rw [hM, abs_of_pos (by norm_num)]
  have h := Double.round_eq (ULONG_MAX : α) 63 9007199254740992 (by norm_num)
    (by rw [habs]; norm_num) (by rw [habs]; norm_num)
    (by
      have := roundHalfEven_of_gt ((ULONG_MAX : α) / 2 ^ ((63 : ℤ) - 52))
        9007199254740991 (by rw [hM]; norm_num) (by rw [hM]; norm_num)
      rw [this]
      norm_num)
    (by norm_num)
  rw [h]
  norm_num

/-- A `double` above 1 is at least `1 + 2^-52`, and below `2^1024`. -/
theorem Double.one_lt_double (x : α) (hd : Double.round x = some x) (h1 : 1 < x) :
    1 + 1 / 2 ^ 52 ≤ x ∧ x < 2 ^ 1024 := by
  unfold Double.round at hd
  have hfin : |Double.roundFinite x| < 2 ^ 1024 := by
    by_contra hcon
    rw [if_neg hcon] at hd
    cases hd
  rw [if_pos hfin, Option.some.injEq] at hd
  have hxpos : 0 < x := by linarith
  constructor
  · by_cases h2 : x < 2
    · have hq := Double.quantum_eq x 0 (by norm_num)
        (by rw [abs_of_pos hxpos]; norm_num; exact h1.le)
        (by rw [abs_of_pos hxpos]; norm_num; exact h2)
      unfold Double.roundFinite at hd
      rw [hq] at hd
      have hqv : (2 : α) ^ ((0 : ℤ) - 52) = 1 / 2 ^ 52 := by norm_num
      rw [hqv] at hd
      have hk : (4503599627370496 : ℤ) < roundHalfEven (x / (1 / 2 ^ 52)) := by
        by_contra hcon
        have hle : (roundHalfEven (x / (1 / 2 ^ 52)) : α) ≤ 4503599627370496 := by
          exact_mod_cast not_lt.mp hcon
        have : x ≤ 1 := by
          rw [← hd]
          calc (roundHalfEven (x / (1 / 2 ^ 52)) : α) * (1 / 2 ^ 52)
              ≤ 4503599627370496 * (1 / 2 ^ 52) :=
                mul_le_mul_of_nonneg_right hle (by positivity)
            _ = 1 := by norm_num
        linarith
      have hk' : (4503599627370497 : α) ≤ (roundHalfEven (x / (1 / 2 ^ 52)) : α) := by
        exact_mod_cast hk
      rw [← hd]
      calc (1 : α) + 1 / 2 ^ 52 = 4503599627370497 * (1 / 2 ^ 52) := by norm_num
        _ ≤ (roundHalfEven (x / (1 / 2 ^ 52)) : α) * (1 / 2 ^ 52) :=
          mul_le_mul_of_nonneg_right hk' (by positivity)
    · have : (2 : α) ≤ x := not_lt.mp h2
      have h52 : (1 : α) + 1 / 2 ^ 52 ≤ 2 := by norm_num
      linarith
  · rw [hd, abs_of_pos hxpos] at hfin
    exact hfin

/-- The threshold of the trial in `double` for an argument above 1: the rounded quotient
`2^64 / x` is below `2^64` and within the fraction `2^-53` of the quotient. -/
theorem Double.threshold_of_gt_one (x : α) (hd : Double.round x = some x) (h1 : 1 < x) :
    Double.round ((2 : α) ^ 64 / x) = some (Double.roundFinite ((2 : α) ^ 64 / x)) ∧
    0 ≤ Double.roundFinite ((2 : α) ^ 64 / x) ∧
    Double.roundFinite ((2 : α) ^ 64 / x) < 2 ^ 64 ∧
    |Double.roundFinite ((2 : α) ^ 64 / x) - (2 : α) ^ 64 / x| < 2 ^ 11 := by
  obtain ⟨hlow, hhigh⟩ := Double.one_lt_double x hd h1
  have hxpos : 0 < x := by linarith
  have hypos : (0 : α) < 2 ^ 64 / x := by positivity
  have hy1 : (2 : α) ^ 64 / x ≤ 2 ^ 64 / (1 + 1 / 2 ^ 52) :=
    div_le_div_of_nonneg_left (by positivity) (by positivity) hlow
  have hy2 : (2 : α) ^ 64 / (1 + 1 / 2 ^ 52) < 2 ^ 64 - 2 ^ 11 := by
    rw [div_lt_iff₀ (by positivity)]
    norm_num
  have hynorm : (2 : α) ^ (-1022 : ℤ) ≤ |(2 : α) ^ 64 / x| := by
    rw [abs_of_pos hypos, le_div_iff₀ hxpos]
    have h3 : (2 : α) ^ (-1022 : ℤ) * x ≤ (2 : α) ^ (-1022 : ℤ) * 2 ^ 1024 :=
      mul_le_mul_of_nonneg_left hhigh.le (by positivity)
    have h4 : (2 : α) ^ (-1022 : ℤ) * 2 ^ 1024 = 4 := by
      rw [zpow_neg, zpow_ofNat]
      have : (2 : α) ^ 1024 = 2 ^ 1022 * 4 := by norm_num
      rw [this]
      field_simp
    have h5 : (4 : α) ≤ 2 ^ 64 := by norm_num
    linarith
  have herr := Double.roundFinite_error ((2 : α) ^ 64 / x) hynorm
  rw [abs_of_pos hypos] at herr
  have herr2 : (2 : α) ^ 64 / x / 2 ^ 53 < 2 ^ 11 := by
    rw [div_lt_iff₀ (by positivity)]
    have : (2 : α) ^ 11 * 2 ^ 53 = 2 ^ 64 := by norm_num
    rw [this]
    linarith
  have habs := abs_le.mp herr
  have hT0 : 0 ≤ Double.roundFinite ((2 : α) ^ 64 / x) := by
    have : (2 : α) ^ 64 / x / 2 ^ 53 ≤ 2 ^ 64 / x := by
      apply div_le_self hypos.le
      norm_num
    linarith [habs.1]
  have hT1 : Double.roundFinite ((2 : α) ^ 64 / x) < 2 ^ 64 := by
    have h11 : (0 : α) < 2 ^ 11 := by positivity
    linarith [habs.2]
  refine ⟨?_, hT0, hT1, lt_of_le_of_lt herr herr2⟩
  unfold Double.round
  rw [if_pos]
  rw [abs_of_nonneg hT0]
  have : (2 : α) ^ 64 < 2 ^ 1024 := by norm_num
  linarith

/-- For a `double` above 1 the trial in `double` succeeds exactly on the outputs up to
the truncated rounded quotient. -/
theorem Double.trialOutcome_of_gt_one (x : α) (hd : Double.round x = some x) (h1 : 1 < x)
    (random : Nat) :
    Double.trialOutcome x random =
      .ok (decide (random ≤ Int.toNat ⌊Double.roundFinite ((2 : α) ^ 64 / x)⌋)) := by
  obtain ⟨hround, hT0, hT1, _⟩ := Double.threshold_of_gt_one x hd h1
  have hW : (ULONG_WIDTH : α) = 2 ^ 64 := by
    have h : ULONG_WIDTH = 2 ^ 64 := rfl
    rw [h]
    norm_num
  unfold Double.trialOutcome
  simp only [ne_of_gt h1, if_false, h1, gt_iff_lt, if_true, Double.round_ULONG_MAX,
    Option.some_bind, hround, Double.toULong, toULong_ok _ hT0 (hW ▸ hT1), bind, Except.bind,
    pure, Except.pure, ge_iff_le]

/-- The number of generator outputs on which the trial in `double` succeeds, for a
`double` above 1. -/
theorem Double.trialSucceeds_count (x : α) (hd : Double.round x = some x) (h1 : 1 < x) :
    ((Finset.range ULONG_WIDTH).filter fun r => Double.trialSucceeds x r = true).card =
      Int.toNat ⌊Double.roundFinite ((2 : α) ^ 64 / x)⌋ + 1 := by
  obtain ⟨_, hT0, hT1, _⟩ := Double.threshold_of_gt_one x hd h1
  have hfloor : ⌊Double.roundFinite ((2 : α) ^ 64 / x)⌋ < (2 : ℤ) ^ 64 := by
    rw [Int.floor_lt]
    exact_mod_cast hT1
  have hle : Int.toNat ⌊Double.roundFinite ((2 : α) ^ 64 / x)⌋ + 1 ≤ ULONG_WIDTH := by
    have : Int.toNat ⌊Double.roundFinite ((2 : α) ^ 64 / x)⌋ < 2 ^ 64 := by
      rw [Int.toNat_lt' (by norm_num)]
      exact_mod_cast hfloor
    have hw : ULONG_WIDTH = 2 ^ 64 := rfl
    omega
  have hset : ((Finset.range ULONG_WIDTH).filter fun r => Double.trialSucceeds x r = true) =
      Finset.range (Int.toNat ⌊Double.roundFinite ((2 : α) ^ 64 / x)⌋ + 1) := by
    ext r
    simp only [Finset.mem_filter, Finset.mem_range, Double.trialSucceeds,
      Double.trialOutcome_of_gt_one x hd h1]
    by_cases hr : r ≤ Int.toNat ⌊Double.roundFinite ((2 : α) ^ 64 / x)⌋
    · simp only [hr, decide_True, and_true]
      omega
    · simp only [hr, decide_False, Bool.false_eq_true, and_false, false_iff]
      omega
  rw [hset, Finset.card_range]

/-- The count of `Double.trialSucceeds_count` when the floor of the threshold is known. -/
theorem Double.trialSucceeds_count_of_floor (x : α) (hd : Double.round x = some x)
    (h1 : 1 < x) (F : ℕ) (hF : Int.toNat ⌊Double.roundFinite ((2 : α) ^ 64 / x)⌋ = F) :
    ((Finset.range ULONG_WIDTH).filter fun r => Double.trialSucceeds x r = true).card =
      F + 1 := by
  rw [Double.trialSucceeds_count x hd h1, hF]

end DoubleTrial

section DoubleTrialFraction

variable {α : Type} [LinearOrderedField α] [FloorRing α]

/-- C17, amended. `BernoulliTrial(x)` computed in `double` is the draw of a 64 bit number
`r` followed by a test that depends on `x` and `r` only. For every `double` `x ≥ 1` the
test returns for every `r`, and the share of the `2^64` values of `r` on which it succeeds
differs from `1 / x` by less than `2^-52`: the threshold is the quotient of `2^64`, the
`double` nearest to `ULONG_MAX`, and `x`, rounded to 53 bits. For `x = 1` the test
succeeds for every `r`. -/
theorem bernoulli_double_success_fraction (input : α)
    (hd : Double.round input = some input) (hx : 1 ≤ input) :
    (∀ (env : Env α) (m : Machine α), Double.BernoulliTrial env m input =
      (randomNumber env m).bind fun r =>
        (Double.trialOutcome input r.1).map fun b => (b, r.2)) ∧
    (∀ r, ∃ b, Double.trialOutcome input r = .ok b) ∧
    |((((Finset.range ULONG_WIDTH).filter
          fun r => Double.trialSucceeds input r = true).card : ℕ) : α)
        / (ULONG_WIDTH : α) - 1 / input| < 1 / 2 ^ 52 ∧
    ∀ r, Double.trialOutcome (1 : α) r = .ok true := by
  have hone : ∀ r, Double.trialOutcome (1 : α) r = .ok true := fun r => by
    simp [Double.trialOutcome, pure, Except.pure]
  refine ⟨fun env m => Double.BernoulliTrial_draw_then_test env m input, ?_, ?_, hone⟩
  · intro r
    rcases eq_or_lt_of_le hx with h1 | hgt
    · exact ⟨true, h1 ▸ hone r⟩
    · exact ⟨_, Double.trialOutcome_of_gt_one input hd hgt r⟩
  have hW : (ULONG_WIDTH : α) = 2 ^ 64 := by
    have h : ULONG_WIDTH = 2 ^ 64 := rfl
    rw [h]
    norm_num
  have h52 : (0 : α) < 1 / 2 ^ 52 := by positivity
  rcases eq_or_lt_of_le hx with h1 | hgt
  · subst h1
    have hall : ((Finset.range ULONG_WIDTH).filter
        fun r => Double.trialSucceeds (1 : α) r = true) = Finset.range ULONG_WIDTH := by
      apply Finset.filter_true_of_mem
      intro r _
      simp [Double.trialSucceeds, hone r]
    rw [hall, Finset.card_range, hW]
    have : ((2 : α) ^ 64 / 2 ^ 64 - 1 / 1) = 0 := by norm_num
    rw [this, abs_zero]
    exact h52
  · obtain ⟨_, hT0, hT1, herr⟩ := Double.threshold_of_gt_one input hd hgt
    have hpos : (0 : α) < input := by linarith
    have hfl0 : (0 : ℤ) ≤ ⌊Double.roundFinite ((2 : α) ^ 64 / input)⌋ :=
      Int.floor_nonneg.mpr hT0
    have hcast : ((Int.toNat ⌊Double.roundFinite ((2 : α) ^ 64 / input)⌋ : ℕ) : α) =
        ((⌊Double.roundFinite ((2 : α) ^ 64 / input)⌋ : ℤ) : α) := by
      have := Int.toNat_of_nonneg hfl0
      exact_mod_cast congrArg (fun z : ℤ => (z : α)) this
    have hlo : ((⌊Double.roundFinite ((2 : α) ^ 64 / input)⌋ : ℤ) : α) ≤
        Double.roundFinite ((2 : α) ^ 64 / input) := Int.floor_le _
    have hhi : Double.roundFinite ((2 : α) ^ 64 / input) <
        ((⌊Double.roundFinite ((2 : α) ^ 64 / input)⌋ : ℤ) : α) + 1 :=
      Int.lt_floor_add_one _
    rw [Double.trialSucceeds_count input hd hgt, hW]
    push_cast
    rw [hcast]
    set F : α := ((⌊Double.roundFinite ((2 : α) ^ 64 / input)⌋ : ℤ) : α) with hF
    have habs := abs_lt.mp herr
    have hp : (0 : α) < 2 ^ 64 := by positivity
    have hkey : (F + 1) / 2 ^ 64 - 1 / input = (F + 1 - 2 ^ 64 / input) / 2 ^ 64 := by
      have h1 : (2 : α) ^ 64 / input / 2 ^ 64 = 1 / input := by
        rw [div_right_comm, div_self hp.ne']
      rw [sub_div, h1]
    rw [hkey, abs_lt]
    constructor
    · rw [lt_div_iff₀ hp]
      have : -(1 / 2 ^ 52 : α) * 2 ^ 64 = -4096 := by norm_num
      rw [this]
      have h11 : (2 : α) ^ 11 = 2048 := by norm_num
      linarith [habs.1]
    · rw [div_lt_iff₀ hp]
      have : (1 / 2 ^ 52 : α) * 2 ^ 64 = 4096 := by norm_num
      rw [this]
      have h11 : (2 : α) ^ 11 = 2048 := by norm_num
      linarith [habs.2]

end DoubleTrialFraction

/-- The roundings that decide the trial in `double` on the argument 3: 3 is a `double`,
and the quotient `2^64 / 3` rounds to 6148914691236516864. -/
theorem Double.round_three :
    Double.round (3 : ℚ) = some 3 ∧
    Double.roundFinite ((2 : ℚ) ^ 64 / 3) = 6148914691236516864 := by
  constructor
  · have h := Double.round_eq (3 : ℚ) 1 6755399441055744 (by norm_num) (by norm_num)
      (by norm_num) (by
        have : (3 : ℚ) / 2 ^ ((1 : ℤ) - 52) = ((6755399441055744 : ℤ) : ℚ) := by norm_num
        rw [this, roundHalfEven_intCast]) (by norm_num)
    rw [h]
    norm_num
  · have hq := Double.quantum_eq ((2 : ℚ) ^ 64 / 3) 62 (by norm_num)
      (by rw [abs_of_pos (by norm_num)]; norm_num)
      (by rw [abs_of_pos (by norm_num)]; norm_num)
    have hk : roundHalfEven ((2 : ℚ) ^ 64 / 3 / (2 : ℚ) ^ ((62 : ℤ) - 52)) =
        6004799503160661 := by
      apply roundHalfEven_of_lt <;> norm_num
    unfold Double.roundFinite
    rw [hq, hk]
    norm_num

/-- The theorem `bernoulli_double_success_fraction` for the argument 3. -/
theorem bernoulli_double_success_fraction_witness :
    (∀ (env : Env ℚ) (m : Machine ℚ), Double.BernoulliTrial env m 3 =
      (randomNumber env m).bind fun r =>
        (Double.trialOutcome (3 : ℚ) r.1).map fun b => (b, r.2)) ∧
    (∀ r, ∃ b, Double.trialOutcome (3 : ℚ) r = .ok b) ∧
    |((((Finset.range ULONG_WIDTH).filter
          fun r => Double.trialSucceeds (3 : ℚ) r = true).card : ℕ) : ℚ)
        / (ULONG_WIDTH : ℚ) - 1 / 3| < 1 / 2 ^ 52 ∧
    ∀ r, Double.trialOutcome (1 : ℚ) r = .ok true :=
  bernoulli_double_success_fraction 3 Double.round_three.1 (by norm_num)

/-- C17, as stated, fails in `double`: for the argument 3 the threshold is
6148914691236516864, not `⌊(2^64 - 1) / 3⌋ = 6148914691236517205`, so the trial succeeds
on 6148914691236516865 of the `2^64` generator outputs, and that share differs from `1/3`
by `1021 / (3 * 2^64)`, which is not below `2^-63`. -/
theorem bernoulli_double_counterexample :
    Double.round (3 : ℚ) = some 3 ∧
    (∀ r, Double.trialOutcome (3 : ℚ) r = .ok (decide (r ≤ 6148914691236516864))) ∧
    ((Finset.range ULONG_WIDTH).filter
      fun r => Double.trialSucceeds (3 : ℚ) r = true).card = 6148914691236516865 ∧
    ¬ |((((Finset.range ULONG_WIDTH).filter
          fun r => Double.trialSucceeds (3 : ℚ) r = true).card : ℕ) : ℚ)
        / (ULONG_WIDTH : ℚ) - 1 / 3| < 1 / 2 ^ 63 := by
  have hfloor : Int.toNat ⌊Double.roundFinite ((2 : ℚ) ^ 64 / 3)⌋ = 6148914691236516864 := by
    rw [Double.round_three.2]
    have h := @Int.floor_intCast ℚ _ _ 6148914691236516864
    have hc : ((6148914691236516864 : ℤ) : ℚ) = 6148914691236516864 := by norm_num
    rw [hc] at h
    rw [h]
    exact Int.toNat_ofNat 6148914691236516864
  have hcard : ((Finset.range ULONG_WIDTH).filter
      fun r => Double.trialSucceeds (3 : ℚ) r = true).card = 6148914691236516865 := by
    have h := Double.trialSucceeds_count_of_floor (3 : ℚ) Double.round_three.1 (by norm_num)
      6148914691236516864 hfloor
    have e : (6148914691236516864 : ℕ) + 1 = 6148914691236516865 := by norm_num
    exact h.trans e
  refine ⟨Double.round_three.1, ?_, hcard, ?_⟩
  · intro r
    rw [Double.trialOutcome_of_gt_one 3 Double.round_three.1 (by norm_num) r, hfloor]
  · rw [hcard]
    have hW : (ULONG_WIDTH : ℚ) = 18446744073709551616 := by
      have h : ULONG_WIDTH = 18446744073709551616 := by decide
      rw [h]
      norm_num
    rw [hW, not_lt]
    have hval : ((6148914691236516865 : ℕ) : ℚ) / 18446744073709551616 - 1 / 3 =
        -(1021 / 55340232221128654848) := by norm_num
    rw [hval, abs_neg, abs_of_pos (by norm_num)]
    norm_num

end Hopfield
